import Mathlib

/-!
# Verification of the cheatron-nthread memory writer, hijack call path, and heap allocator

A shallow embedding of the core algorithms of the `cheatron-nthread`
repository, together with proofs and refutations of the specification
claims about them.

Addresses are modelled as `Int` (JS `bigint` arithmetic is exact), bytes
as `Nat`, buffers as `List Nat`, and the remote memory of the target
process as a total function `Int → Nat`.  The in-thread `memset` calls
performed through the hijacked thread can fail (return a null pointer);
their success is modelled by an oracle `Nat → Bool` indexed by the number
of memsets issued so far.  A successful `memset(dest, v, len)` sets the
bytes of `[dest, dest+len)` to `v`; a failed one leaves memory unchanged.
-/

namespace NThreadSpec

/-- Remote memory of the target process: one byte per address. -/
abbrev Mem : Type := Int → Nat

/-- A registered read-only region (`ReadOnlyMemory` in `src/memory/romem.ts`):
the remote base address plus the local snapshot buffer. -/
structure Region where
  addr : Int
  snap : List Nat
deriving DecidableEq

/-- Placeholder region used for out-of-range list indexing (never reached on
the guarded paths). -/
def defaultRegion : Region := ⟨0, []⟩

/-- One in-thread `memset(dest, value, len)` request issued through the
captured thread (`proxy.call(crt.memset, …)` in `src/nthread.ts`). -/
structure MemsetCall where
  dest : Int
  value : Nat
  len : Nat
deriving DecidableEq

/-- `memset` semantics on the remote memory model: a successful
`memset(dest, v, len)` sets every byte of `[dest, dest+len)` to `v`. -/
def memsetMem (mem : Mem) (dest : Int) (v : Nat) (len : Nat) : Mem :=
  fun p => if dest ≤ p ∧ p < dest + (len : Int) then v else mem p

/-- The overlap test of `findOverlappingRegion` in `src/memory/romem.ts`:
`writeEnd > rStart && destAddr < rEnd`. -/
def OverlapsP (destAddr : Int) (writeLen : Nat) (r : Region) : Prop :=
  r.addr < destAddr + (writeLen : Int) ∧ destAddr < r.addr + (r.snap.length : Int)

instance (destAddr : Int) (writeLen : Nat) (r : Region) :
    Decidable (OverlapsP destAddr writeLen r) := by
  unfold OverlapsP; infer_instance

/-- `findOverlappingRegion` (`src/memory/romem.ts`): linear scan over the
registered regions returning the first whose span intersects the write
range.  We return the index into the region list rather than the object
identity. -/
def findOverlappingRegion (regions : List Region) (destAddr : Int) (writeLen : Nat) :
    Option Nat :=
  match regions with
  | [] => none
  | r :: rest =>
    if OverlapsP destAddr writeLen r then some 0
    else (findOverlappingRegion rest destAddr writeLen).map (· + 1)

/-- Result of `getOverlapInfo` (`src/memory/romem.ts`). -/
structure OverlapInfo where
  writeOffset : Nat
  overlapLen : Nat
  snapshot : List Nat
deriving DecidableEq

/-- `getOverlapInfo` (`src/memory/romem.ts`): the boundaries of the
intersection of the write range with the region, plus the snapshot slice
(`romem.local.subarray(romemOffset, romemOffset + overlapLen)`). -/
def getOverlapInfo (destAddr : Int) (writeLen : Nat) (romem : Region) : OverlapInfo :=
  let writeEnd := destAddr + (writeLen : Int)
  let rStart := romem.addr
  let rEnd := rStart + (romem.snap.length : Int)
  let overlapStart := max destAddr rStart
  let overlapEnd := min writeEnd rEnd
  let overlapLen := (overlapEnd - overlapStart).toNat
  let writeOffset := (overlapStart - destAddr).toNat
  let romemOffset := (overlapStart - rStart).toNat
  ⟨writeOffset, overlapLen, (romem.snap.drop romemOffset).take overlapLen⟩

/-- `Buffer.copy` of a slice into a list at an offset: the model of
`source.copy(romem.local, dstOffset, srcOffset, srcOffset + len)`. -/
def overwriteAt (dst : List Nat) (off : Nat) (src : List Nat) : List Nat :=
  dst.take off ++ src ++ dst.drop (off + src.length)

/-- `updateSnapshot` (`src/memory/romem.ts`): copies the just-written bytes
into the region's local snapshot at the matching offset, handling partial
overlap on either side. -/
def updateSnapshot (romem : Region) (source : List Nat) (destAddr : Int) : Region :=
  let rStart := romem.addr
  let writeStart := destAddr
  let writeEnd := writeStart + (source.length : Int)
  let rEnd := rStart + (romem.snap.length : Int)
  let overlapStart := max writeStart rStart
  let overlapEnd := min writeEnd rEnd
  if overlapEnd ≤ overlapStart then romem
  else
    let srcOffset := (overlapStart - writeStart).toNat
    let dstOffset := (overlapStart - rStart).toNat
    let len := (overlapEnd - overlapStart).toNat
    ⟨romem.addr, overwriteAt romem.snap dstOffset ((source.drop srcOffset).take len)⟩

/-- Dropping a prefix never lengthens a list (termination helper). -/
theorem length_dropWhile_le_self (p : Nat → Bool) (l : List Nat) :
    (l.dropWhile p).length ≤ l.length :=
  (List.dropWhile_sublist p).length_le

/-- The plain run-length decomposed write loop of `NThread.writeMemory`
(`src/nthread.ts:447-468`, also `writeMemoryWithPointer`): for each maximal
run of equal bytes issue one `memset`; a null return (oracle `false`)
aborts.  Arguments: the byte suffix still to process, the current index
`i` into the full buffer, the memset counter `k`, and the memory.
Returns the calls issued, `none` on completion or `some i` when the run
starting at offset `i` failed, the new counter, and the new memory. -/
def plainWrite (oracle : Nat → Bool) (destAddr : Int) (data : List Nat)
    (i k : Nat) (mem : Mem) : List MemsetCall × Option Nat × Nat × Mem :=
  match data with
  | [] => ([], none, k, mem)
  | value :: rest =>
    let runLen := 1 + (rest.takeWhile (fun b => b == value)).length
    let c : MemsetCall := ⟨destAddr + (i : Int), value, runLen⟩
    if oracle k then
      let mem' := memsetMem mem (destAddr + (i : Int)) value runLen
      let out := plainWrite oracle destAddr (rest.dropWhile (fun b => b == value))
        (i + runLen) (k + 1) mem'
      (c :: out.1, out.2.1, out.2.2.1, out.2.2.2)
    else
      ([c], some i, k + 1, mem)
termination_by data.length
decreasing_by
  simp only [List.length_cons]
  have := length_dropWhile_le_self (fun b => b == value) rest
  omega

/-- The snapshot-diffing write loop of `NThread.writeMemorySafeBuffer`
(`src/nthread.ts:580-612`): skip bytes equal to the corresponding snapshot
byte, coalesce the remaining adjacent equal bytes into runs, issue one
`memset` per run; a null return aborts.  `source`/`last` are the suffixes
still to process, aligned at index `i` of the full buffers. -/
def safeWriteBuf (oracle : Nat → Bool) (destAddr : Int) (source last : List Nat)
    (i k : Nat) (mem : Mem) : List MemsetCall × Option Nat × Nat × Mem :=
  match source, last with
  | [], _ => ([], none, k, mem)
  | value :: rest, lv :: lrest =>
    if value = lv then
      safeWriteBuf oracle destAddr rest lrest (i + 1) k mem
    else
      let runLen := 1 + (rest.takeWhile (fun b => b == value)).length
      let c : MemsetCall := ⟨destAddr + (i : Int), value, runLen⟩
      if oracle k then
        let mem' := memsetMem mem (destAddr + (i : Int)) value runLen
        let out := safeWriteBuf oracle destAddr (rest.dropWhile (fun b => b == value))
          ((lv :: lrest).drop runLen) (i + runLen) (k + 1) mem'
        (c :: out.1, out.2.1, out.2.2.1, out.2.2.2)
      else
        ([c], some i, k + 1, mem)
  | value :: rest, [] =>
    let runLen := 1 + (rest.takeWhile (fun b => b == value)).length
    let c : MemsetCall := ⟨destAddr + (i : Int), value, runLen⟩
    if oracle k then
      let mem' := memsetMem mem (destAddr + (i : Int)) value runLen
      let out := safeWriteBuf oracle destAddr (rest.dropWhile (fun b => b == value))
        ([] : List Nat) (i + runLen) (k + 1) mem'
      (c :: out.1, out.2.1, out.2.2.1, out.2.2.2)
    else
      ([c], some i, k + 1, mem)
termination_by source.length
decreasing_by
  · simp only [List.length_cons]; omega
  · simp only [List.length_cons]
    have := length_dropWhile_le_self (fun b => b == value) rest
    omega
  · simp only [List.length_cons]
    have := length_dropWhile_le_self (fun b => b == value) rest
    omega

/-- `NThread.writeMemory` (`src/nthread.ts:388-469`), fuelled so the
recursion is structural.  The fuel only bounds the recursion depth: every
recursive call of the source shrinks the buffer by at least one byte, so
`fuel = data.length` always suffices (`writeMemory` below); the fuel-0
case coincides with the source's `length === 0` early return.

Returns `(calls, written, regions, mem, k)`: the memset calls issued, the
returned byte count, and the updated region list / remote memory / memset
counter. -/
def writeMemoryF (oracle : Nat → Bool) :
    Nat → List Region → Mem → Int → List Nat → Nat →
    List MemsetCall × Nat × List Region × Mem × Nat
  | 0, regions, mem, _, _, k => ([], 0, regions, mem, k)
  | fuel + 1, regions, mem, destAddr, data, k =>
    if data.length = 0 then ([], 0, regions, mem, k)
    else
      match findOverlappingRegion regions destAddr data.length with
      | none =>
        -- No overlap — standard decomposed memset.
        let out := plainWrite oracle destAddr data 0 k mem
        (out.1, (out.2.1).getD data.length, regions, out.2.2.2, out.2.2.1)
      | some idx =>
        let romem := regions.getD idx defaultRegion
        let info := getOverlapInfo destAddr data.length romem
        -- Part before the overlap — plain writeMemory (recursive).
        let before :=
          if 0 < info.writeOffset then
            writeMemoryF oracle fuel regions mem destAddr (data.take info.writeOffset) k
          else ([], 0, regions, mem, k)
        let rs1 := before.2.2.1
        let mem1 := before.2.2.2.1
        let k1 := before.2.2.2.2
        -- Overlapping part — safe write using the snapshot, then update it.
        let overlapDest := destAddr + (info.writeOffset : Int)
        let overlapData := (data.drop info.writeOffset).take info.overlapLen
        let safe := safeWriteBuf oracle overlapDest overlapData info.snapshot 0 k1 mem1
        let w2 := (safe.2.1).getD overlapData.length
        let rs2 := rs1.set idx (updateSnapshot (rs1.getD idx defaultRegion) overlapData overlapDest)
        -- Part after the overlap — plain writeMemory (recursive).
        let afterOffset := info.writeOffset + info.overlapLen
        let after :=
          if afterOffset < data.length then
            writeMemoryF oracle fuel rs2 safe.2.2.2 (destAddr + (afterOffset : Int))
              (data.drop afterOffset) safe.2.2.1
          else ([], 0, rs2, safe.2.2.2, safe.2.2.1)
        (before.1 ++ safe.1 ++ after.1, before.2.1 + w2 + after.2.1,
          after.2.2.1, after.2.2.2.1, after.2.2.2.2)

/-- `NThread.writeMemory` with its canonical fuel. -/
def writeMemory (oracle : Nat → Bool) (regions : List Region) (mem : Mem)
    (destAddr : Int) (data : List Nat) (k : Nat) :
    List MemsetCall × Nat × List Region × Mem × Nat :=
  writeMemoryF oracle data.length regions mem destAddr data k

/-! ## Captured-thread stack computation (claim C6) -/

/-- `STACK_ADD` from `src/thread/captured-thread.ts`. -/
def STACK_ADD : Int := -8192

/-- Modelled from the spec: `Native.stackAlign16` is provided by the external
`@cheatron/native` bindings (an out-of-scope collaborator, not part of this
repository); the spec gives its contract as rounding down to a 16-byte
boundary.  `Int.emod` is non-negative, so `x - x % 16` rounds down. -/
def stackAlign16 (x : Int) : Int := x - x % 16

/-- `CapturedThread.calcStackBegin` (`src/thread/captured-thread.ts:62-64`):
`stackAlign16(baseRsp + STACK_ADD)`. -/
def calcStackBegin (baseRsp : Int) : Int := stackAlign16 (baseRsp + STACK_ADD)

/-- The `callRsp` stored during `NThread.inject` (`src/nthread.ts:140-141`):
`stackBegin - 8`. -/
def injectCallRsp (origRsp : Int) : Int := calcStackBegin origRsp - 8

/-- The spec's `align_down_16`, written from the spec's words, for the
comparison in claim C6. -/
def alignDown16 (x : Int) : Int := x - x % 16

/-! ## Run-length decomposition as the spec describes it (claim C2) -/

/-- Spec-side: the decomposition of a buffer into maximal runs of equal
bytes, each entry `(offset, value, runLen)`, starting at offset `i`.
`maximalRuns_replicate_flatten`, `maximalRuns_offsets_increasing` and
`maximalRuns_adjacent_values_ne` below justify the name. -/
def maximalRuns (data : List Nat) (i : Nat) : List (Nat × Nat × Nat) :=
  match data with
  | [] => []
  | value :: rest =>
    let runLen := 1 + (rest.takeWhile (fun b => b == value)).length
    (i, value, runLen) :: maximalRuns (rest.dropWhile (fun b => b == value)) (i + runLen)
termination_by data.length
decreasing_by
  simp only [List.length_cons]
  have := length_dropWhile_le_self (fun b => b == value) rest
  omega

/-- Spec-side: issue one `memset(dest+offset, value, runLen)` per run, in
order; a null return (oracle `false`) aborts further writes and reports the
failed run's start offset. -/
def runsToCalls (oracle : Nat → Bool) (destAddr : Int) :
    List (Nat × Nat × Nat) → Nat → List MemsetCall × Option Nat × Nat
  | [], k => ([], none, k)
  | (o, v, l) :: rest, k =>
    if oracle k then
      let out := runsToCalls oracle destAddr rest (k + 1)
      (⟨destAddr + (o : Int), v, l⟩ :: out.1, out.2.1, out.2.2)
    else ([⟨destAddr + (o : Int), v, l⟩], some o, k + 1)

/-! ## Unfolding lemmas for the write loops -/

theorem plainWrite_nil (oracle : Nat → Bool) (d : Int) (i k : Nat) (mem : Mem) :
    plainWrite oracle d [] i k mem = ([], none, k, mem) := by
  rw [plainWrite]

theorem plainWrite_cons_pos (oracle : Nat → Bool) (d : Int) (value : Nat)
    (rest : List Nat) (i k : Nat) (mem : Mem) (h : oracle k = true) :
    plainWrite oracle d (value :: rest) i k mem =
      (let runLen := 1 + (rest.takeWhile (fun b => b == value)).length
       let out := plainWrite oracle d (rest.dropWhile (fun b => b == value))
         (i + runLen) (k + 1) (memsetMem mem (d + (i : Int)) value runLen)
       (⟨d + (i : Int), value, runLen⟩ :: out.1, out.2.1, out.2.2.1, out.2.2.2)) := by
  rw [plainWrite]; simp [h]

theorem plainWrite_cons_neg (oracle : Nat → Bool) (d : Int) (value : Nat)
    (rest : List Nat) (i k : Nat) (mem : Mem) (h : oracle k = false) :
    plainWrite oracle d (value :: rest) i k mem =
      ([⟨d + (i : Int), value, 1 + (rest.takeWhile (fun b => b == value)).length⟩],
        some i, k + 1, mem) := by
  rw [plainWrite]; simp [h]

theorem safeWriteBuf_nil (oracle : Nat → Bool) (d : Int) (last : List Nat)
    (i k : Nat) (mem : Mem) :
    safeWriteBuf oracle d [] last i k mem = ([], none, k, mem) := by
  rw [safeWriteBuf]

theorem safeWriteBuf_skip (oracle : Nat → Bool) (d : Int) (value : Nat)
    (rest : List Nat) (lv : Nat) (lrest : List Nat) (i k : Nat) (mem : Mem)
    (h : value = lv) :
    safeWriteBuf oracle d (value :: rest) (lv :: lrest) i k mem =
      safeWriteBuf oracle d rest lrest (i + 1) k mem := by
  rw [safeWriteBuf]; simp [h]

theorem safeWriteBuf_run_cons_pos (oracle : Nat → Bool) (d : Int) (value : Nat)
    (rest : List Nat) (lv : Nat) (lrest : List Nat) (i k : Nat) (mem : Mem)
    (h : ¬ value = lv) (ho : oracle k = true) :
    safeWriteBuf oracle d (value :: rest) (lv :: lrest) i k mem =
      (let runLen := 1 + (rest.takeWhile (fun b => b == value)).length
       let out := safeWriteBuf oracle d (rest.dropWhile (fun b => b == value))
         ((lv :: lrest).drop runLen) (i + runLen) (k + 1)
         (memsetMem mem (d + (i : Int)) value runLen)
       (⟨d + (i : Int), value, runLen⟩ :: out.1, out.2.1, out.2.2.1, out.2.2.2)) := by
  rw [safeWriteBuf]; simp [h, ho]

theorem safeWriteBuf_run_cons_neg (oracle : Nat → Bool) (d : Int) (value : Nat)
    (rest : List Nat) (lv : Nat) (lrest : List Nat) (i k : Nat) (mem : Mem)
    (h : ¬ value = lv) (ho : oracle k = false) :
    safeWriteBuf oracle d (value :: rest) (lv :: lrest) i k mem =
      ([⟨d + (i : Int), value, 1 + (rest.takeWhile (fun b => b == value)).length⟩],
        some i, k + 1, mem) := by
  rw [safeWriteBuf]; simp [h, ho]

theorem safeWriteBuf_run_nil_pos (oracle : Nat → Bool) (d : Int) (value : Nat)
    (rest : List Nat) (i k : Nat) (mem : Mem) (ho : oracle k = true) :
    safeWriteBuf oracle d (value :: rest) [] i k mem =
      (let runLen := 1 + (rest.takeWhile (fun b => b == value)).length
       let out := safeWriteBuf oracle d (rest.dropWhile (fun b => b == value))
         ([] : List Nat) (i + runLen) (k + 1)
         (memsetMem mem (d + (i : Int)) value runLen)
       (⟨d + (i : Int), value, runLen⟩ :: out.1, out.2.1, out.2.2.1, out.2.2.2)) := by
  rw [safeWriteBuf]; simp [ho]

theorem safeWriteBuf_run_nil_neg (oracle : Nat → Bool) (d : Int) (value : Nat)
    (rest : List Nat) (i k : Nat) (mem : Mem) (ho : oracle k = false) :
    safeWriteBuf oracle d (value :: rest) [] i k mem =
      ([⟨d + (i : Int), value, 1 + (rest.takeWhile (fun b => b == value)).length⟩],
        some i, k + 1, mem) := by
  rw [safeWriteBuf]; simp [ho]

theorem maximalRuns_nil (i : Nat) : maximalRuns [] i = [] := by
  rw [maximalRuns]

theorem maximalRuns_cons (value : Nat) (rest : List Nat) (i : Nat) :
    maximalRuns (value :: rest) i =
      (i, value, 1 + (rest.takeWhile (fun b => b == value)).length) ::
        maximalRuns (rest.dropWhile (fun b => b == value))
          (i + (1 + (rest.takeWhile (fun b => b == value)).length)) := by
  rw [maximalRuns]

theorem writeMemoryF_nil (oracle : Nat → Bool) (fuel : Nat) (rs : List Region)
    (mem : Mem) (d : Int) (k : Nat) :
    writeMemoryF oracle fuel rs mem d [] k = ([], 0, rs, mem, k) := by
  cases fuel with
  | zero => rfl
  | succ n => rw [writeMemoryF]; simp

theorem writeMemoryF_plain (oracle : Nat → Bool) (fuel : Nat) (rs : List Region)
    (mem : Mem) (d : Int) (data : List Nat) (k : Nat)
    (hne : data.length ≠ 0)
    (hfind : findOverlappingRegion rs d data.length = none) :
    writeMemoryF oracle (fuel + 1) rs mem d data k =
      (let out := plainWrite oracle d data 0 k mem
       (out.1, (out.2.1).getD data.length, rs, out.2.2.2, out.2.2.1)) := by
  rw [writeMemoryF]; simp [hne, hfind]

theorem writeMemoryF_romem (oracle : Nat → Bool) (fuel : Nat) (rs : List Region)
    (mem : Mem) (d : Int) (data : List Nat) (k : Nat) (idx : Nat)
    (hne : data.length ≠ 0)
    (hfind : findOverlappingRegion rs d data.length = some idx) :
    writeMemoryF oracle (fuel + 1) rs mem d data k =
      (let info := getOverlapInfo d data.length (rs.getD idx defaultRegion)
       let before :=
         if 0 < info.writeOffset then
           writeMemoryF oracle fuel rs mem d (data.take info.writeOffset) k
         else ([], 0, rs, mem, k)
       let overlapDest := d + (info.writeOffset : Int)
       let overlapData := (data.drop info.writeOffset).take info.overlapLen
       let safe := safeWriteBuf oracle overlapDest overlapData info.snapshot 0
         before.2.2.2.2 before.2.2.2.1
       let rs2 := before.2.2.1.set idx
         (updateSnapshot (before.2.2.1.getD idx defaultRegion) overlapData overlapDest)
       let afterOffset := info.writeOffset + info.overlapLen
       let after :=
         if afterOffset < data.length then
           writeMemoryF oracle fuel rs2 safe.2.2.2 (d + (afterOffset : Int))
             (data.drop afterOffset) safe.2.2.1
         else ([], 0, rs2, safe.2.2.2, safe.2.2.1)
       (before.1 ++ safe.1 ++ after.1,
         before.2.1 + (safe.2.1).getD overlapData.length + after.2.1,
         after.2.2.1, after.2.2.2.1, after.2.2.2.2)) := by
  rw [writeMemoryF]; simp [hne, hfind]

/-! ## Claim C6: stack safety -/

/-- **C6**: `calcStackBegin(baseRsp)` equals the spec's
`align_down_16(baseRsp − 8192)`; the resulting `stackBegin` is 16-byte
aligned and lies at least 8192 bytes below the original RSP, and the
`callRsp = stackBegin − 8` stored by `inject` satisfies
`callRsp ≡ 8 (mod 16)`. -/
theorem claim_C6_stack_safety (baseRsp : Int) :
    calcStackBegin baseRsp = alignDown16 (baseRsp - 8192) ∧
    calcStackBegin baseRsp % 16 = 0 ∧
    calcStackBegin baseRsp ≤ baseRsp - 8192 ∧
    injectCallRsp baseRsp = calcStackBegin baseRsp - 8 ∧
    injectCallRsp baseRsp % 16 = 8 := by
  unfold injectCallRsp calcStackBegin stackAlign16 alignDown16 STACK_ADD
  omega

/-! ## Claim C2: plain-path run-length decomposition -/

/-- The observable part of a write-loop result: calls issued, completion
status, memset counter. -/
def proj3 (x : List MemsetCall × Option Nat × Nat × Mem) :
    List MemsetCall × Option Nat × Nat :=
  (x.1, x.2.1, x.2.2.1)

/-- The plain write loop behaves exactly like executing the maximal-run
decomposition run by run. -/
theorem plainWrite_eq_runsToCalls (oracle : Nat → Bool) (d : Int) :
    ∀ (n : Nat) (data : List Nat), data.length ≤ n → ∀ (i k : Nat) (mem : Mem),
      proj3 (plainWrite oracle d data i k mem) =
        runsToCalls oracle d (maximalRuns data i) k := by
  intro n
  induction n with
  | zero =>
    intro data h i k mem
    have hd : data = [] := List.eq_nil_of_length_eq_zero (Nat.le_zero.mp h)
    subst hd
    simp [plainWrite_nil, maximalRuns_nil, runsToCalls, proj3]
  | succ n ih =>
    intro data h i k mem
    match data with
    | [] => simp [plainWrite_nil, maximalRuns_nil, runsToCalls, proj3]
    | value :: rest =>
      rw [maximalRuns_cons]
      cases ho : oracle k with
      | true =>
        rw [plainWrite_cons_pos oracle d value rest i k mem ho]
        have hlen : (rest.dropWhile (fun b => b == value)).length ≤ n := by
          have h1 := length_dropWhile_le_self (fun b => b == value) rest
          simp only [List.length_cons] at h
          omega
        have hrec := ih (rest.dropWhile (fun b => b == value)) hlen
          (i + (1 + (rest.takeWhile (fun b => b == value)).length)) (k + 1)
          (memsetMem mem (d + (i : Int)) value
            (1 + (rest.takeWhile (fun b => b == value)).length))
        simp only [runsToCalls, ho, if_true]
        rw [← hrec]
        simp [proj3]
      | false =>
        rw [plainWrite_cons_neg oracle d value rest i k mem ho]
        simp [runsToCalls, ho, proj3]

/-- Every run offset produced from start offset `i` is at least `i`. -/
theorem maximalRuns_offset_lb :
    ∀ (n : Nat) (data : List Nat), data.length ≤ n →
      ∀ (i : Nat) (r : Nat × Nat × Nat), r ∈ maximalRuns data i → i ≤ r.1 := by
  intro n
  induction n with
  | zero =>
    intro data h i r hr
    have hd : data = [] := List.eq_nil_of_length_eq_zero (Nat.le_zero.mp h)
    subst hd
    simp [maximalRuns_nil] at hr
  | succ n ih =>
    intro data h i r hr
    match data with
    | [] => simp [maximalRuns_nil] at hr
    | value :: rest =>
      rw [maximalRuns_cons] at hr
      rcases List.mem_cons.mp hr with h1 | h1
      · subst h1; exact Nat.le_refl i
      · have hlen : (rest.dropWhile (fun b => b == value)).length ≤ n := by
          have := length_dropWhile_le_self (fun b => b == value) rest
          simp only [List.length_cons] at h
          omega
        have := ih _ hlen _ r h1
        omega

/-- The run offsets are strictly increasing (hence the memsets are issued in
increasing offset order). -/
theorem maximalRuns_offsets_increasing :
    ∀ (n : Nat) (data : List Nat), data.length ≤ n → ∀ (i : Nat),
      (maximalRuns data i).Pairwise (fun a b => a.1 < b.1) := by
  intro n
  induction n with
  | zero =>
    intro data h i
    have hd : data = [] := List.eq_nil_of_length_eq_zero (Nat.le_zero.mp h)
    subst hd
    simp [maximalRuns_nil]
  | succ n ih =>
    intro data h i
    match data with
    | [] => simp [maximalRuns_nil]
    | value :: rest =>
      rw [maximalRuns_cons]
      have hlen : (rest.dropWhile (fun b => b == value)).length ≤ n := by
        have := length_dropWhile_le_self (fun b => b == value) rest
        simp only [List.length_cons] at h
        omega
      refine List.Pairwise.cons ?_ (ih _ hlen _)
      intro r hr
      have := maximalRuns_offset_lb n _ hlen _ r hr
      omega

/-- A `takeWhile (· == v)` prefix consists of copies of `v`. -/
theorem takeWhile_beq_replicate (v : Nat) (l : List Nat) :
    l.takeWhile (fun b => b == v) =
      List.replicate (l.takeWhile (fun b => b == v)).length v := by
  induction l with
  | nil => simp
  | cons b t ih =>
    by_cases hb : b = v
    · subst hb
      simp only [List.takeWhile_cons, beq_self_eq_true, if_true, List.length_cons,
        List.replicate_succ]
      exact congrArg (b :: ·) ih
    · have : (b == v) = false := beq_false_of_ne hb
      simp [List.takeWhile_cons, this]

/-- Concatenating the runs (each as `replicate runLen value`) reproduces the
buffer: the runs really are a decomposition of the data. -/
theorem maximalRuns_replicate_flatten :
    ∀ (n : Nat) (data : List Nat), data.length ≤ n → ∀ (i : Nat),
      (maximalRuns data i).foldr
        (fun r acc => List.replicate r.2.2 r.2.1 ++ acc) [] = data := by
  intro n
  induction n with
  | zero =>
    intro data h i
    have hd : data = [] := List.eq_nil_of_length_eq_zero (Nat.le_zero.mp h)
    subst hd
    simp [maximalRuns_nil]
  | succ n ih =>
    intro data h i
    match data with
    | [] => simp [maximalRuns_nil]
    | value :: rest =>
      rw [maximalRuns_cons]
      have hlen : (rest.dropWhile (fun b => b == value)).length ≤ n := by
        have := length_dropWhile_le_self (fun b => b == value) rest
        simp only [List.length_cons] at h
        omega
      simp only [List.foldr_cons, ih _ hlen]
      rw [Nat.add_comm 1 (rest.takeWhile (fun b => b == value)).length,
        List.replicate_succ, ← takeWhile_beq_replicate, List.cons_append,
        List.takeWhile_append_dropWhile]

/-- Adjacent runs carry different byte values: each run really is maximal. -/
theorem maximalRuns_adjacent_values_ne :
    ∀ (n : Nat) (data : List Nat), data.length ≤ n → ∀ (i : Nat),
      (maximalRuns data i).Chain' (fun a b => a.2.1 ≠ b.2.1) := by
  intro n
  induction n with
  | zero =>
    intro data h i
    have hd : data = [] := List.eq_nil_of_length_eq_zero (Nat.le_zero.mp h)
    subst hd; simp [maximalRuns_nil]
  | succ n ih =>
    intro data h i
    match data with
    | [] => simp [maximalRuns_nil]
    | value :: rest =>
      rw [maximalRuns_cons]
      have hlen : (rest.dropWhile (fun b => b == value)).length ≤ n := by
        have := length_dropWhile_le_self (fun b => b == value) rest
        simp only [List.length_cons] at h; omega
      rw [List.chain'_cons']
      refine ⟨?_, ih _ hlen _⟩
      intro y hy
      cases hdw : rest.dropWhile (fun b => b == value) with
      | nil => rw [hdw, maximalRuns_nil] at hy; simp at hy
      | cons w t =>
        rw [hdw, maximalRuns_cons] at hy
        simp only [List.head?_cons, Option.mem_some_iff] at hy
        have hnot := List.head?_dropWhile_not (fun b => b == value) rest
        rw [hdw] at hnot
        simp only [List.head?_cons] at hnot
        have hwv : w ≠ value := ne_of_beq_false hnot
        subst hy
        simp only [ne_eq]
        exact fun hcontra => hwv hcontra.symm

/-- When every memset succeeds, executing the run list completes. -/
theorem runsToCalls_res_none_of_true (oracle : Nat → Bool) (d : Int)
    (runs : List (Nat × Nat × Nat)) (k : Nat) (h : ∀ n, oracle n = true) :
    (runsToCalls oracle d runs k).2.1 = none := by
  induction runs generalizing k with
  | nil => simp [runsToCalls]
  | cons r rest ih =>
    obtain ⟨o, v, l⟩ := r
    simp [runsToCalls, h k, ih (k + 1)]

/-- **C2**: on the non-overlap path, `writeMemory` issues exactly one
in-thread memset per maximal run of equal bytes, in increasing offset
order; if every memset returns non-null the call returns the buffer
length; when a memset returns null, no further memsets are issued and the
call returns the start offset of the failed run (the `runsToCalls`
execution of the decomposition).  The final three conjuncts certify that
`maximalRuns` is the maximal-run decomposition: ascending offsets, runs
concatenate back to the buffer, and adjacent runs have different values. -/
theorem claim_C2_plain_run_decomposition (oracle : Nat → Bool) (rs : List Region)
    (mem : Mem) (destAddr : Int) (data : List Nat) (k : Nat)
    (hne : data ≠ [])
    (hfind : findOverlappingRegion rs destAddr data.length = none) :
    (writeMemory oracle rs mem destAddr data k).1 =
      (runsToCalls oracle destAddr (maximalRuns data 0) k).1 ∧
    (writeMemory oracle rs mem destAddr data k).2.1 =
      ((runsToCalls oracle destAddr (maximalRuns data 0) k).2.1).getD data.length ∧
    ((∀ n, oracle n = true) →
      (writeMemory oracle rs mem destAddr data k).2.1 = data.length) ∧
    (maximalRuns data 0).Pairwise (fun a b => a.1 < b.1) ∧
    (maximalRuns data 0).foldr
      (fun r acc => List.replicate r.2.2 r.2.1 ++ acc) [] = data ∧
    (maximalRuns data 0).Chain' (fun a b => a.2.1 ≠ b.2.1) := by
  cases data with
  | nil => exact absurd rfl hne
  | cons value rest =>
    have hlen0 : (value :: rest).length ≠ 0 := by simp
    have hunfold :
        writeMemory oracle rs mem destAddr (value :: rest) k =
          (let out := plainWrite oracle destAddr (value :: rest) 0 k mem
           (out.1, (out.2.1).getD (value :: rest).length, rs, out.2.2.2, out.2.2.1)) := by
      show writeMemoryF oracle (value :: rest).length rs mem destAddr (value :: rest) k = _
      rw [show (value :: rest).length = rest.length + 1 from rfl] at hfind ⊢
      exact writeMemoryF_plain oracle rest.length rs mem destAddr (value :: rest) k
        (by simp) (by simpa using hfind)
    have hpw := plainWrite_eq_runsToCalls oracle destAddr (value :: rest).length
      (value :: rest) le_rfl 0 k mem
    have e1 : (writeMemory oracle rs mem destAddr (value :: rest) k).1 =
        (runsToCalls oracle destAddr (maximalRuns (value :: rest) 0) k).1 := by
      rw [hunfold]; exact congrArg Prod.fst hpw
    have e2 : (writeMemory oracle rs mem destAddr (value :: rest) k).2.1 =
        ((runsToCalls oracle destAddr (maximalRuns (value :: rest) 0) k).2.1).getD
          (value :: rest).length := by
      rw [hunfold]
      exact congrArg (fun o => Option.getD o (value :: rest).length)
        (congrArg (fun t => t.2.1) hpw)
    refine ⟨e1, e2, ?_, maximalRuns_offsets_increasing _ _ le_rfl 0,
      maximalRuns_replicate_flatten _ _ le_rfl 0,
      maximalRuns_adjacent_values_ne _ _ le_rfl 0⟩
    intro hall
    rw [e2, runsToCalls_res_none_of_true oracle destAddr _ k hall]
    rfl

/-- **C2 witness**: a concrete run of the theorem on the buffer
`[7, 7, 3]` with no registered regions and an always-succeeding oracle:
two memsets (`memset(100, 7, 2)` then `memset(102, 3, 1)`), return value 3. -/
theorem claim_C2_witness :
    ([7, 7, 3] : List Nat) ≠ [] ∧
    findOverlappingRegion [] (100 : Int) 3 = none ∧
    (writeMemory (fun _ => true) [] (fun _ => 0) 100 [7, 7, 3] 0).1 =
      (runsToCalls (fun _ => true) 100 (maximalRuns [7, 7, 3] 0) 0).1 := by
  refine ⟨by decide, by decide, ?_⟩
  exact (claim_C2_plain_run_decomposition (fun _ => true) [] (fun _ => 0) 100
    [7, 7, 3] 0 (by decide) (by decide)).1

/-! ## Hijacked function calls: `threadCall` (claims C3, C4) -/

/-- The x64 integer registers this system manipulates (a projection of the
native thread context). -/
structure ThreadContext where
  Rip : Int
  Rsp : Int
  Rax : Int
  Rcx : Int
  Rdx : Int
  R8 : Int
  R9 : Int
deriving DecidableEq

/-- A `threadCall` argument (`Arg` in `src/nthread.ts`): a native pointer
contributes its `address` field; numbers and bigints are used directly
(the JS `BigInt(v)` widening is exact on the modelled integers). -/
inductive Arg where
  | ptr (address : Int)
  | num (n : Int)
deriving DecidableEq

instance : Inhabited Arg := ⟨Arg.num 0⟩

/-- `toBigInt` from `NThread.threadCall`. -/
def toBigInt : Arg → Int
  | .ptr a => a
  | .num n => n

/-- `Thread.wait` results (`Native.WaitReturn`). -/
inductive WaitReturn where
  | object0
  | abandoned
  | timeout
  | failed
deriving DecidableEq

/-- The errors `threadCall` can throw (`src/errors.ts` part of the repo). -/
inductive CallErr where
  | tooManyArgs (argCount : Nat)
  | ripMismatch (target currentRip expectedRip : Int)
  | threadDied (target : Int)
  | callTimeout (target : Int) (waitResult : WaitReturn)
deriving DecidableEq

/-- Observable interactions of `threadCall` with the captured thread, in
program order. -/
inductive CallAction where
  | suspend
  | fetch
  | apply (ctx : ThreadContext)
  | resume
  | waitOn
deriving DecidableEq

/-- `NThread.threadCall` (`src/nthread.ts:308-374`).  External behaviour is
captured by three inputs: `fetched` is the context delivered by
`fetchContext` after the suspend, `waitRes` is the `wait(timeoutMs)`
outcome, and `postCtx` is the context cache after the wait's final poll
(the post-call context whose `Rax` is returned).  Returns the action trace
against the captured thread and either an error or the RAX value. -/
def threadCall (sleepAddress callRsp targetAddr : Int) (args : List Arg)
    (fetched : ThreadContext) (waitRes : WaitReturn) (postCtx : ThreadContext) :
    List CallAction × Except CallErr Int :=
  if args.length > 4 then ([], .error (.tooManyArgs args.length))
  else if fetched.Rip ≠ sleepAddress then
    ([.suspend, .fetch, .resume],
      .error (.ripMismatch targetAddr fetched.Rip sleepAddress))
  else
    let ctx1 :=
      if args.length > 0 then { fetched with Rcx := toBigInt (args.getD 0 default) }
      else fetched
    let ctx2 :=
      if args.length > 1 then { ctx1 with Rdx := toBigInt (args.getD 1 default) }
      else ctx1
    let ctx3 :=
      if args.length > 2 then { ctx2 with R8 := toBigInt (args.getD 2 default) }
      else ctx2
    let ctx4 :=
      if args.length > 3 then { ctx3 with R9 := toBigInt (args.getD 3 default) }
      else ctx3
    let ctx5 := { ctx4 with Rip := targetAddr, Rsp := callRsp }
    let trace := [.suspend, .fetch, .apply ctx5, .resume, .waitOn]
    match waitRes with
    | .failed => (trace, .error (.threadDied targetAddr))
    | .object0 => (trace, .ok postCtx.Rax)
    | r => (trace, .error (.callTimeout targetAddr r))

/-- **C3**: on a parked thread (`fetched.Rip = sleepAddress`) with at most
4 arguments and a normal return (`wait` = Object0), the context applied
before resuming has `Rcx, Rdx, R8, R9` set to the 64-bit widenings of
arguments 1..k in order (pointer arguments contribute their address;
registers beyond k keep their fetched values), `Rip` = target and `Rsp` =
the precomputed `callRsp`; the returned value is the `Rax` of the context
fetched after the wait. -/
theorem claim_C3_threadCall_success (sleepAddress callRsp targetAddr : Int)
    (args : List Arg) (fetched postCtx : ThreadContext)
    (hk : args.length ≤ 4) (hpark : fetched.Rip = sleepAddress) :
    threadCall sleepAddress callRsp targetAddr args fetched .object0 postCtx =
      ([.suspend, .fetch,
        .apply
          { Rip := targetAddr
            Rsp := callRsp
            Rax := fetched.Rax
            Rcx := if 0 < args.length then toBigInt (args.getD 0 default) else fetched.Rcx
            Rdx := if 1 < args.length then toBigInt (args.getD 1 default) else fetched.Rdx
            R8 := if 2 < args.length then toBigInt (args.getD 2 default) else fetched.R8
            R9 := if 3 < args.length then toBigInt (args.getD 3 default) else fetched.R9 },
        .resume, .waitOn],
        .ok postCtx.Rax) := by
  have h4 : ¬ args.length > 4 := by omega
  unfold threadCall
  simp only [h4, if_false, hpark, ne_eq, not_true_eq_false]
  split_ifs <;> rfl

/-- **C3 witness**: a concrete two-argument call on a parked thread.  The
pointer argument fills `Rcx` with its address, the numeric one fills
`Rdx`, `R8`/`R9` keep the fetched values, and `Rax = 99` of the post-call
context is returned. -/
theorem claim_C3_witness :
    threadCall 1000 496 2000 [.ptr 5, .num 7]
        ⟨1000, 64, 11, 21, 22, 23, 24⟩ .object0 ⟨1000, 64, 99, 0, 0, 0, 0⟩ =
      ([.suspend, .fetch, .apply ⟨2000, 496, 11, 5, 7, 23, 24⟩, .resume, .waitOn],
        .ok 99) := by
  exact (claim_C3_threadCall_success 1000 496 2000 [.ptr 5, .num 7]
    ⟨1000, 64, 11, 21, 22, 23, 24⟩ ⟨1000, 64, 99, 0, 0, 0, 0⟩
    (by decide) (by decide)).trans rfl

/-- **C4**: `threadCall` rejects more than 4 arguments with `TooManyArgs`
before any interaction with the thread (empty action trace); when the
fetched `Rip` is not the sleep address it resumes and fails with
`RipMismatch` without applying any context; after dispatching, a wait
outcome of `Failed` yields `ThreadDied`, and any other non-`Object0`
outcome yields `CallTimeout`. -/
theorem claim_C4_threadCall_errors (sleepAddress callRsp targetAddr : Int)
    (args : List Arg) (fetched postCtx : ThreadContext) (waitRes : WaitReturn) :
    (args.length > 4 →
      threadCall sleepAddress callRsp targetAddr args fetched waitRes postCtx =
        ([], .error (.tooManyArgs args.length))) ∧
    (args.length ≤ 4 → fetched.Rip ≠ sleepAddress →
      threadCall sleepAddress callRsp targetAddr args fetched waitRes postCtx =
        ([.suspend, .fetch, .resume],
          .error (.ripMismatch targetAddr fetched.Rip sleepAddress))) ∧
    (args.length ≤ 4 → fetched.Rip = sleepAddress → waitRes = .failed →
      (threadCall sleepAddress callRsp targetAddr args fetched waitRes postCtx).2 =
        .error (.threadDied targetAddr)) ∧
    (args.length ≤ 4 → fetched.Rip = sleepAddress →
        waitRes ≠ .object0 → waitRes ≠ .failed →
      (threadCall sleepAddress callRsp targetAddr args fetched waitRes postCtx).2 =
        .error (.callTimeout targetAddr waitRes)) := by
  refine ⟨?_, ?_, ?_, ?_⟩
  · intro h
    unfold threadCall
    simp [h]
  · intro h hne
    have h4 : ¬ args.length > 4 := by omega
    unfold threadCall
    simp [h4, hne]
  · intro h hpark hw
    have h4 : ¬ args.length > 4 := by omega
    subst hw
    unfold threadCall
    simp [h4, hpark]
  · intro h hpark hw1 hw2
    have h4 : ¬ args.length > 4 := by omega
    cases waitRes with
    | object0 => exact absurd rfl hw1
    | failed => exact absurd rfl hw2
    | abandoned => unfold threadCall; simp [h4, hpark]
    | timeout => unfold threadCall; simp [h4, hpark]

/-- **C4 witness**: five arguments are rejected with `TooManyArgs` and an
empty action trace (thread untouched). -/
theorem claim_C4_witness :
    threadCall 1000 496 2000 [.num 1, .num 2, .num 3, .num 4, .num 5]
        ⟨1000, 64, 11, 21, 22, 23, 24⟩ .object0 ⟨1000, 64, 99, 0, 0, 0, 0⟩ =
      ([], .error (.tooManyArgs 5)) := by
  exact (claim_C4_threadCall_errors 1000 496 2000 [.num 1, .num 2, .num 3, .num 4, .num 5]
    ⟨1000, 64, 11, 21, 22, 23, 24⟩ ⟨1000, 64, 99, 0, 0, 0, 0⟩ .object0).1 (by decide)

/-! ## Pivot gadget selection (claim C9) -/

/-- The 64-bit general purpose registers (`GeneralPurposeRegs`). -/
inductive GPReg where
  | Rax | Rcx | Rdx | Rbx | Rsp | Rbp | Rsi | Rdi
  | R8 | R9 | R10 | R11 | R12 | R13 | R14 | R15
deriving DecidableEq

/-- `leastClobberedRegs` from the gadget registry: the fixed register
priority list `[Rbx, Rbp, Rdi, Rsi]`. -/
def leastClobberedRegs : List GPReg := [.Rbx, .Rbp, .Rdi, .Rsi]

/-- An entry of the pushret gadget pool (`pushretAddresses` map values). -/
structure PushretEntry where
  pointer : Int
  regKey : GPReg
deriving DecidableEq

/-- The priority loop of `getRandomPushretAddress`: step through the
priority registers and narrow to the first non-empty class; when every
priority class is empty the entry list is left unfiltered (the loop never
assigns `validEntries`). -/
def filterByPriority (entries : List PushretEntry) : List GPReg → List PushretEntry
  | [] => entries
  | r :: rest =>
    let best := entries.filter (fun e => e.regKey == r)
    if best.length > 0 then best else filterByPriority entries rest

/-- `getRandomPushretAddress` (gadget registry source).  Discovery is taken
as already performed — the pool is the input; `randomIndex` models
`Math.floor(Math.random() * validEntries.length)` and is in range for any
actual `Math.random()` draw. -/
def getRandomPushretAddress (pool : List PushretEntry) (regKey : Option GPReg)
    (randomIndex : Nat) : Option PushretEntry :=
  if pool.length = 0 then none
  else
    let validEntries : List PushretEntry :=
      match regKey with
      | some rk => pool.filter (fun (e : PushretEntry) => e.regKey == rk)
      | none => filterByPriority pool leastClobberedRegs
    if validEntries.length = 0 then none
    else validEntries[randomIndex]?

/-- The first register of the priority list for which the pool has a
gadget. -/
def firstPriorityReg (pool : List PushretEntry) : Option GPReg :=
  leastClobberedRegs.find? (fun r => pool.any (fun e => e.regKey == r))

/-- The priority loop returns the class of the first priority register with
a gadget, or the whole pool when every priority class is empty. -/
theorem filterByPriority_eq (entries : List PushretEntry) (regs : List GPReg) :
    filterByPriority entries regs =
      match regs.find? (fun r => entries.any (fun e => e.regKey == r)) with
      | some r => entries.filter (fun e => e.regKey == r)
      | none => entries := by
  induction regs with
  | nil => simp [filterByPriority]
  | cons r rest ih =>
    simp only [filterByPriority, List.find?_cons]
    by_cases h : entries.any (fun e => e.regKey == r) = true
    · have hlen : (entries.filter (fun e => e.regKey == r)).length > 0 := by
        rcases List.any_eq_true.mp h with ⟨e, he, hpe⟩
        have : e ∈ entries.filter (fun e => e.regKey == r) :=
          List.mem_filter.mpr ⟨he, hpe⟩
        exact List.length_pos.mpr (List.ne_nil_of_mem this)
      simp [h, hlen]
    · have h0 : entries.any (fun e => e.regKey == r) = false :=
        Bool.eq_false_iff.mpr h
      have hlen : ¬ (entries.filter (fun e => e.regKey == r)).length > 0 := by
        intro hpos
        obtain ⟨e, he⟩ := List.exists_mem_of_length_pos hpos
        have := List.mem_filter.mp he
        exact h (List.any_eq_true.mpr ⟨e, this.1, this.2⟩)
      simp [h0, hlen, ih]

/-- **C9 counterexample**: a pool containing only an `Rax` gadget — a
register not in the priority list — and no explicit preference.  The claim
requires failure with `NoPivotGadget` (no priority-list register has a
gadget), but the code returns the `Rax` gadget: the priority loop leaves
the entry list unfiltered when every priority class is empty. -/
theorem claim_C9_counterexample :
    getRandomPushretAddress [⟨4096, .Rax⟩] none 0 = some ⟨4096, .Rax⟩ ∧
    (∀ r ∈ leastClobberedRegs, ∀ e ∈ [(⟨4096, .Rax⟩ : PushretEntry)], e.regKey ≠ r) ∧
    getRandomPushretAddress [⟨4096, .Rax⟩] none 0 ≠ none := by
  refine ⟨by decide, by decide, by decide⟩

/-- Unfolding helper: `getRandomPushretAddress` with no preference on a
non-empty pool. -/
theorem getRandomPushretAddress_none_eq (pool : List PushretEntry) (ri : Nat)
    (h : pool.length ≠ 0) :
    getRandomPushretAddress pool none ri =
      (if (filterByPriority pool leastClobberedRegs).length = 0 then none
       else (filterByPriority pool leastClobberedRegs)[ri]?) := by
  unfold getRandomPushretAddress
  simp [h]

/-- Unfolding helper: `getRandomPushretAddress` with an explicit preference
on a non-empty pool. -/
theorem getRandomPushretAddress_some_eq (pool : List PushretEntry) (rk : GPReg)
    (ri : Nat) (h : pool.length ≠ 0) :
    getRandomPushretAddress pool (some rk) ri =
      (if (pool.filter (fun x => x.regKey == rk)).length = 0 then none
       else (pool.filter (fun x => x.regKey == rk))[ri]?) := by
  unfold getRandomPushretAddress
  simp [h]

/-- **C9 amended**: with an explicit register preference the function
returns only gadgets registered for that register and fails when that
class is empty; with no preference it returns a gadget of the first
priority-list register having one (and every member of that class is the
result for some random index); when NO priority-list register has a gadget
but the pool is non-empty it does NOT fail — it picks from the whole pool;
it fails (`NoPivotGadget`) on an empty pool. -/
theorem claim_C9_pivot_selection (pool : List PushretEntry)
    (pref : Option GPReg) (randomIndex : Nat) :
    (∀ rk e, pref = some rk →
      getRandomPushretAddress pool pref randomIndex = some e →
      e.regKey = rk ∧ e ∈ pool) ∧
    (∀ rk, pref = some rk → pool.filter (fun x => x.regKey == rk) = [] →
      getRandomPushretAddress pool pref randomIndex = none) ∧
    (pref = none → ∀ e, getRandomPushretAddress pool pref randomIndex = some e →
      e ∈ pool ∧ ∀ r, firstPriorityReg pool = some r → e.regKey = r) ∧
    (pref = none → ∀ r, firstPriorityReg pool = some r →
      ∀ e ∈ pool.filter (fun x => x.regKey == r),
        ∃ idx, getRandomPushretAddress pool pref idx = some e) ∧
    (pref = none → firstPriorityReg pool = none → randomIndex < pool.length →
      ∃ e, getRandomPushretAddress pool pref randomIndex = some e ∧ e ∈ pool) ∧
    (pool = [] → getRandomPushretAddress pool pref randomIndex = none) := by
  refine ⟨?_, ?_, ?_, ?_, ?_, ?_⟩
  · intro rk e hp he
    subst hp
    have h0 : pool.length ≠ 0 := by
      intro h0
      rw [List.eq_nil_of_length_eq_zero h0] at he
      simp [getRandomPushretAddress] at he
    rw [getRandomPushretAddress_some_eq pool rk randomIndex h0] at he
    by_cases h1 : (pool.filter (fun x => x.regKey == rk)).length = 0
    · simp [h1] at he
    · simp only [h1, if_false] at he
      have hmem := List.getElem?_mem he
      have hsp := List.mem_filter.mp hmem
      exact ⟨by simpa using hsp.2, hsp.1⟩
  · intro rk hp hfil
    subst hp
    by_cases h0 : pool.length = 0
    · rw [List.eq_nil_of_length_eq_zero h0]
      rfl
    · rw [getRandomPushretAddress_some_eq pool rk randomIndex h0, hfil]
      rfl
  · intro hp e he
    subst hp
    have h0 : pool.length ≠ 0 := by
      intro h0
      rw [List.eq_nil_of_length_eq_zero h0] at he
      simp [getRandomPushretAddress] at he
    rw [getRandomPushretAddress_none_eq pool randomIndex h0,
      filterByPriority_eq] at he
    unfold firstPriorityReg
    cases hfind : leastClobberedRegs.find? (fun r => pool.any (fun x => x.regKey == r)) with
    | none =>
      rw [hfind] at he
      simp only [h0, if_false] at he
      exact ⟨List.getElem?_mem he, fun r hr => by simp at hr⟩
    | some r0 =>
      rw [hfind] at he
      by_cases h1 : (pool.filter (fun x => x.regKey == r0)).length = 0
      · simp [h1] at he
      · simp only [h1, if_false] at he
        have hmem := List.getElem?_mem he
        have hsp := List.mem_filter.mp hmem
        refine ⟨hsp.1, fun r hr => ?_⟩
        have hrr : r0 = r := Option.some.inj hr
        subst hrr
        simpa using hsp.2
  · intro hp r hr e hef
    subst hp
    obtain ⟨idx, hidx⟩ := List.mem_iff_getElem?.mp hef
    refine ⟨idx, ?_⟩
    have h0 : pool.length ≠ 0 := by
      intro h0
      rw [List.eq_nil_of_length_eq_zero h0] at hef
      simp at hef
    rw [getRandomPushretAddress_none_eq pool idx h0, filterByPriority_eq]
    unfold firstPriorityReg at hr
    rw [hr]
    have hlen : (pool.filter (fun x => x.regKey == r)).length ≠ 0 := by
      intro hz
      rw [List.eq_nil_of_length_eq_zero hz] at hef
      simp at hef
    simp only [hlen, if_false]
    exact hidx
  · intro hp hnone hidx
    subst hp
    have h0 : pool.length ≠ 0 := by omega
    rw [getRandomPushretAddress_none_eq pool randomIndex h0, filterByPriority_eq]
    unfold firstPriorityReg at hnone
    rw [hnone]
    simp only [h0, if_false]
    exact ⟨pool[randomIndex], List.getElem?_eq_getElem hidx,
      List.getElem?_mem (List.getElem?_eq_getElem hidx)⟩
  · intro hp
    subst hp
    rfl

/-- **C9 amended witness**: on the concrete pool
`[(8, Rsi), (16, Rbx), (24, Rbx)]` with no preference, index 1 returns the
second `Rbx` gadget — `Rbx` is the first priority register with a gadget. -/
theorem claim_C9_witness :
    getRandomPushretAddress [⟨8, .Rsi⟩, ⟨16, .Rbx⟩, ⟨24, .Rbx⟩] none 1 = some ⟨24, .Rbx⟩ ∧
    (⟨24, .Rbx⟩ : PushretEntry) ∈ [(⟨8, .Rsi⟩ : PushretEntry), ⟨16, .Rbx⟩, ⟨24, .Rbx⟩] := by
  have h := (claim_C9_pivot_selection [⟨8, .Rsi⟩, ⟨16, .Rbx⟩, ⟨24, .Rbx⟩] none 1).2.2.1
    rfl ⟨24, .Rbx⟩ (by decide)
  exact ⟨by decide, h.1⟩

/-! ## Zone heap allocator (`src/memory/heap.ts`) — claims C7, C8 -/

/-- A free block (`FreeBlock`): offset from the zone start plus size. -/
structure FreeBlock where
  offset : Nat
  size : Nat
deriving DecidableEq

/-- A heap allocation (`HeapAlloc`): remote address plus size. -/
structure HeapAlloc where
  remote : Int
  size : Nat
deriving DecidableEq

/-- `Heap` state: base address, zone sizes, per-zone bump offsets and free
lists.  (The romem registration of the RO zone lives in the region list
model and is not needed for claims C7/C8.) -/
structure Heap where
  base : Int
  totalSize : Nat
  roSize : Nat
  rwSize : Nat
  roOffset : Nat
  rwOffset : Nat
  roFreeList : List FreeBlock
  rwFreeList : List FreeBlock
deriving DecidableEq

/-- `Heap.findFreeBlock`: first-fit scan, `none` for the source's `-1`. -/
def findFreeBlock (freeList : List FreeBlock) (size : Nat) : Option Nat :=
  match freeList with
  | [] => none
  | b :: rest =>
    if b.size ≥ size then some 0
    else (findFreeBlock rest size).map (· + 1)

/-- `Heap.splitFreeBlock`: take `size` bytes from free-list entry `index`;
a larger block is shrunk in place, an exact fit is removed.  Returns the
allocated offset and the updated free list. -/
def splitFreeBlock (freeList : List FreeBlock) (index : Nat) (size : Nat) :
    Nat × List FreeBlock :=
  let block := freeList.getD index ⟨0, 0⟩
  let remainder := block.size - size
  if remainder > 0 then
    (block.offset, freeList.set index ⟨block.offset + size, remainder⟩)
  else
    (block.offset, freeList.take index ++ freeList.drop (index + 1))

/-- The merge-with-next step of `Heap.insertAndCoalesce`: the source's
check of `freeList[insertIdx + 1]`, which is the head of the suffix of
blocks at offsets `≥ offset`. -/
def mergeNext (offset size : Nat) : List FreeBlock → FreeBlock × List FreeBlock
  | next :: rest =>
    if offset + size = next.offset then (⟨offset, size + next.size⟩, rest)
    else (⟨offset, size⟩, next :: rest)
  | [] => (⟨offset, size⟩, [])

/-- The merge-with-previous step of `Heap.insertAndCoalesce`: the source's
check of `freeList[insertIdx - 1]`, which is the last entry of the prefix
of blocks at offsets `< offset`. -/
def mergePrev (pre : List FreeBlock) (curr : FreeBlock) (rest : List FreeBlock) :
    List FreeBlock :=
  match pre.getLast? with
  | some prev =>
    if prev.offset + prev.size = curr.offset then
      pre.dropLast ++ ⟨prev.offset, prev.size + curr.size⟩ :: rest
    else pre ++ curr :: rest
  | none => pre ++ curr :: rest

/-- `Heap.insertAndCoalesce`: insert the freed block into the offset-sorted
free list and merge with the immediate next and previous neighbours.  The
source scans for the insertion index `i`; here the list is split as
`pre ++ suf` with `pre = takeWhile (·.offset < offset)` (the same scan);
the merge with `freeList[i+1]` is `mergeNext` on `suf`, the merge with
`freeList[i-1]` is `mergePrev` on `pre`'s last entry. -/
def insertAndCoalesce (freeList : List FreeBlock) (offset size : Nat) :
    List FreeBlock :=
  let pre := freeList.takeWhile (fun b => b.offset < offset)
  let suf := freeList.dropWhile (fun b => b.offset < offset)
  let mn := mergeNext offset size suf
  mergePrev pre mn.1 mn.2

/-- `Heap.allocReadonly`: free-list first fit, then bump.  `none` models the
thrown errors (invalid size, zone exhausted). -/
def Heap.allocReadonly (h : Heap) (size : Nat) : Option (HeapAlloc × Heap) :=
  if size ≤ 0 then none
  else
    match findFreeBlock h.roFreeList size with
    | some idx =>
      let res := splitFreeBlock h.roFreeList idx size
      some (⟨h.base + (res.1 : Int), size⟩, { h with roFreeList := res.2 })
    | none =>
      if h.roOffset + size > h.roSize then none
      else
        some (⟨h.base + (h.roOffset : Int), size⟩,
          { h with roOffset := h.roOffset + size })

/-- `Heap.alloc` (readwrite zone): free-list first fit, then bump. -/
def Heap.alloc (h : Heap) (size : Nat) : Option (HeapAlloc × Heap) :=
  if size ≤ 0 then none
  else
    match findFreeBlock h.rwFreeList size with
    | some idx =>
      let res := splitFreeBlock h.rwFreeList idx size
      some (⟨h.base + (h.roSize : Int) + (res.1 : Int), size⟩,
        { h with rwFreeList := res.2 })
    | none =>
      if h.rwOffset + size > h.rwSize then none
      else
        some (⟨h.base + (h.roSize : Int) + (h.rwOffset : Int), size⟩,
          { h with rwOffset := h.rwOffset + size })

/-- `Heap.free`: identify the zone by address range, insert into that
zone's sorted free list and coalesce.  `none` models the
does-not-belong-to-this-heap error. -/
def Heap.free (h : Heap) (alloc : HeapAlloc) : Option Heap :=
  let addr := alloc.remote
  let baseAddr := h.base
  let roEnd := baseAddr + (h.roSize : Int)
  let rwEnd := roEnd + (h.rwSize : Int)
  if baseAddr ≤ addr ∧ addr < roEnd then
    some { h with roFreeList :=
      insertAndCoalesce h.roFreeList (addr - baseAddr).toNat alloc.size }
  else if roEnd ≤ addr ∧ addr < rwEnd then
    some { h with rwFreeList :=
      insertAndCoalesce h.rwFreeList (addr - roEnd).toNat alloc.size }
  else none

/-- `Heap.create`: the in-thread `calloc` result is passed as `base`; split
the block at `roSize` (default: half).  `none` models the invalid-size and
null-calloc errors. -/
def Heap.create (base : Int) (totalSize : Nat) (roSize? : Option Nat) :
    Option Heap :=
  let actualRoSize := roSize?.getD (totalSize / 2)
  if totalSize < actualRoSize then none
  else if base = 0 then none
  else some ⟨base, totalSize, actualRoSize, totalSize - actualRoSize, 0, 0, [], []⟩


/-! ### Free-list well-formedness -/

/-- `p` lies inside some block of the free list. -/
def coversFL (fl : List FreeBlock) (p : Nat) : Prop :=
  ∃ b ∈ fl, b.offset ≤ p ∧ p < b.offset + b.size

/-- Well-formed free list: strictly-gapped ascending blocks of positive
size — in particular, sorted by offset and no two blocks touch. -/
def FLOk (fl : List FreeBlock) : Prop :=
  fl.Pairwise (fun a b => a.offset + a.size < b.offset) ∧ ∀ b ∈ fl, 0 < b.size

theorem coversFL_nil (p : Nat) : ¬ coversFL [] p := by simp [coversFL]

theorem coversFL_cons {b : FreeBlock} {fl : List FreeBlock} {p : Nat} :
    coversFL (b :: fl) p ↔
      (b.offset ≤ p ∧ p < b.offset + b.size) ∨ coversFL fl p := by
  simp [coversFL, List.mem_cons, or_and_right, exists_or, exists_eq_or_imp]

theorem coversFL_append {l1 l2 : List FreeBlock} {p : Nat} :
    coversFL (l1 ++ l2) p ↔ coversFL l1 p ∨ coversFL l2 p := by
  simp [coversFL, List.mem_append, or_and_right, exists_or]

/-- A sublist of a well-formed free list is well-formed. -/
theorem FLOk.sublist {fl fl2 : List FreeBlock} (h : FLOk fl) (hs : fl2.Sublist fl) :
    FLOk fl2 :=
  ⟨h.1.sublist hs, fun b hb => h.2 b (hs.subset hb)⟩

/-- Assembling `P ++ mid :: S` from gapped pieces is well-formed. -/
theorem flok_sandwich (P S : List FreeBlock) (mid : FreeBlock)
    (hP : FLOk P) (hS : FLOk S) (hmidpos : 0 < mid.size)
    (hPm : ∀ b ∈ P, b.offset + b.size < mid.offset)
    (hmS : ∀ b ∈ S, mid.offset + mid.size < b.offset)
    (hPS : ∀ a ∈ P, ∀ b ∈ S, a.offset + a.size < b.offset) :
    FLOk (P ++ mid :: S) := by
  constructor
  · rw [List.pairwise_append]
    refine ⟨hP.1, List.pairwise_cons.mpr ⟨fun b hb => hmS b hb, hS.1⟩, ?_⟩
    intro a ha b hb
    rcases List.mem_cons.mp hb with rfl | hb2
    · exact hPm a ha
    · exact hPS a ha b hb2
  · intro b hb
    rcases List.mem_append.mp hb with h | h
    · exact hP.2 b h
    · rcases List.mem_cons.mp h with rfl | h2
      · exact hmidpos
      · exact hS.2 b h2

theorem coversFL_sandwich {P S : List FreeBlock} {mid : FreeBlock} {p : Nat} :
    coversFL (P ++ mid :: S) p ↔
      coversFL P p ∨ (mid.offset ≤ p ∧ p < mid.offset + mid.size) ∨ coversFL S p := by
  rw [coversFL_append, coversFL_cons]


/-- Leaf step for the coalescing proof: assembling `P ++ mid :: S` where the
`mid` interval equals the absorbed (`extra`) coverage plus the freed span. -/
theorem insert_leaf (fl P S : List FreeBlock) (mid : FreeBlock)
    (offset size : Nat) (extra : Nat → Prop)
    (hP : FLOk P) (hS : FLOk S) (hmidpos : 0 < mid.size)
    (hPm : ∀ b ∈ P, b.offset + b.size < mid.offset)
    (hmS : ∀ b ∈ S, mid.offset + mid.size < b.offset)
    (hPS : ∀ a ∈ P, ∀ b ∈ S, a.offset + a.size < b.offset)
    (hflc : ∀ p, coversFL fl p ↔ (coversFL P p ∨ extra p ∨ coversFL S p))
    (hmidc : ∀ p, (mid.offset ≤ p ∧ p < mid.offset + mid.size) ↔
      (extra p ∨ (offset ≤ p ∧ p < offset + size))) :
    FLOk (P ++ mid :: S) ∧
    (∀ p, coversFL (P ++ mid :: S) p ↔
      (coversFL fl p ∨ (offset ≤ p ∧ p < offset + size))) := by
  refine ⟨flok_sandwich P S mid hP hS hmidpos hPm hmS hPS, fun p => ?_⟩
  rw [coversFL_sandwich, hflc, hmidc]
  tauto

/-- Middle step for the coalescing proof: after the (possible) merge with
the next block we have `curr`/`rest2`; merging with the previous block (the
last entry of `pre`) preserves well-formedness and exact coverage. -/
theorem insert_stage2 (fl pre rest2 : List FreeBlock) (curr : FreeBlock)
    (offset size : Nat) (extraN : Nat → Prop)
    (hokPre : FLOk pre) (hokR : FLOk rest2) (hcpos : 0 < curr.size)
    (hcoff : curr.offset = offset)
    (hpreEnd : ∀ b ∈ pre, b.offset + b.size ≤ offset)
    (hcR : ∀ b ∈ rest2, curr.offset + curr.size < b.offset)
    (hPR : ∀ a ∈ pre, ∀ b ∈ rest2, a.offset + a.size < b.offset)
    (hcurrc : ∀ p, (curr.offset ≤ p ∧ p < curr.offset + curr.size) ↔
      (extraN p ∨ (offset ≤ p ∧ p < offset + size)))
    (hflc : ∀ p, coversFL fl p ↔ (coversFL pre p ∨ extraN p ∨ coversFL rest2 p)) :
    FLOk (mergePrev pre curr rest2) ∧
    (∀ p, coversFL (mergePrev pre curr rest2) p ↔
      (coversFL fl p ∨ (offset ≤ p ∧ p < offset + size))) := by
  cases hl : pre.getLast? with
  | none =>
    have hpre_nil : pre = [] := List.getLast?_eq_none_iff.mp hl
    have hmp : mergePrev pre curr rest2 = pre ++ curr :: rest2 := by
      unfold mergePrev; rw [hl]
    rw [hmp]
    refine insert_leaf fl pre rest2 curr offset size extraN hokPre hokR hcpos
      ?_ hcR hPR hflc (by rw [← hcoff] at hcurrc ⊢; exact hcurrc)
    intro b hb
    rw [hpre_nil] at hb
    simp at hb
  | some pv =>
    obtain ⟨Ppre, hP'⟩ := List.getLast?_eq_some_iff.mp hl
    have hdrop : pre.dropLast = Ppre := by rw [hP']; exact List.dropLast_concat
    have hpv_mem : pv ∈ pre := by rw [hP']; simp
    have hPpre_sub : Ppre.Sublist pre := by
      rw [hP']; exact List.sublist_append_left Ppre [pv]
    have hokPpre : FLOk Ppre := hokPre.sublist hPpre_sub
    have hPpre_pv : ∀ b ∈ Ppre, b.offset + b.size < pv.offset := by
      intro b hb
      have hpw := hokPre.1
      rw [hP'] at hpw
      exact (List.pairwise_append.mp hpw).2.2 b hb pv (by simp)
    have hPpre_mem : ∀ b ∈ Ppre, b ∈ pre := fun b hb => hPpre_sub.subset hb
    have hpreCov : ∀ p, coversFL pre p ↔
        (coversFL Ppre p ∨ (pv.offset ≤ p ∧ p < pv.offset + pv.size)) := by
      intro p
      rw [hP', coversFL_append, coversFL_cons]
      simp [coversFL_nil]
    by_cases hpm : pv.offset + pv.size = curr.offset
    · have hmp : mergePrev pre curr rest2 =
          Ppre ++ ⟨pv.offset, pv.size + curr.size⟩ :: rest2 := by
        unfold mergePrev
        rw [hl]
        show (if pv.offset + pv.size = curr.offset then
            pre.dropLast ++ ⟨pv.offset, pv.size + curr.size⟩ :: rest2
          else pre ++ curr :: rest2) = _
        rw [if_pos hpm, hdrop]
      rw [hmp]
      refine insert_leaf fl Ppre rest2 ⟨pv.offset, pv.size + curr.size⟩ offset size
        (fun p => (pv.offset ≤ p ∧ p < pv.offset + pv.size) ∨ extraN p)
        hokPpre hokR (by simp; omega) ?_ ?_ ?_ ?_ ?_
      · intro b hb
        exact hPpre_pv b hb
      · intro b hb
        have := hcR b hb
        simp only []
        omega
      · intro a ha b hb
        exact hPR a (hPpre_mem a ha) b hb
      · intro p
        rw [hflc, hpreCov]
        tauto
      · intro p
        have hcc := hcurrc p
        simp only []
        constructor
        · intro hp
          by_cases hpv : pv.offset ≤ p ∧ p < pv.offset + pv.size
          · exact Or.inl (Or.inl hpv)
          · have hin : curr.offset ≤ p ∧ p < curr.offset + curr.size := by omega
            rcases hcc.mp hin with h | h
            · exact Or.inl (Or.inr h)
            · exact Or.inr h
        · rintro ((h | h) | h)
          · omega
          · have := hcc.mpr (Or.inl h); omega
          · have := hcc.mpr (Or.inr h); omega
    · have hmp : mergePrev pre curr rest2 = pre ++ curr :: rest2 := by
        unfold mergePrev
        rw [hl]
        show (if pv.offset + pv.size = curr.offset then
            pre.dropLast ++ ⟨pv.offset, pv.size + curr.size⟩ :: rest2
          else pre ++ curr :: rest2) = _
        rw [if_neg hpm]
      rw [hmp]
      refine insert_leaf fl pre rest2 curr offset size extraN hokPre hokR hcpos
        ?_ hcR hPR hflc (by rw [← hcoff] at hcurrc ⊢; exact hcurrc)
      intro b hb
      rw [hP'] at hb
      rcases List.mem_append.mp hb with h | h
      · have h1 := hPpre_pv b h
        have h2 := hpreEnd pv hpv_mem
        omega
      · have hbpv : b = pv := by simpa using h
        subst hbpv
        have h1 := hpreEnd b hpv_mem
        omega

/-- **Coalescing core**: inserting a positive-size span that overlaps no
free block preserves well-formedness, and the covered points become
exactly the old points plus the freed span. -/
theorem insertAndCoalesce_spec (fl : List FreeBlock) (offset size : Nat)
    (hok : FLOk fl) (hsz : 0 < size)
    (hdisj : ∀ b ∈ fl, offset + size ≤ b.offset ∨ b.offset + b.size ≤ offset) :
    FLOk (insertAndCoalesce fl offset size) ∧
    (∀ p, coversFL (insertAndCoalesce fl offset size) p ↔
      (coversFL fl p ∨ (offset ≤ p ∧ p < offset + size))) := by
  have hsplit : fl.takeWhile (fun b => b.offset < offset) ++
      fl.dropWhile (fun b => b.offset < offset) = fl :=
    List.takeWhile_append_dropWhile _ _
  simp only [insertAndCoalesce]
  set pre := fl.takeWhile (fun b => b.offset < offset) with hpre_def
  set suf := fl.dropWhile (fun b => b.offset < offset) with hsuf_def
  have hpreSub : pre.Sublist fl := by rw [hpre_def]; exact List.takeWhile_sublist _
  have hsufSub : suf.Sublist fl := by rw [hsuf_def]; exact List.dropWhile_sublist _
  have hokPre : FLOk pre := hok.sublist hpreSub
  have hokSuf : FLOk suf := hok.sublist hsufSub
  have hcross : ∀ a ∈ pre, ∀ b ∈ suf, a.offset + a.size < b.offset := by
    have hpw := hok.1
    rw [← hsplit] at hpw
    exact fun a ha b hb => (List.pairwise_append.mp hpw).2.2 a ha b hb
  have hpreLt : ∀ b ∈ pre, b.offset < offset := by
    intro b hb
    rw [hpre_def] at hb
    have := List.mem_takeWhile_imp hb
    simpa using this
  have hpreEnd : ∀ b ∈ pre, b.offset + b.size ≤ offset := by
    intro b hb
    rcases hdisj b (hpreSub.subset hb) with h | h
    · have := hpreLt b hb; omega
    · exact h
  have hsufGe : ∀ b ∈ suf, offset ≤ b.offset := by
    intro b hb
    cases hs : suf with
    | nil => rw [hs] at hb; simp at hb
    | cons nx rest =>
      have hh := List.head?_dropWhile_not (fun b => decide (b.offset < offset)) fl
      rw [← hsuf_def, hs] at hh
      simp only [List.head?_cons] at hh
      have hnx : ¬ nx.offset < offset := by simpa using hh
      rw [hs] at hb
      rcases List.mem_cons.mp hb with rfl | hb2
      · omega
      · have hps := hokSuf.1
        rw [hs] at hps
        have h1 := (List.pairwise_cons.mp hps).1 b hb2
        omega
  have hsufEnd : ∀ b ∈ suf, offset + size ≤ b.offset := by
    intro b hb
    rcases hdisj b (hsufSub.subset hb) with h | h
    · exact h
    · have h1 := hsufGe b hb
      have h2 := hokSuf.2 b hb
      omega
  have hflSplitCov : ∀ p, coversFL fl p ↔ (coversFL pre p ∨ coversFL suf p) := by
    intro p
    conv_lhs => rw [← hsplit]
    exact coversFL_append
  clear_value pre suf
  cases hs : suf with
  | nil =>
    have hmn : mergeNext offset size [] = (⟨offset, size⟩, []) := rfl
    rw [hmn]
    refine insert_stage2 fl pre [] ⟨offset, size⟩ offset size (fun _ => False)
      hokPre ⟨List.Pairwise.nil, by simp⟩ hsz rfl hpreEnd (by simp) (by simp)
      (by intro p; simp) ?_
    intro p
    rw [hflSplitCov p, hs]
    simp [coversFL_nil]
  | cons nx rest =>
    have hnx_mem : nx ∈ suf := by rw [hs]; simp
    have hrest_sub : rest.Sublist suf := by
      rw [hs]; exact List.sublist_cons_self nx rest
    have hokRest : FLOk rest := hokSuf.sublist hrest_sub
    have hnx_rest : ∀ b ∈ rest, nx.offset + nx.size < b.offset := by
      intro b hb
      have hps := hokSuf.1
      rw [hs] at hps
      exact (List.pairwise_cons.mp hps).1 b hb
    have hsufCov : ∀ p, coversFL suf p ↔
        ((nx.offset ≤ p ∧ p < nx.offset + nx.size) ∨ coversFL rest p) := by
      intro p
      rw [hs, coversFL_cons]
    by_cases hmn : offset + size = nx.offset
    · have hmneq : mergeNext offset size (nx :: rest) =
          (⟨offset, size + nx.size⟩, rest) := by
        simp only [mergeNext]
        rw [if_pos hmn]
      rw [hmneq]
      refine insert_stage2 fl pre rest ⟨offset, size + nx.size⟩ offset size
        (fun p => nx.offset ≤ p ∧ p < nx.offset + nx.size)
        hokPre hokRest (by simp; omega) rfl hpreEnd ?_ ?_ ?_ ?_
      · intro b hb
        have h1 := hnx_rest b hb
        simp only []
        omega
      · intro a ha b hb
        have h1 := hcross a ha nx hnx_mem
        have h2 := hnx_rest b hb
        omega
      · intro p
        have h3 := hokSuf.2 nx hnx_mem
        simp only []
        constructor
        · intro hp
          by_cases hx : nx.offset ≤ p ∧ p < nx.offset + nx.size
          · exact Or.inl hx
          · right; omega
        · rintro (h | h) <;> omega
      · intro p
        rw [hflSplitCov p, hsufCov p]
    · have hmneq : mergeNext offset size (nx :: rest) =
          (⟨offset, size⟩, nx :: rest) := by
        simp only [mergeNext]
        rw [if_neg hmn]
      rw [hmneq]
      have hsufStrict : ∀ b ∈ suf, offset + size < b.offset := by
        intro b hb
        rw [hs] at hb
        rcases List.mem_cons.mp hb with rfl | hb2
        · have h1 := hsufEnd b hnx_mem; omega
        · have h1 := hsufEnd nx hnx_mem
          have h2 := hnx_rest b hb2
          omega
      refine insert_stage2 fl pre (nx :: rest) ⟨offset, size⟩ offset size
        (fun _ => False)
        hokPre (by rw [← hs]; exact hokSuf) hsz rfl hpreEnd ?_ ?_
        (by intro p; simp) ?_
      · intro b hb
        rw [← hs] at hb
        have h1 := hsufStrict b hb
        simpa using h1
      · intro a ha b hb
        rw [← hs] at hb
        exact hcross a ha b hb
      · intro p
        rw [hflSplitCov p, hs]
        tauto

/-- `splitFreeBlock` at a first-fit index: well-formedness is preserved,
the new coverage is contained in the old, the allocated span was covered,
and the allocated span is disjoint from the new free list. -/
theorem splitFreeBlock_spec :
    ∀ (fl : List FreeBlock) (size idx : Nat), FLOk fl →
      findFreeBlock fl size = some idx → 0 < size →
      FLOk (splitFreeBlock fl idx size).2 ∧
      (∀ p, coversFL (splitFreeBlock fl idx size).2 p → coversFL fl p) ∧
      (∀ p, (splitFreeBlock fl idx size).1 ≤ p →
        p < (splitFreeBlock fl idx size).1 + size → coversFL fl p) ∧
      (∀ p, coversFL (splitFreeBlock fl idx size).2 p →
        ¬((splitFreeBlock fl idx size).1 ≤ p ∧
          p < (splitFreeBlock fl idx size).1 + size)) := by
  intro fl
  induction fl with
  | nil =>
    intro size idx hok hf hsz
    simp [findFreeBlock] at hf
  | cons b rest ih =>
    intro size idx hok hf hsz
    have hokRest : FLOk rest := hok.sublist (List.sublist_cons_self b rest)
    have hgap : ∀ c ∈ rest, b.offset + b.size < c.offset :=
      fun c hc => (List.pairwise_cons.mp hok.1).1 c hc
    simp only [findFreeBlock] at hf
    by_cases hb : b.size ≥ size
    · rw [if_pos hb] at hf
      have hidx : idx = 0 := (Option.some.inj hf).symm
      subst hidx
      simp only [splitFreeBlock, List.getD_cons_zero]
      by_cases hrem : b.size - size > 0
      · rw [if_pos hrem]
        simp only [List.set_cons_zero]
        refine ⟨⟨?_, ?_⟩, ?_, ?_, ?_⟩
        · refine List.pairwise_cons.mpr ⟨?_, (List.pairwise_cons.mp hok.1).2⟩
          intro c hc
          have h1 := hgap c hc
          try simp only []
          omega
        · intro c hc
          rcases List.mem_cons.mp hc with rfl | hc2
          · simpa using hrem
          · exact hok.2 c (List.mem_cons_of_mem b hc2)
        · intro p hp
          rw [coversFL_cons] at hp ⊢
          rcases hp with h | h
          · left
            try simp only [] at h ⊢
            omega
          · right; exact h
        · intro p h1 h2
          rw [coversFL_cons]
          left
          try simp only []
          omega
        · intro p hp hcontra
          rw [coversFL_cons] at hp
          rcases hp with h | h
          · try simp only [] at h
            omega
          · obtain ⟨c, hc, hcp⟩ := h
            have h1 := hgap c hc
            omega
      · rw [if_neg hrem]
        simp only [List.take_zero, List.drop_succ_cons, List.drop_zero,
          List.nil_append]
        refine ⟨hokRest, ?_, ?_, ?_⟩
        · intro p hp
          rw [coversFL_cons]
          right; exact hp
        · intro p h1 h2
          rw [coversFL_cons]
          left
          omega
        · intro p hp hcontra
          obtain ⟨c, hc, hcp⟩ := hp
          have h1 := hgap c hc
          omega
    · rw [if_neg hb] at hf
      obtain ⟨j, hj, hidx⟩ := Option.map_eq_some'.mp hf
      subst hidx
      have hres := ih size j hokRest hj hsz
      have hsplit_eq : splitFreeBlock (b :: rest) (j + 1) size =
          ((splitFreeBlock rest j size).1, b :: (splitFreeBlock rest j size).2) := by
        simp only [splitFreeBlock, List.getD_cons_succ, List.set_cons_succ,
          List.take_succ_cons, List.drop_succ_cons, List.cons_append]
        by_cases hr : (rest.getD j ⟨0, 0⟩).size - size > 0
        · rw [if_pos hr, if_pos hr]
        · rw [if_neg hr, if_neg hr]
      rw [hsplit_eq]
      obtain ⟨ihok, ihsub, ihcov, ihdisj⟩ := hres
      refine ⟨⟨?_, ?_⟩, ?_, ?_, ?_⟩
      · refine List.pairwise_cons.mpr ⟨?_, ihok.1⟩
        intro c hc
        have hcpos : 0 < c.size := ihok.2 c hc
        have hccov : coversFL (splitFreeBlock rest j size).2 c.offset :=
          ⟨c, hc, Nat.le_refl _, by omega⟩
        obtain ⟨d, hd, hdp⟩ := ihsub c.offset hccov
        have h1 := hgap d hd
        omega
      · intro c hc
        rcases List.mem_cons.mp hc with rfl | hc2
        · exact hok.2 c (List.mem_cons_self c rest)
        · exact ihok.2 c hc2
      · intro p hp
        rw [coversFL_cons] at hp ⊢
        rcases hp with h | h
        · left; exact h
        · right; exact ihsub p h
      · intro p h1 h2
        rw [coversFL_cons]
        right
        exact ihcov p h1 h2
      · intro p hp hcontra
        rw [coversFL_cons] at hp
        rcases hp with h | h
        · have hcv := ihcov p hcontra.1 hcontra.2
          obtain ⟨d, hd, hdp⟩ := hcv
          have h1 := hgap d hd
          omega
        · exact ihdisj p h hcontra


/-- Zone-level invariant tying a zone's free list, bump offset and the
spans of live (not yet freed) allocations together. -/
structure ZoneInv (zoneSize bump : Nat) (fl : List FreeBlock)
    (live : List (Nat × Nat)) : Prop where
  bump_le : bump ≤ zoneSize
  flok : FLOk fl
  free_in_bump : ∀ b ∈ fl, b.offset + b.size ≤ bump
  live_pos : ∀ s ∈ live, 0 < s.2
  live_in_bump : ∀ s ∈ live, s.1 + s.2 ≤ bump
  live_free_disj : ∀ s ∈ live, ∀ p, s.1 ≤ p → p < s.1 + s.2 → ¬ coversFL fl p
  live_live_disj : live.Pairwise (fun s t => s.1 + s.2 ≤ t.1 ∨ t.1 + t.2 ≤ s.1)

/-- Allocating from the free list preserves the zone invariant. -/
theorem ZoneInv.alloc_freelist {zoneSize bump : Nat} {fl : List FreeBlock}
    {live : List (Nat × Nat)} {size idx : Nat}
    (hz : ZoneInv zoneSize bump fl live) (hsz : 0 < size)
    (hfind : findFreeBlock fl size = some idx) :
    ZoneInv zoneSize bump (splitFreeBlock fl idx size).2
      (((splitFreeBlock fl idx size).1, size) :: live) := by
  obtain ⟨hok2, hsub, hcov, hdisj2⟩ :=
    splitFreeBlock_spec fl size idx hz.flok hfind hsz
  set off := (splitFreeBlock fl idx size).1 with hoff
  set fl2 := (splitFreeBlock fl idx size).2 with hfl2
  have hspanbump : off + size ≤ bump := by
    have hc := hcov (off + size - 1) (by omega) (by omega)
    obtain ⟨d, hd, hdp⟩ := hc
    have := hz.free_in_bump d hd
    omega
  refine ⟨hz.bump_le, hok2, ?_, ?_, ?_, ?_, ?_⟩
  · intro b hb
    have hbpos := hok2.2 b hb
    have hc : coversFL fl2 (b.offset + b.size - 1) := ⟨b, hb, by omega, by omega⟩
    obtain ⟨d, hd, hdp⟩ := hsub _ hc
    have := hz.free_in_bump d hd
    omega
  · intro s hs
    rcases List.mem_cons.mp hs with rfl | h
    · exact hsz
    · exact hz.live_pos s h
  · intro s hs
    rcases List.mem_cons.mp hs with rfl | h
    · exact hspanbump
    · exact hz.live_in_bump s h
  · intro s hs p hp1 hp2
    rcases List.mem_cons.mp hs with rfl | h
    · intro hcv
      exact hdisj2 p hcv ⟨hp1, hp2⟩
    · intro hcv
      exact hz.live_free_disj s h p hp1 hp2 (hsub p hcv)
  · refine List.pairwise_cons.mpr ⟨?_, hz.live_live_disj⟩
    intro t ht
    by_cases hcase : off + size ≤ t.1 ∨ t.1 + t.2 ≤ off
    · exact hcase
    · exfalso
      push_neg at hcase
      have htpos := hz.live_pos t ht
      have hq1 : off ≤ max off t.1 := le_max_left _ _
      have hq2 : t.1 ≤ max off t.1 := le_max_right _ _
      have hq3 : max off t.1 < off + size := by omega
      have hq4 : max off t.1 < t.1 + t.2 := by omega
      exact hz.live_free_disj t ht (max off t.1) hq2 hq4 (hcov (max off t.1) hq1 hq3)

/-- Bump allocation preserves the zone invariant. -/
theorem ZoneInv.alloc_bump {zoneSize bump : Nat} {fl : List FreeBlock}
    {live : List (Nat × Nat)} {size : Nat}
    (hz : ZoneInv zoneSize bump fl live) (hsz : 0 < size)
    (hroom : bump + size ≤ zoneSize) :
    ZoneInv zoneSize (bump + size) fl ((bump, size) :: live) := by
  refine ⟨hroom, hz.flok, ?_, ?_, ?_, ?_, ?_⟩
  · intro b hb
    have := hz.free_in_bump b hb
    omega
  · intro s hs
    rcases List.mem_cons.mp hs with rfl | h
    · exact hsz
    · exact hz.live_pos s h
  · intro s hs
    rcases List.mem_cons.mp hs with rfl | h
    · exact Nat.le_refl _
    · have := hz.live_in_bump s h
      omega
  · intro s hs p hp1 hp2
    rcases List.mem_cons.mp hs with rfl | h
    · intro hcv
      obtain ⟨d, hd, hdp⟩ := hcv
      have hdb := hz.free_in_bump d hd
      have hp1n : bump ≤ p := hp1
      omega
    · exact fun hcv => hz.live_free_disj s h p hp1 hp2 hcv
  · refine List.pairwise_cons.mpr ⟨?_, hz.live_live_disj⟩
    intro t ht
    exact Or.inr (hz.live_in_bump t ht)

/-- Freeing a live span preserves the zone invariant. -/
theorem ZoneInv.free_span {zoneSize bump : Nat} {fl : List FreeBlock}
    {live : List (Nat × Nat)} {s : Nat × Nat}
    (hz : ZoneInv zoneSize bump fl live) (hs : s ∈ live) :
    ZoneInv zoneSize bump (insertAndCoalesce fl s.1 s.2) (live.erase s) := by
  have hspos := hz.live_pos s hs
  have hdisj : ∀ b ∈ fl, s.1 + s.2 ≤ b.offset ∨ b.offset + b.size ≤ s.1 := by
    intro b hb
    by_cases h : s.1 + s.2 ≤ b.offset ∨ b.offset + b.size ≤ s.1
    · exact h
    · exfalso
      push_neg at h
      have hbpos := hz.flok.2 b hb
      have hcv : coversFL fl (max s.1 b.offset) :=
        ⟨b, hb, le_max_right _ _, by omega⟩
      exact hz.live_free_disj s hs (max s.1 b.offset) (le_max_left _ _)
        (by omega) hcv
  obtain ⟨hok2, hcov2⟩ := insertAndCoalesce_spec fl s.1 s.2 hz.flok hspos hdisj
  have hsub : (live.erase s).Sublist live := List.erase_sublist _ _
  have hnodup : s ∉ live.erase s := by
    intro hmem
    obtain ⟨l1, l2, hnl1, hl, he⟩ := List.exists_erase_eq hs
    rw [he] at hmem
    have hsl2 : s ∈ l2 := by
      rcases List.mem_append.mp hmem with h | h
      · exact absurd h hnl1
      · exact h
    have hpw := hz.live_live_disj
    rw [hl] at hpw
    have := ((List.pairwise_append.mp hpw).2.1)
    have hss := (List.pairwise_cons.mp this).1 s hsl2
    omega
  have hsep : ∀ t ∈ live.erase s, t.1 + t.2 ≤ s.1 ∨ s.1 + s.2 ≤ t.1 := by
    intro t ht
    have htl : t ∈ live := hsub.subset ht
    have hts : t ≠ s := fun he => hnodup (he ▸ ht)
    have hsymm : Symmetric (fun s t : Nat × Nat =>
        s.1 + s.2 ≤ t.1 ∨ t.1 + t.2 ≤ s.1) := by
      intro a b h
      tauto
    have := List.Pairwise.forall hsymm hz.live_live_disj htl hs hts
    tauto
  refine ⟨hz.bump_le, hok2, ?_, ?_, ?_, ?_, ?_⟩
  · intro b hb
    have hbpos := hok2.2 b hb
    have hc : coversFL (insertAndCoalesce fl s.1 s.2) (b.offset + b.size - 1) :=
      ⟨b, hb, by omega, by omega⟩
    rcases (hcov2 _).mp hc with h | h
    · obtain ⟨d, hd, hdp⟩ := h
      have := hz.free_in_bump d hd
      omega
    · have := hz.live_in_bump s hs
      omega
  · exact fun t ht => hz.live_pos t (hsub.subset ht)
  · exact fun t ht => hz.live_in_bump t (hsub.subset ht)
  · intro t ht p hp1 hp2 hcv
    rcases (hcov2 p).mp hcv with h | h
    · exact hz.live_free_disj t (hsub.subset ht) p hp1 hp2 h
    · have := hsep t ht
      omega
  · exact hz.live_live_disj.sublist hsub


/-! ### Heap-level operational semantics and claim C8 -/

/-- Unfolding: `allocReadonly` served from the free list. -/
theorem allocReadonly_freelist_eq {h : Heap} {size idx : Nat}
    (hsz : ¬ size ≤ 0) (hfind : findFreeBlock h.roFreeList size = some idx) :
    h.allocReadonly size =
      some (⟨h.base + ((splitFreeBlock h.roFreeList idx size).1 : Int), size⟩,
        { h with roFreeList := (splitFreeBlock h.roFreeList idx size).2 }) := by
  unfold Heap.allocReadonly
  rw [if_neg hsz, hfind]

/-- Unfolding: `allocReadonly` served by bumping. -/
theorem allocReadonly_bump_eq {h : Heap} {size : Nat}
    (hsz : ¬ size ≤ 0) (hfind : findFreeBlock h.roFreeList size = none)
    (hroom : ¬ h.roOffset + size > h.roSize) :
    h.allocReadonly size =
      some (⟨h.base + (h.roOffset : Int), size⟩,
        { h with roOffset := h.roOffset + size }) := by
  unfold Heap.allocReadonly
  rw [if_neg hsz, hfind]
  exact if_neg hroom

/-- Unfolding: `allocReadonly` failing on an exhausted zone. -/
theorem allocReadonly_none_eq {h : Heap} {size : Nat}
    (hsz : ¬ size ≤ 0) (hfind : findFreeBlock h.roFreeList size = none)
    (hroom : h.roOffset + size > h.roSize) :
    h.allocReadonly size = none := by
  unfold Heap.allocReadonly
  rw [if_neg hsz, hfind]
  exact if_pos hroom

/-- Unfolding: rw-zone `alloc` served from the free list. -/
theorem heapAlloc_freelist_eq {h : Heap} {size idx : Nat}
    (hsz : ¬ size ≤ 0) (hfind : findFreeBlock h.rwFreeList size = some idx) :
    h.alloc size =
      some (⟨h.base + (h.roSize : Int) + ((splitFreeBlock h.rwFreeList idx size).1 : Int), size⟩,
        { h with rwFreeList := (splitFreeBlock h.rwFreeList idx size).2 }) := by
  unfold Heap.alloc
  rw [if_neg hsz, hfind]

/-- Unfolding: rw-zone `alloc` served by bumping. -/
theorem heapAlloc_bump_eq {h : Heap} {size : Nat}
    (hsz : ¬ size ≤ 0) (hfind : findFreeBlock h.rwFreeList size = none)
    (hroom : ¬ h.rwOffset + size > h.rwSize) :
    h.alloc size =
      some (⟨h.base + (h.roSize : Int) + (h.rwOffset : Int), size⟩,
        { h with rwOffset := h.rwOffset + size }) := by
  unfold Heap.alloc
  rw [if_neg hsz, hfind]
  exact if_neg hroom

/-- Unfolding: rw-zone `alloc` failing on an exhausted zone. -/
theorem heapAlloc_none_eq {h : Heap} {size : Nat}
    (hsz : ¬ size ≤ 0) (hfind : findFreeBlock h.rwFreeList size = none)
    (hroom : h.rwOffset + size > h.rwSize) :
    h.alloc size = none := by
  unfold Heap.alloc
  rw [if_neg hsz, hfind]
  exact if_pos hroom

/-- Case inversion for a successful `allocReadonly`. -/
theorem allocReadonly_cases {h : Heap} {size : Nat} {a : HeapAlloc} {h2 : Heap}
    (halloc : h.allocReadonly size = some (a, h2)) :
    ¬ size ≤ 0 ∧
    ((∃ idx, findFreeBlock h.roFreeList size = some idx ∧
        a = ⟨h.base + ((splitFreeBlock h.roFreeList idx size).1 : Int), size⟩ ∧
        h2 = { h with roFreeList := (splitFreeBlock h.roFreeList idx size).2 }) ∨
      (findFreeBlock h.roFreeList size = none ∧ ¬ h.roOffset + size > h.roSize ∧
        a = ⟨h.base + (h.roOffset : Int), size⟩ ∧
        h2 = { h with roOffset := h.roOffset + size })) := by
  by_cases hsz : size ≤ 0
  · unfold Heap.allocReadonly at halloc
    rw [if_pos hsz] at halloc
    exact absurd halloc (by simp)
  · refine ⟨hsz, ?_⟩
    cases hfind : findFreeBlock h.roFreeList size with
    | some idx =>
      left
      have heq := (allocReadonly_freelist_eq hsz hfind).symm.trans halloc
      have hp := Option.some.inj heq
      exact ⟨idx, rfl, (congrArg Prod.fst hp).symm, (congrArg Prod.snd hp).symm⟩
    | none =>
      right
      by_cases hroom : h.roOffset + size > h.roSize
      · have := (allocReadonly_none_eq hsz hfind hroom).symm.trans halloc
        exact absurd this (by simp)
      · have heq := (allocReadonly_bump_eq hsz hfind hroom).symm.trans halloc
        have hp := Option.some.inj heq
        exact ⟨rfl, hroom, (congrArg Prod.fst hp).symm, (congrArg Prod.snd hp).symm⟩

/-- Case inversion for a successful rw-zone `alloc`. -/
theorem heapAlloc_cases {h : Heap} {size : Nat} {a : HeapAlloc} {h2 : Heap}
    (halloc : h.alloc size = some (a, h2)) :
    ¬ size ≤ 0 ∧
    ((∃ idx, findFreeBlock h.rwFreeList size = some idx ∧
        a = ⟨h.base + (h.roSize : Int) + ((splitFreeBlock h.rwFreeList idx size).1 : Int), size⟩ ∧
        h2 = { h with rwFreeList := (splitFreeBlock h.rwFreeList idx size).2 }) ∨
      (findFreeBlock h.rwFreeList size = none ∧ ¬ h.rwOffset + size > h.rwSize ∧
        a = ⟨h.base + (h.roSize : Int) + (h.rwOffset : Int), size⟩ ∧
        h2 = { h with rwOffset := h.rwOffset + size })) := by
  by_cases hsz : size ≤ 0
  · unfold Heap.alloc at halloc
    rw [if_pos hsz] at halloc
    exact absurd halloc (by simp)
  · refine ⟨hsz, ?_⟩
    cases hfind : findFreeBlock h.rwFreeList size with
    | some idx =>
      left
      have heq := (heapAlloc_freelist_eq hsz hfind).symm.trans halloc
      have hp := Option.some.inj heq
      exact ⟨idx, rfl, (congrArg Prod.fst hp).symm, (congrArg Prod.snd hp).symm⟩
    | none =>
      right
      by_cases hroom : h.rwOffset + size > h.rwSize
      · have := (heapAlloc_none_eq hsz hfind hroom).symm.trans halloc
        exact absurd this (by simp)
      · have heq := (heapAlloc_bump_eq hsz hfind hroom).symm.trans halloc
        have hp := Option.some.inj heq
        exact ⟨rfl, hroom, (congrArg Prod.fst hp).symm, (congrArg Prod.snd hp).symm⟩

/-- Unfolding: `Heap.free` of an RO-zone address. -/
theorem heapFree_ro_eq {h : Heap} {a : HeapAlloc}
    (hro : h.base ≤ a.remote ∧ a.remote < h.base + (h.roSize : Int)) :
    h.free a = some { h with roFreeList := insertAndCoalesce h.roFreeList (a.remote - h.base).toNat a.size } := by
  simp only [Heap.free]
  rw [if_pos hro]

/-- Unfolding: `Heap.free` of an RW-zone address. -/
theorem heapFree_rw_eq {h : Heap} {a : HeapAlloc}
    (hnro : ¬ (h.base ≤ a.remote ∧ a.remote < h.base + (h.roSize : Int)))
    (hrw : h.base + (h.roSize : Int) ≤ a.remote ∧
      a.remote < h.base + (h.roSize : Int) + (h.rwSize : Int)) :
    h.free a = some { h with rwFreeList := insertAndCoalesce h.rwFreeList (a.remote - (h.base + (h.roSize : Int))).toNat a.size } := by
  simp only [Heap.free]
  rw [if_neg hnro, if_pos hrw]

/-- A heap-level state: the heap plus the ghost lists of live RO / RW
allocation spans (offset, size). -/
abbrev HeapSt : Type := Heap × List (Nat × Nat) × List (Nat × Nat)

/-- One user-level heap operation. -/
inductive HeapOp where
  | allocRo (size : Nat)
  | allocRw (size : Nat)
  | freeAlloc (a : HeapAlloc)
deriving DecidableEq

/-- Run one operation.  A failed allocation throws in the source, leaving
the heap untouched; a `freeAlloc` is legal only for a span still live in
the corresponding zone — this encodes the claim's precondition that every
freed block was returned by an allocation of this heap and freed at most
once. -/
def runHeapOp (st : HeapSt) (op : HeapOp) : Option HeapSt :=
  match op with
  | .allocRo size =>
    match st.1.allocReadonly size with
    | some (a, h2) => some (h2, ((a.remote - st.1.base).toNat, a.size) :: st.2.1, st.2.2)
    | none => some st
  | .allocRw size =>
    match st.1.alloc size with
    | some (a, h2) =>
      some (h2, st.2.1,
        ((a.remote - (st.1.base + (st.1.roSize : Int))).toNat, a.size) :: st.2.2)
    | none => some st
  | .freeAlloc a =>
    if st.1.base ≤ a.remote ∧ a.remote < st.1.base + (st.1.roSize : Int) then
      if ((a.remote - st.1.base).toNat, a.size) ∈ st.2.1 then
        match st.1.free a with
        | some h2 => some (h2, st.2.1.erase ((a.remote - st.1.base).toNat, a.size), st.2.2)
        | none => none
      else none
    else if st.1.base + (st.1.roSize : Int) ≤ a.remote ∧
        a.remote < st.1.base + (st.1.roSize : Int) + (st.1.rwSize : Int) then
      if ((a.remote - (st.1.base + (st.1.roSize : Int))).toNat, a.size) ∈ st.2.2 then
        match st.1.free a with
        | some h2 =>
          some (h2, st.2.1,
            st.2.2.erase ((a.remote - (st.1.base + (st.1.roSize : Int))).toNat, a.size))
        | none => none
      else none
    else none

/-- Run a sequence of heap operations. -/
def runHeapOps (st : HeapSt) : List HeapOp → Option HeapSt
  | [] => some st
  | op :: rest => (runHeapOp st op).bind (fun st2 => runHeapOps st2 rest)

/-- Heap-level invariant: both zones are well-formed with respect to their
ghost live spans. -/
def HeapInv (st : HeapSt) : Prop :=
  ZoneInv st.1.roSize st.1.roOffset st.1.roFreeList st.2.1 ∧
  ZoneInv st.1.rwSize st.1.rwOffset st.1.rwFreeList st.2.2


/-- Each heap operation preserves the heap invariant. -/
theorem runHeapOp_preserves {st st2 : HeapSt} {op : HeapOp}
    (hinv : HeapInv st) (hrun : runHeapOp st op = some st2) : HeapInv st2 := by
  obtain ⟨hro, hrw⟩ := hinv
  cases op with
  | allocRo size =>
    simp only [runHeapOp] at hrun
    split at hrun
    · rename_i a h2 heq
      have hst2 : st2 = (h2, ((a.remote - st.1.base).toNat, a.size) :: st.2.1, st.2.2) :=
        (Option.some.inj hrun).symm
      subst hst2
      obtain ⟨hsz, hcases⟩ := allocReadonly_cases heq
      have hszpos : 0 < size := by omega
      rcases hcases with ⟨idx, hfind, ha, hh2⟩ | ⟨hfind, hroom, ha, hh2⟩
      · subst ha
        subst hh2
        refine ⟨?_, hrw⟩
        have htn : (st.1.base + ((splitFreeBlock st.1.roFreeList idx size).1 : Int)
            - st.1.base).toNat = (splitFreeBlock st.1.roFreeList idx size).1 := by
          omega
        have hz := hro.alloc_freelist hszpos hfind
        simp only []
        rw [htn]
        exact hz
      · subst ha
        subst hh2
        refine ⟨?_, hrw⟩
        have htn : (st.1.base + (st.1.roOffset : Int) - st.1.base).toNat
            = st.1.roOffset := by omega
        have hz := hro.alloc_bump hszpos (by omega)
        simp only []
        rw [htn]
        exact hz
    · rename_i heq
      have hst2 : st2 = st := (Option.some.inj hrun).symm
      subst hst2
      exact ⟨hro, hrw⟩
  | allocRw size =>
    simp only [runHeapOp] at hrun
    split at hrun
    · rename_i a h2 heq
      have hst2 : st2 = (h2, st.2.1,
          ((a.remote - (st.1.base + (st.1.roSize : Int))).toNat, a.size) :: st.2.2) :=
        (Option.some.inj hrun).symm
      subst hst2
      obtain ⟨hsz, hcases⟩ := heapAlloc_cases heq
      have hszpos : 0 < size := by omega
      rcases hcases with ⟨idx, hfind, ha, hh2⟩ | ⟨hfind, hroom, ha, hh2⟩
      · subst ha
        subst hh2
        refine ⟨hro, ?_⟩
        have htn : (st.1.base + (st.1.roSize : Int)
            + ((splitFreeBlock st.1.rwFreeList idx size).1 : Int)
            - (st.1.base + (st.1.roSize : Int))).toNat
            = (splitFreeBlock st.1.rwFreeList idx size).1 := by
          omega
        have hz := hrw.alloc_freelist hszpos hfind
        simp only []
        rw [htn]
        exact hz
      · subst ha
        subst hh2
        refine ⟨hro, ?_⟩
        have htn : (st.1.base + (st.1.roSize : Int) + (st.1.rwOffset : Int)
            - (st.1.base + (st.1.roSize : Int))).toNat = st.1.rwOffset := by
          omega
        have hz := hrw.alloc_bump hszpos (by omega)
        simp only []
        rw [htn]
        exact hz
    · rename_i heq
      have hst2 : st2 = st := (Option.some.inj hrun).symm
      subst hst2
      exact ⟨hro, hrw⟩
  | freeAlloc a =>
    simp only [runHeapOp] at hrun
    by_cases hroRange : st.1.base ≤ a.remote ∧ a.remote < st.1.base + (st.1.roSize : Int)
    · rw [if_pos hroRange] at hrun
      by_cases hmem : ((a.remote - st.1.base).toNat, a.size) ∈ st.2.1
      · rw [if_pos hmem] at hrun
        split at hrun
        · rename_i h2 heq
          have hst2 : st2 = (h2, st.2.1.erase ((a.remote - st.1.base).toNat, a.size), st.2.2) :=
            (Option.some.inj hrun).symm
          subst hst2
          have hh2 : h2 = { st.1 with roFreeList := insertAndCoalesce st.1.roFreeList (a.remote - st.1.base).toNat a.size } :=
            Option.some.inj ((heapFree_ro_eq hroRange).symm.trans heq).symm
          subst hh2
          exact ⟨hro.free_span hmem, hrw⟩
        · exact absurd hrun (by simp)
      · rw [if_neg hmem] at hrun
        exact absurd hrun (by simp)
    · rw [if_neg hroRange] at hrun
      by_cases hrwRange : st.1.base + (st.1.roSize : Int) ≤ a.remote ∧
          a.remote < st.1.base + (st.1.roSize : Int) + (st.1.rwSize : Int)
      · rw [if_pos hrwRange] at hrun
        by_cases hmem : ((a.remote - (st.1.base + (st.1.roSize : Int))).toNat, a.size) ∈ st.2.2
        · rw [if_pos hmem] at hrun
          split at hrun
          · rename_i h2 heq
            have hst2 : st2 = (h2, st.2.1,
                st.2.2.erase ((a.remote - (st.1.base + (st.1.roSize : Int))).toNat, a.size)) :=
              (Option.some.inj hrun).symm
            subst hst2
            have hh2 : h2 = { st.1 with rwFreeList := insertAndCoalesce st.1.rwFreeList (a.remote - (st.1.base + (st.1.roSize : Int))).toNat a.size } :=
              Option.some.inj ((heapFree_rw_eq hroRange hrwRange).symm.trans heq).symm
            subst hh2
            exact ⟨hro, hrw.free_span hmem⟩
          · exact absurd hrun (by simp)
        · rw [if_neg hmem] at hrun
          exact absurd hrun (by simp)
      · rw [if_neg hrwRange] at hrun
        exact absurd hrun (by simp)

/-- Running a sequence of operations preserves the heap invariant. -/
theorem runHeapOps_preserves : ∀ (ops : List HeapOp) (st st2 : HeapSt),
    HeapInv st → runHeapOps st ops = some st2 → HeapInv st2 := by
  intro ops
  induction ops with
  | nil =>
    intro st st2 h hr
    simp only [runHeapOps] at hr
    have := Option.some.inj hr
    rwa [← this]
  | cons op rest ih =>
    intro st st2 h hr
    simp only [runHeapOps] at hr
    cases hstep : runHeapOp st op with
    | none =>
      rw [hstep] at hr
      simp at hr
    | some stm =>
      rw [hstep] at hr
      simp only [Option.some_bind] at hr
      exact ih stm st2 (runHeapOp_preserves h hstep) hr

/-- A freshly created heap satisfies the invariant. -/
theorem heapCreate_inv {base : Int} {totalSize : Nat} {roSize? : Option Nat}
    {h0 : Heap} (hc : Heap.create base totalSize roSize? = some h0) :
    HeapInv (h0, [], []) := by
  simp only [Heap.create] at hc
  by_cases h1 : totalSize < roSize?.getD (totalSize / 2)
  · rw [if_pos h1] at hc
    exact absurd hc (by simp)
  · rw [if_neg h1] at hc
    by_cases h2 : base = 0
    · rw [if_pos h2] at hc
      exact absurd hc (by simp)
    · rw [if_neg h2] at hc
      have hh := (Option.some.inj hc).symm
      subst hh
      exact ⟨⟨Nat.zero_le _, ⟨List.Pairwise.nil, by simp⟩, by simp, by simp,
          by simp, by simp, List.Pairwise.nil⟩,
        ⟨Nat.zero_le _, ⟨List.Pairwise.nil, by simp⟩, by simp, by simp,
          by simp, by simp, List.Pairwise.nil⟩⟩

/-- A well-formed free list is sorted by offset and never has any two
entries (equal or distinct) with `o1 + s1 = o2`. -/
theorem FLOk.claim_props {fl : List FreeBlock} (h : FLOk fl) :
    fl.Pairwise (fun a b => a.offset < b.offset) ∧
    ∀ b1 ∈ fl, ∀ b2 ∈ fl, b1.offset + b1.size ≠ b2.offset := by
  constructor
  · exact h.1.imp (fun hab => by omega)
  · intro b1 h1 b2 h2
    by_cases heq : b1 = b2
    · subst heq
      have := h.2 b1 h1
      omega
    · have hsymm : Symmetric (fun a b : FreeBlock =>
          a.offset + a.size < b.offset ∨ b.offset + b.size < a.offset) := by
        intro a b hab
        tauto
    
      have hpw : fl.Pairwise (fun a b : FreeBlock =>
          a.offset + a.size < b.offset ∨ b.offset + b.size < a.offset) :=
        h.1.imp (fun hab => Or.inl hab)
      have := List.Pairwise.forall hsymm hpw h1 h2 heq
      have hpos1 := h.2 b1 h1
      have hpos2 := h.2 b2 h2
      omega


/-- **C8**: starting from a freshly created heap, after any sequence of
`alloc` / `allocReadonly` / `free` operations in which each freed block
was returned by an allocation of this heap and freed at most once, each
zone's free list is sorted by offset and never contains two entries
`(o1,s1)`, `(o2,s2)` with `o1 + s1 = o2`. -/
theorem claim_C8_freelist_coalescing (base : Int) (totalSize : Nat)
    (roSize? : Option Nat) (h0 : Heap) (ops : List HeapOp) (st : HeapSt)
    (hcreate : Heap.create base totalSize roSize? = some h0)
    (hrun : runHeapOps (h0, [], []) ops = some st) :
    (st.1.roFreeList.Pairwise (fun a b => a.offset < b.offset) ∧
      ∀ b1 ∈ st.1.roFreeList, ∀ b2 ∈ st.1.roFreeList,
        b1.offset + b1.size ≠ b2.offset) ∧
    (st.1.rwFreeList.Pairwise (fun a b => a.offset < b.offset) ∧
      ∀ b1 ∈ st.1.rwFreeList, ∀ b2 ∈ st.1.rwFreeList,
        b1.offset + b1.size ≠ b2.offset) := by
  have hinv := runHeapOps_preserves ops (h0, [], []) st (heapCreate_inv hcreate) hrun
  exact ⟨hinv.1.flok.claim_props, hinv.2.flok.claim_props⟩

/-- **C8 witness**: a concrete heap (64 bytes, 32-byte RO zone at address
4096) with two RO allocations that are then freed in order; the final RO
free list is the single coalesced block `(0, 32)`, and the theorem's
conclusions hold for it. -/
theorem claim_C8_witness :
    runHeapOps (⟨4096, 64, 32, 32, 0, 0, [], []⟩, [], [])
        [.allocRo 16, .allocRo 16, .freeAlloc ⟨4096, 16⟩, .freeAlloc ⟨4112, 16⟩] =
      some (⟨4096, 64, 32, 32, 32, 0, [⟨0, 32⟩], []⟩, [], []) ∧
    ([⟨0, 32⟩] : List FreeBlock).Pairwise (fun a b => a.offset < b.offset) ∧
    ∀ b1 ∈ ([⟨0, 32⟩] : List FreeBlock), ∀ b2 ∈ ([⟨0, 32⟩] : List FreeBlock),
      b1.offset + b1.size ≠ b2.offset := by
  have hrun : runHeapOps (⟨4096, 64, 32, 32, 0, 0, [], []⟩, [], [])
      [.allocRo 16, .allocRo 16, .freeAlloc ⟨4096, 16⟩, .freeAlloc ⟨4112, 16⟩] =
      some ((⟨4096, 64, 32, 32, 32, 0, [⟨0, 32⟩], []⟩, [], []) : HeapSt) := by
    decide
  have h := claim_C8_freelist_coalescing 4096 64 (some 32)
    ⟨4096, 64, 32, 32, 0, 0, [], []⟩
    [.allocRo 16, .allocRo 16, .freeAlloc ⟨4096, 16⟩, .freeAlloc ⟨4112, 16⟩]
    (⟨4096, 64, 32, 32, 32, 0, [⟨0, 32⟩], []⟩, [], [])
    (by decide) hrun
  exact ⟨hrun, h.1.1, h.1.2⟩


/-! ## NThreadHeap allocation layer (claim C7) -/

/-- An allocation record of the `NThreadHeap` proxy state: heap-backed
records keep the `HeapAlloc` and the owning heap.  The source stores an
object reference to the heap; heap blocks come from distinct `calloc`
calls, so the reference is modelled by the heap's (unique) base address. -/
inductive AllocRecord where
  | heapBacked (alloc : HeapAlloc) (heapBase : Int)
  | superBacked
deriving DecidableEq

/-- Per-proxy state of `NThreadHeap` (`ProxyState` in the source): the
active heap, the previous heap blocks, and the allocations map (modelled
as an association list with map semantics via `mapSet`/`mapDelete`). -/
structure NThreadHeapState where
  heap : Option Heap
  prevHeaps : List Heap
  allocations : List (Int × AllocRecord)
deriving DecidableEq

/-- JS `Map.delete`. -/
def mapDelete (m : List (Int × AllocRecord)) (k : Int) : List (Int × AllocRecord) :=
  m.filter (fun e => ¬ e.1 = k)

/-- JS `Map.set` (insert or replace). -/
def mapSet (m : List (Int × AllocRecord)) (k : Int) (v : AllocRecord) :
    List (Int × AllocRecord) :=
  (k, v) :: mapDelete m k

/-- Externally observable interactions of the allocation layer. -/
inductive HeapEvent where
  | superAlloc (size : Nat) (result : Int)
  | heapCreate (totalSize roSize : Nat) (base : Int)
  | fillWrite (ptr : Int) (size : Nat) (fill : Nat)
  | copyData (src dst : Int) (len : Nat)
  | crtFree (ptr : Int)
  | heapFree (a : HeapAlloc)
deriving DecidableEq

/-- `NThreadHeap.tryAlloc`: silent wrapper, `none` on failure. -/
def tryAllocH (h : Heap) (size : Nat) (ro : Bool) : Option (HeapAlloc × Heap) :=
  if ro then h.allocReadonly size else h.alloc size

/-- `NThreadHeap.calcRoSize`: the requesting zone gets the larger share. -/
def calcRoSize (totalSize : Nat) (ro : Bool) : Nat :=
  if ro then totalSize * 3 / 4 else totalSize / 4

/-- `NThreadHeap.allocFromHeap`.  `callocBase` is the base address the
in-thread `calloc` would return for a heap creation; outer `none` models a
thrown error (failed `Heap.create`); inner `none` is the "cannot serve —
fall back to super" result. -/
def allocFromHeap (maxSize heapSize : Nat) (s : NThreadHeapState)
    (size : Nat) (ro : Bool) (callocBase : Int) :
    Option (Option Int × NThreadHeapState × List HeapEvent) :=
  match s.heap with
  | some h =>
    match tryAllocH h size ro with
    | some (result, h2) =>
      some (some result.remote,
        { s with
            heap := some h2
            allocations := mapSet s.allocations result.remote (.heapBacked result h2.base) },
        [])
    | none =>
      if h.totalSize ≥ maxSize then some (none, s, [])
      else
        let newSize := min (h.totalSize * 2) maxSize
        if size > newSize then some (none, s, [])
        else
          match Heap.create callocBase newSize (some (calcRoSize newSize ro)) with
          | none => none
          | some hn =>
            let ev := [HeapEvent.heapCreate newSize (calcRoSize newSize ro) callocBase]
            match tryAllocH hn size ro with
            | some (result, h3) =>
              some (some result.remote,
                { heap := some h3
                  prevHeaps := s.prevHeaps ++ [h]
                  allocations := mapSet s.allocations result.remote (.heapBacked result h3.base) },
                ev)
            | none =>
              some (none,
                { heap := some hn
                  prevHeaps := s.prevHeaps ++ [h]
                  allocations := s.allocations }, ev)
  | none =>
    if size > maxSize then some (none, s, [])
    else
      let initSize := max (min heapSize maxSize) size
      match Heap.create callocBase initSize (some (calcRoSize initSize ro)) with
      | none => none
      | some hn =>
        let ev := [HeapEvent.heapCreate initSize (calcRoSize initSize ro) callocBase]
        match tryAllocH hn size ro with
        | some (result, h3) =>
          some (some result.remote,
            { heap := some h3
              prevHeaps := s.prevHeaps
              allocations := mapSet s.allocations result.remote (.heapBacked result h3.base) },
            ev)
        | none =>
          some (none, { s with heap := some hn }, ev)

/-- Resolve a stored heap reference by base address (active heap first,
then the previous blocks). -/
def findHeapByBase (s : NThreadHeapState) (b : Int) : Option Heap :=
  match s.heap with
  | some h => if h.base = b then some h else s.prevHeaps.find? (fun ph => ph.base == b)
  | none => s.prevHeaps.find? (fun ph => ph.base == b)

/-- Write back an updated heap into the slot holding the same base. -/
def replaceHeap (s : NThreadHeapState) (h2 : Heap) : NThreadHeapState :=
  match s.heap with
  | some h =>
    if h.base = h2.base then { s with heap := some h2 }
    else { s with prevHeaps := s.prevHeaps.map (fun ph => if ph.base = h2.base then h2 else ph) }
  | none =>
    { s with prevHeaps := s.prevHeaps.map (fun ph => if ph.base = h2.base then h2 else ph) }

/-- `NThreadHeap.reallocInternal`.  `superResult` is the pointer the base
allocator (CRT `malloc`/`calloc`/`realloc`) would return; outer `none`
models a thrown error. -/
def reallocInternalH (maxSize heapSize : Nat) (s : NThreadHeapState)
    (address : Int) (newSize : Nat)
    (fill : Option Nat) (readonly : Option Bool)
    (callocBase superResult : Int) :
    Option (Int × NThreadHeapState × List HeapEvent) :=
  match List.lookup address s.allocations with
  | none =>
    some (superResult,
      { s with allocations := mapSet s.allocations superResult .superBacked },
      [.superAlloc newSize superResult])
  | some .superBacked =>
    let s1 := { s with allocations := mapDelete s.allocations address }
    some (superResult,
      { s1 with allocations := mapSet s1.allocations superResult .superBacked },
      [.superAlloc newSize superResult])
  | some (.heapBacked alloc heapBase) =>
    match findHeapByBase s heapBase with
    | none => none
    | some hOwn =>
      let oldRo := alloc.remote < hOwn.base + (hOwn.roSize : Int)
      let ro := readonly.getD oldRo
      match allocFromHeap maxSize heapSize s newSize ro callocBase with
      | none => none
      | some (newRaw, s2, ev1) =>
        let (newPtr, s3, ev2) :=
          match newRaw with
          | some p => (p, s2, ([] : List HeapEvent))
          | none =>
            (superResult,
              { s2 with allocations := mapSet s2.allocations superResult .superBacked },
              [HeapEvent.superAlloc newSize superResult])
        let copyLen := min alloc.size newSize
        let ev3 := if 0 < copyLen then [HeapEvent.copyData address newPtr copyLen] else []
        let ev4 :=
          match fill with
          | some f =>
            if copyLen < newSize then
              [HeapEvent.fillWrite (newPtr + (copyLen : Int)) (newSize - copyLen) (f % 256)]
            else []
          | none => []
        match findHeapByBase s3 heapBase with
        | none => none
        | some hCur =>
          match hCur.free alloc with
          | none => none
          | some hFreed =>
            let s4 := replaceHeap s3 hFreed
            let s5 := { s4 with allocations := mapDelete s4.allocations address }
            some (newPtr, s5, ev1 ++ ev2 ++ ev3 ++ ev4 ++ [.heapFree alloc])

/-- `NThreadHeap.threadAlloc` (`src/unnamed/part_000:290-312`): realloc
dispatch, heap allocation with super fallback, optional fill. -/
def threadAllocH (maxSize heapSize : Nat) (s : NThreadHeapState) (size : Nat)
    (fill : Option Nat) (readonly : Option Bool) (address : Option Int)
    (callocBase superResult : Int) :
    Option (Int × NThreadHeapState × List HeapEvent) :=
  match address with
  | some addr =>
    reallocInternalH maxSize heapSize s addr size fill readonly
      callocBase superResult
  | none =>
    let ro := readonly.getD false
    match allocFromHeap maxSize heapSize s size ro callocBase with
    | none => none
    | some (ptr?, s2, ev) =>
      match ptr? with
      | none =>
        some (superResult, s2, ev ++ [.superAlloc size superResult])
      | some ptr =>
        let fillEv :=
          match fill with
          | some f => [HeapEvent.fillWrite ptr size (f % 256)]
          | none => []
        some (ptr, s2, ev ++ fillEv)

/-- `NThreadHeap.threadFree` (`src/unnamed/part_000:314-328`): unknown or
super-backed pointers delegate to the base `threadFree` (CRT `free`);
heap-backed ones are returned to their heap. -/
def threadFreeH (s : NThreadHeapState) (ptr : Int) :
    Option (NThreadHeapState × List HeapEvent) :=
  let entry := List.lookup ptr s.allocations
  let s1 := { s with allocations := mapDelete s.allocations ptr }
  match entry with
  | none => some (s1, [.crtFree ptr])
  | some .superBacked => some (s1, [.crtFree ptr])
  | some (.heapBacked alloc heapBase) =>
    match findHeapByBase s1 heapBase with
    | none => none
    | some hCur =>
      match hCur.free alloc with
      | none => none
      | some hFreed => some (replaceHeap s1 hFreed, [.heapFree alloc])


/-- A cannot-serve result from `allocFromHeap` never changes the
allocations map. -/
theorem allocFromHeap_none_allocations {maxSize heapSize : Nat}
    {s s2 : NThreadHeapState} {size : Nat} {ro : Bool} {callocBase : Int}
    {ev : List HeapEvent}
    (h : allocFromHeap maxSize heapSize s size ro callocBase = some (none, s2, ev)) :
    s2.allocations = s.allocations := by
  simp only [allocFromHeap] at h
  split at h
  · split at h
    · simp at h
    · split at h
      · simp only [Option.some.injEq, Prod.mk.injEq] at h
        rw [← h.2.1]
      · split at h
        · simp only [Option.some.injEq, Prod.mk.injEq] at h
          rw [← h.2.1]
        · split at h
          · simp at h
          · split at h
            · simp at h
            · simp only [Option.some.injEq, Prod.mk.injEq] at h
              rw [← h.2.1]
  · split at h
    · simp only [Option.some.injEq, Prod.mk.injEq] at h
      rw [← h.2.1]
    · split at h
      · simp at h
      · split at h
        · simp at h
        · simp only [Option.some.injEq, Prod.mk.injEq] at h
          rw [← h.2.1]

/-- **C7 amended**: when `allocFromHeap` cannot serve a request,
`threadAlloc` falls back to the base allocator's CRT `malloc`/`calloc` and
returns its result, but the address is NOT recorded in the allocations
map (the map is unchanged); a later free of that address still delegates
to CRT `free`, because `threadFree` sends every unknown address to the
base `threadFree`. -/
theorem claim_C7_crt_fallback (maxSize heapSize : Nat) (s s2 : NThreadHeapState)
    (size : Nat) (fill : Option Nat) (readonly : Option Bool)
    (callocBase superResult : Int) (ev : List HeapEvent)
    (hcannot : allocFromHeap maxSize heapSize s size (readonly.getD false) callocBase
      = some (none, s2, ev)) :
    threadAllocH maxSize heapSize s size fill readonly none callocBase superResult
      = some (superResult, s2, ev ++ [.superAlloc size superResult]) ∧
    s2.allocations = s.allocations ∧
    (∀ ptr, List.lookup ptr s2.allocations = none →
      threadFreeH s2 ptr =
        some ({ s2 with allocations := mapDelete s2.allocations ptr }, [.crtFree ptr])) := by
  refine ⟨?_, allocFromHeap_none_allocations hcannot, ?_⟩
  · show (match allocFromHeap maxSize heapSize s size (readonly.getD false) callocBase with
      | none => none
      | some (ptr?, s3, ev2) =>
        match ptr? with
        | none => some (superResult, s3, ev2 ++ [HeapEvent.superAlloc size superResult])
        | some ptr =>
          let fillEv :=
            match fill with
            | some f => [HeapEvent.fillWrite ptr size (f % 256)]
            | none => []
          some (ptr, s3, ev2 ++ fillEv)) = _
    rw [hcannot]
  · intro ptr hl
    unfold threadFreeH
    rw [hl]

/-- **C7 counterexample**: an active heap at the ceiling
(`totalSize = maxSize = 64`) with both zones exhausted.  `threadAlloc` of
16 bytes falls back to the base CRT allocator (modelled result 7777), but
the allocations map stays empty — the fallback address is NOT recorded as
crt-backed, contrary to the claim. -/
theorem claim_C7_counterexample :
    threadAllocH 64 64 ⟨some ⟨4096, 64, 32, 32, 32, 32, [], []⟩, [], []⟩ 16
        none none none 0 7777
      = some (7777, ⟨some ⟨4096, 64, 32, 32, 32, 32, [], []⟩, [], []⟩,
          [.superAlloc 16 7777]) ∧
    (⟨some ⟨4096, 64, 32, 32, 32, 32, [], []⟩, [], []⟩ : NThreadHeapState).allocations
      = [] := by
  exact ⟨by decide, rfl⟩

/-- **C7 amended witness**: the same scenario run through the amended
theorem — the fallback result 7777 is returned unrecorded, and freeing
7777 afterwards delegates to CRT `free`. -/
theorem claim_C7_witness :
    threadAllocH 64 64 ⟨some ⟨4096, 64, 32, 32, 32, 32, [], []⟩, [], []⟩ 16
        none none none 0 7777
      = some (7777, ⟨some ⟨4096, 64, 32, 32, 32, 32, [], []⟩, [], []⟩,
          [.superAlloc 16 7777]) ∧
    threadFreeH ⟨some ⟨4096, 64, 32, 32, 32, 32, [], []⟩, [], []⟩ 7777
      = some (⟨some ⟨4096, 64, 32, 32, 32, 32, [], []⟩, [], []⟩, [.crtFree 7777]) := by
  have h := claim_C7_crt_fallback 64 64
    ⟨some ⟨4096, 64, 32, 32, 32, 32, [], []⟩, [], []⟩
    ⟨some ⟨4096, 64, 32, 32, 32, 32, [], []⟩, [], []⟩ 16 none none 0 7777 []
    (by decide)
  refine ⟨h.1.trans (by decide), ?_⟩
  exact (h.2.2 7777 (by decide)).trans (by decide)


/-! ## Pointwise machinery for the overlap path (claims C1, C5, C10) -/

/-- `List.getD` through an append, index in the left part. -/
theorem getD_append_left {α : Type} (l l2 : List α) (n : Nat) (dv : α)
    (h : n < l.length) : (l ++ l2).getD n dv = l.getD n dv := by
  rw [List.getD_eq_getElem?_getD, List.getD_eq_getElem?_getD,
    List.getElem?_append_left h]

/-- `List.getD` through an append, index in the right part. -/
theorem getD_append_right {α : Type} (l l2 : List α) (n : Nat) (dv : α)
    (h : l.length ≤ n) : (l ++ l2).getD n dv = l2.getD (n - l.length) dv := by
  rw [List.getD_eq_getElem?_getD, List.getD_eq_getElem?_getD,
    List.getElem?_append_right h]

/-- `List.getD` through `take`. -/
theorem getD_take {α : Type} (l : List α) (n i : Nat) (dv : α) (h : i < n) :
    (l.take n).getD i dv = l.getD i dv := by
  rw [List.getD_eq_getElem?_getD, List.getD_eq_getElem?_getD, List.getElem?_take,
    if_pos h]

/-- `List.getD` through `drop`. -/
theorem getD_drop {α : Type} (l : List α) (n i : Nat) (dv : α) :
    (l.drop n).getD i dv = l.getD (n + i) dv := by
  rw [List.getD_eq_getElem?_getD, List.getD_eq_getElem?_getD, List.getElem?_drop]

/-- `List.getD` after `set`, same index. -/
theorem getD_set_self {α : Type} (l : List α) (i : Nat) (a dv : α)
    (h : i < l.length) : (l.set i a).getD i dv = a := by
  rw [List.getD_eq_getElem?_getD, List.getElem?_set_self h]
  rfl

/-- `List.getD` after `set`, different index. -/
theorem getD_set_ne {α : Type} (l : List α) (i j : Nat) (a dv : α)
    (h : i ≠ j) : (l.set i a).getD j dv = l.getD j dv := by
  rw [List.getD_eq_getElem?_getD, List.getD_eq_getElem?_getD,
    List.getElem?_set_ne h]

/-- Lists of equal length with equal `getD` at every index are equal. -/
theorem ext_getD {α : Type} (l l2 : List α) (dv : α) (h : l.length = l2.length)
    (h2 : ∀ i, i < l.length → l.getD i dv = l2.getD i dv) : l = l2 := by
  apply List.ext_getElem?
  intro n
  by_cases hn : n < l.length
  · have h3 := h2 n hn
    rw [List.getD_eq_getElem?_getD, List.getD_eq_getElem?_getD,
      List.getElem?_eq_getElem hn, List.getElem?_eq_getElem (h ▸ hn)] at h3
    rw [List.getElem?_eq_getElem hn, List.getElem?_eq_getElem (h ▸ hn)]
    simp only [Option.getD_some] at h3
    simp [h3]
  · rw [List.getElem?_eq_none (by omega), List.getElem?_eq_none (by omega)]

/-- Setting an index to its current value is the identity. -/
theorem set_getD_self {α : Type} (l : List α) (i : Nat) (dv : α)
    (h : i < l.length) : l.set i (l.getD i dv) = l := by
  apply List.ext_getElem?
  intro n
  by_cases hn : i = n
  · subst hn
    rw [List.getElem?_set_self h, List.getD_eq_getElem?_getD,
      List.getElem?_eq_getElem h]
    rfl
  · exact List.getElem?_set_ne hn

/-- Two region lists have the same *shape* when they have the same length and
componentwise the same base address and snapshot length.  `writeMemory` only
replaces snapshot contents, so it preserves shape. -/
def ShapeEq (rs rs2 : List Region) : Prop :=
  rs2.length = rs.length ∧
  ∀ j, (rs2.getD j defaultRegion).addr = (rs.getD j defaultRegion).addr ∧
       (rs2.getD j defaultRegion).snap.length = (rs.getD j defaultRegion).snap.length

theorem ShapeEq.refl (rs : List Region) : ShapeEq rs rs :=
  ⟨rfl, fun _ => ⟨rfl, rfl⟩⟩

theorem ShapeEq.trans {rs1 rs2 rs3 : List Region}
    (h : ShapeEq rs1 rs2) (h2 : ShapeEq rs2 rs3) : ShapeEq rs1 rs3 :=
  ⟨h2.1.trans h.1, fun j => ⟨((h2.2 j).1).trans ((h.2 j).1),
    ((h2.2 j).2).trans ((h.2 j).2)⟩⟩

/-- The registered regions have pairwise disjoint address spans. -/
def RegionsDisjoint (rs : List Region) : Prop :=
  ∀ i, i < rs.length → ∀ j, j < rs.length → i ≠ j →
    (rs.getD i defaultRegion).addr + ((rs.getD i defaultRegion).snap.length : Int)
        ≤ (rs.getD j defaultRegion).addr ∨
    (rs.getD j defaultRegion).addr + ((rs.getD j defaultRegion).snap.length : Int)
        ≤ (rs.getD i defaultRegion).addr

instance (rs : List Region) : Decidable (RegionsDisjoint rs) := by
  unfold RegionsDisjoint
  infer_instance

/-- Disjointness only depends on the shape of the region list. -/
theorem RegionsDisjoint.of_shape {rs rs2 : List Region}
    (hs : ShapeEq rs rs2) (h : RegionsDisjoint rs) : RegionsDisjoint rs2 := by
  intro i hi j hj hne
  rw [hs.1] at hi hj
  rw [(hs.2 i).1, (hs.2 i).2, (hs.2 j).1, (hs.2 j).2]
  exact h i hi j hj hne

/-- A `none` result of `findOverlappingRegion` means no region passes the
overlap test. -/
theorem findOverlappingRegion_none_spec :
    ∀ (rs : List Region) (d : Int) (len : Nat),
      findOverlappingRegion rs d len = none →
      ∀ j, j < rs.length → ¬ OverlapsP d len (rs.getD j defaultRegion) := by
  intro rs
  induction rs with
  | nil => intro d len _ j hj; simp at hj
  | cons r rest ih =>
    intro d len h j hj
    rw [findOverlappingRegion] at h
    by_cases hov : OverlapsP d len r
    · simp [hov] at h
    · simp only [hov, if_false] at h
      match j with
      | 0 => simpa using hov
      | j2 + 1 =>
        simp only [List.length_cons] at hj
        cases hrec : findOverlappingRegion rest d len with
        | none => simpa using ih d len hrec j2 (by omega)
        | some v => rw [hrec] at h; simp at h

/-- A `some idx` result of `findOverlappingRegion` points at an in-range
region that passes the overlap test. -/
theorem findOverlappingRegion_some_spec :
    ∀ (rs : List Region) (d : Int) (len : Nat) (idx : Nat),
      findOverlappingRegion rs d len = some idx →
      idx < rs.length ∧ OverlapsP d len (rs.getD idx defaultRegion) := by
  intro rs
  induction rs with
  | nil => intro d len idx h; simp [findOverlappingRegion] at h
  | cons r rest ih =>
    intro d len idx h
    rw [findOverlappingRegion] at h
    by_cases hov : OverlapsP d len r
    · simp only [hov, if_true, Option.some.injEq] at h
      subst h
      simpa using hov
    · simp only [hov, if_false] at h
      cases hrec : findOverlappingRegion rest d len with
      | none => rw [hrec] at h; simp at h
      | some idx2 =>
        rw [hrec] at h
        simp at h
        have hidx : idx = idx2 + 1 := by omega
        subst hidx
        have h3 := ih d len idx2 hrec
        constructor
        · simp only [List.length_cons]; omega
        · simpa using h3.2

/-- `findOverlappingRegion` returns the first region passing the overlap
test. -/
theorem findOverlappingRegion_first :
    ∀ (rs : List Region) (d : Int) (len idx : Nat),
      idx < rs.length → OverlapsP d len (rs.getD idx defaultRegion) →
      (∀ j, j < idx → ¬ OverlapsP d len (rs.getD j defaultRegion)) →
      findOverlappingRegion rs d len = some idx := by
  intro rs
  induction rs with
  | nil => intro d len idx h; simp at h
  | cons r rest ih =>
    intro d len idx hidx hov hmin
    rw [findOverlappingRegion]
    match idx with
    | 0 =>
      simp only [List.getD_cons_zero] at hov
      simp [hov]
    | idx2 + 1 =>
      have hr : ¬ OverlapsP d len r := by
        have := hmin 0 (by omega)
        simpa using this
      simp only [hr, if_false]
      rw [ih d len idx2 (by simpa using hidx) (by simpa using hov)
        (fun j hj => by simpa using hmin (j + 1) (by omega))]
      rfl

/-! ### `getOverlapInfo` characterisation -/

/-- The overlap window starts at `max d r.addr`. -/
theorem getOverlapInfo_start (d : Int) (len : Nat) (r : Region) :
    d + ((getOverlapInfo d len r).writeOffset : Int) = max d r.addr := by
  simp only [getOverlapInfo]
  omega

/-- For a passing overlap test the window ends at
`min (d + len) (r.addr + |r.snap|)`. -/
theorem getOverlapInfo_end (d : Int) (len : Nat) (r : Region)
    (h : OverlapsP d len r) :
    d + (((getOverlapInfo d len r).writeOffset
        + (getOverlapInfo d len r).overlapLen : Nat) : Int)
      = min (d + (len : Int)) (r.addr + (r.snap.length : Int)) := by
  obtain ⟨h1, h2⟩ := h
  simp only [getOverlapInfo]
  omega

/-- Window bounds: the overlap lies inside the write range, starts before its
end, and (for a non-empty write) the decomposition makes progress. -/
theorem getOverlapInfo_bounds (d : Int) (len : Nat) (r : Region)
    (hlen : 0 < len) (h : OverlapsP d len r) :
    (getOverlapInfo d len r).writeOffset + (getOverlapInfo d len r).overlapLen ≤ len ∧
    (getOverlapInfo d len r).writeOffset < len ∧
    (0 < (getOverlapInfo d len r).writeOffset ∨
      0 < (getOverlapInfo d len r).overlapLen) := by
  obtain ⟨h1, h2⟩ := h
  simp only [getOverlapInfo]
  omega

/-- The snapshot slice has exactly the overlap length. -/
theorem getOverlapInfo_snapshot_length (d : Int) (len : Nat) (r : Region)
    (h : OverlapsP d len r) :
    (getOverlapInfo d len r).snapshot.length = (getOverlapInfo d len r).overlapLen := by
  obtain ⟨h1, h2⟩ := h
  simp only [getOverlapInfo, List.length_take, List.length_drop]
  omega

/-- Bytes of the snapshot slice are the region snapshot bytes at the matching
indices. -/
theorem getOverlapInfo_snapshot_getD (d : Int) (len : Nat) (r : Region)
    (u : Nat) (hu : u < (getOverlapInfo d len r).overlapLen) :
    (getOverlapInfo d len r).snapshot.getD u 0
      = r.snap.getD ((d + ((getOverlapInfo d len r).writeOffset : Int)
          - r.addr).toNat + u) 0 := by
  simp only [getOverlapInfo] at hu ⊢
  rw [getD_take _ _ _ _ hu, getD_drop]
  congr 1
  omega

/-! ### `overwriteAt` and `updateSnapshot` characterisation -/

/-- An in-bounds `overwriteAt` preserves the length. -/
theorem overwriteAt_length (dst : List Nat) (off : Nat) (src : List Nat)
    (h : off + src.length ≤ dst.length) :
    (overwriteAt dst off src).length = dst.length := by
  simp only [overwriteAt, List.length_append, List.length_take, List.length_drop]
  omega

/-- Pointwise effect of an in-bounds `overwriteAt`. -/
theorem overwriteAt_getD (dst src : List Nat) (off t : Nat)
    (h : off + src.length ≤ dst.length) :
    (overwriteAt dst off src).getD t 0 =
      if off ≤ t ∧ t < off + src.length then src.getD (t - off) 0
      else dst.getD t 0 := by
  have htl : (dst.take off).length = off := by
    simp only [List.length_take]; omega
  by_cases h1 : t < off
  · rw [overwriteAt, getD_append_left _ _ _ _ (by rw [List.length_append, htl]; omega),
      getD_append_left _ _ _ _ (by omega), getD_take _ _ _ _ h1, if_neg (by omega)]
  · by_cases h2 : t < off + src.length
    · rw [overwriteAt, getD_append_left _ _ _ _ (by rw [List.length_append, htl]; omega),
        getD_append_right _ _ _ _ (by omega), htl, if_pos ⟨by omega, h2⟩]
    · rw [overwriteAt, getD_append_right _ _ _ _ (by rw [List.length_append, htl]; omega),
        List.length_append, htl, getD_drop, if_neg (by omega)]
      congr 1
      omega

/-- `updateSnapshot` never moves the region. -/
theorem updateSnapshot_addr (r : Region) (src : List Nat) (d : Int) :
    (updateSnapshot r src d).addr = r.addr := by
  rw [updateSnapshot]
  split
  · rfl
  · rfl

/-- `updateSnapshot` never resizes the snapshot. -/
theorem updateSnapshot_length (r : Region) (src : List Nat) (d : Int) :
    (updateSnapshot r src d).snap.length = r.snap.length := by
  rw [updateSnapshot]
  split
  · rfl
  · rename_i hno
    simp only []
    rw [overwriteAt_length]
    have hsl : ((src.drop (max d r.addr - d).toNat).take
        (min (d + (src.length : Int)) (r.addr + (r.snap.length : Int))
          - max d r.addr).toNat).length
        ≤ (min (d + (src.length : Int)) (r.addr + (r.snap.length : Int))
          - max d r.addr).toNat := by
      simp only [List.length_take, List.length_drop]
      omega
    omega

/-- Pointwise effect of `updateSnapshot` on the snapshot bytes: exactly the
bytes whose address falls in the written range take the written value. -/
theorem updateSnapshot_getD (r : Region) (src : List Nat) (d : Int) (t : Nat)
    (ht : t < r.snap.length) :
    (updateSnapshot r src d).snap.getD t 0 =
      if d ≤ r.addr + (t : Int) ∧ r.addr + (t : Int) < d + (src.length : Int)
      then src.getD ((r.addr + (t : Int) - d).toNat) 0
      else r.snap.getD t 0 := by
  rw [updateSnapshot]
  split
  · rename_i hle
    rw [if_neg]
    omega
  · rename_i hno
    simp only []
    have hslice : ((src.drop (max d r.addr - d).toNat).take
          (min (d + (src.length : Int)) (r.addr + (r.snap.length : Int))
            - max d r.addr).toNat).length
        = (min (d + (src.length : Int)) (r.addr + (r.snap.length : Int))
            - max d r.addr).toNat := by
      simp only [List.length_take, List.length_drop]
      omega
    rw [overwriteAt_getD]
    · rw [hslice]
      by_cases hin : d ≤ r.addr + (t : Int) ∧ r.addr + (t : Int) < d + (src.length : Int)
      · rw [if_pos (by omega), if_pos hin]
        rw [getD_take _ _ _ _ (by omega), getD_drop]
        congr 1
        omega
      · rw [if_neg (by omega), if_neg hin]
    · rw [hslice]
      omega


/-! ### Run indexing helpers -/

theorem getD_replicate (n t v : Nat) (h : t < n) :
    (List.replicate n v).getD t 0 = v := by
  rw [List.getD_eq_getElem?_getD, List.getElem?_replicate]
  simp [h]

/-- The take/drop split of a run step preserves the total length. -/
theorem takeWhile_dropWhile_length (value : Nat) (rest : List Nat) :
    (rest.takeWhile (fun b => b == value)).length
      + (rest.dropWhile (fun b => b == value)).length = rest.length := by
  rw [← List.length_append, List.takeWhile_append_dropWhile]

/-- Inside a maximal run every byte is the run value. -/
theorem run_getD_lt (value : Nat) (rest : List Nat) (t : Nat)
    (h : t < 1 + (rest.takeWhile (fun b => b == value)).length) :
    (value :: rest).getD t 0 = value := by
  match t with
  | 0 => rfl
  | t2 + 1 =>
    rw [List.getD_cons_succ]
    conv_lhs => rw [← List.takeWhile_append_dropWhile (fun b => b == value) rest]
    rw [getD_append_left _ _ _ _ (by omega), takeWhile_beq_replicate,
      getD_replicate _ _ _ (by omega)]

/-- Past a maximal run, indexing continues into the dropped suffix. -/
theorem run_getD_ge (value : Nat) (rest : List Nat) (t : Nat)
    (h : 1 + (rest.takeWhile (fun b => b == value)).length ≤ t) :
    (value :: rest).getD t 0
      = (rest.dropWhile (fun b => b == value)).getD
          (t - (1 + (rest.takeWhile (fun b => b == value)).length)) 0 := by
  match t with
  | 0 => exact absurd h (by omega)
  | t2 + 1 =>
    rw [List.getD_cons_succ]
    conv_lhs => rw [← List.takeWhile_append_dropWhile (fun b => b == value) rest]
    rw [getD_append_right _ _ _ _ (by omega)]
    congr 1
    omega

/-! ### Memory effects of the write loops -/

/-- `plainWrite` only changes bytes inside the window it is writing. -/
theorem plainWrite_mem_confine (oracle : Nat → Bool) (d : Int) :
    ∀ (n : Nat) (data : List Nat), data.length ≤ n →
      ∀ (i k : Nat) (mem : Mem) (p : Int),
      (p < d + (i : Int) ∨ d + (i : Int) + (data.length : Int) ≤ p) →
      (plainWrite oracle d data i k mem).2.2.2 p = mem p := by
  intro n
  induction n with
  | zero =>
    intro data h i k mem p hp
    have hd : data = [] := List.eq_nil_of_length_eq_zero (Nat.le_zero.mp h)
    subst hd
    rw [plainWrite_nil]
  | succ n ih =>
    intro data h i k mem p hp
    match data with
    | [] => rw [plainWrite_nil]
    | value :: rest =>
      simp only [List.length_cons] at h hp
      have hsplit := takeWhile_dropWhile_length value rest
      cases ho : oracle k with
      | false => rw [plainWrite_cons_neg oracle d value rest i k mem ho]
      | true =>
        rw [plainWrite_cons_pos oracle d value rest i k mem ho]
        simp only []
        rw [ih _ (by omega) _ _ _ _ (by push_cast; push_cast at hp; omega)]
        simp only [memsetMem]
        rw [if_neg (by push_cast at hp ⊢; omega)]

/-- `writeMemorySafeBuffer` only changes bytes inside the window it is
writing. -/
theorem safeWriteBuf_mem_confine (oracle : Nat → Bool) (d : Int) :
    ∀ (n : Nat) (source : List Nat), source.length ≤ n →
      ∀ (last : List Nat) (i k : Nat) (mem : Mem) (p : Int),
      (p < d + (i : Int) ∨ d + (i : Int) + (source.length : Int) ≤ p) →
      (safeWriteBuf oracle d source last i k mem).2.2.2 p = mem p := by
  intro n
  induction n with
  | zero =>
    intro source h last i k mem p hp
    have hd : source = [] := List.eq_nil_of_length_eq_zero (Nat.le_zero.mp h)
    subst hd
    rw [safeWriteBuf_nil]
  | succ n ih =>
    intro source h last i k mem p hp
    match source, last with
    | [], _ => rw [safeWriteBuf_nil]
    | value :: rest, lv :: lrest =>
      simp only [List.length_cons] at h hp
      have hsplit := takeWhile_dropWhile_length value rest
      by_cases hv : value = lv
      · rw [safeWriteBuf_skip oracle d value rest lv lrest i k mem hv]
        exact ih _ (by omega) _ _ _ _ _ (by push_cast; push_cast at hp; omega)
      · cases ho : oracle k with
        | false => rw [safeWriteBuf_run_cons_neg oracle d value rest lv lrest i k mem hv ho]
        | true =>
          rw [safeWriteBuf_run_cons_pos oracle d value rest lv lrest i k mem hv ho]
          simp only []
          rw [ih _ (by omega) _ _ _ _ _ (by push_cast; push_cast at hp; omega)]
          simp only [memsetMem]
          rw [if_neg (by push_cast at hp ⊢; omega)]
    | value :: rest, [] =>
      simp only [List.length_cons] at h hp
      have hsplit := takeWhile_dropWhile_length value rest
      cases ho : oracle k with
      | false => rw [safeWriteBuf_run_nil_neg oracle d value rest i k mem ho]
      | true =>
        rw [safeWriteBuf_run_nil_pos oracle d value rest i k mem ho]
        simp only []
        rw [ih _ (by omega) _ _ _ _ _ (by push_cast; push_cast at hp; omega)]
        simp only [memsetMem]
        rw [if_neg (by push_cast at hp ⊢; omega)]

/-- Writing a buffer against itself as the snapshot is a complete no-op:
every byte is skipped and no memset is issued. -/
theorem safeWriteBuf_self (oracle : Nat → Bool) (d : Int) :
    ∀ (s : List Nat) (i k : Nat) (mem : Mem),
      safeWriteBuf oracle d s s i k mem = ([], none, k, mem) := by
  intro s
  induction s with
  | nil => intro i k mem; rw [safeWriteBuf_nil]
  | cons v rest ih =>
    intro i k mem
    rw [safeWriteBuf_skip oracle d v rest v rest i k mem rfl]
    exact ih (i + 1) k mem

/-- When every memset fails, `writeMemorySafeBuffer` leaves the memory
untouched and issues at most one memset (the first differing run). -/
theorem safeWriteBuf_allfalse (oracle : Nat → Bool) (hor : ∀ n, oracle n = false)
    (d : Int) :
    ∀ (n : Nat) (source : List Nat), source.length ≤ n →
      ∀ (last : List Nat) (i k : Nat) (mem : Mem),
      (safeWriteBuf oracle d source last i k mem).2.2.2 = mem ∧
      (safeWriteBuf oracle d source last i k mem).1.length ≤ 1 := by
  intro n
  induction n with
  | zero =>
    intro source h last i k mem
    have hd : source = [] := List.eq_nil_of_length_eq_zero (Nat.le_zero.mp h)
    subst hd
    rw [safeWriteBuf_nil]
    exact ⟨rfl, by simp⟩
  | succ n ih =>
    intro source h last i k mem
    match source, last with
    | [], _ =>
      rw [safeWriteBuf_nil]
      exact ⟨rfl, by simp⟩
    | value :: rest, lv :: lrest =>
      simp only [List.length_cons] at h
      by_cases hv : value = lv
      · rw [safeWriteBuf_skip oracle d value rest lv lrest i k mem hv]
        exact ih _ (by omega) _ _ _ _
      · rw [safeWriteBuf_run_cons_neg oracle d value rest lv lrest i k mem hv (hor k)]
        exact ⟨rfl, by simp⟩
    | value :: rest, [] =>
      rw [safeWriteBuf_run_nil_neg oracle d value rest i k mem (hor k)]
      exact ⟨rfl, by simp⟩

/-- Pointwise result of a fully successful safe write: each byte of the
window either ends up equal to the source byte (it was written), or it was
skipped because source and snapshot agree there, and the byte is untouched. -/
theorem safeWriteBuf_mem_all (oracle : Nat → Bool) (hor : ∀ n, oracle n = true)
    (d : Int) :
    ∀ (n : Nat) (source : List Nat), source.length ≤ n →
      ∀ (last : List Nat) (i k : Nat) (mem : Mem) (t : Nat), t < source.length →
      (safeWriteBuf oracle d source last i k mem).2.2.2 (d + (i : Int) + (t : Int))
          = source.getD t 0 ∨
      (source.getD t 0 = last.getD t 0 ∧
        (safeWriteBuf oracle d source last i k mem).2.2.2 (d + (i : Int) + (t : Int))
          = mem (d + (i : Int) + (t : Int))) := by
  intro n
  induction n with
  | zero =>
    intro source h last i k mem t ht
    omega
  | succ n ih =>
    intro source h last i k mem t ht
    match source, last with
    | [], _ => simp at ht
    | value :: rest, lv :: lrest =>
      simp only [List.length_cons] at h ht
      have hsplit := takeWhile_dropWhile_length value rest
      by_cases hv : value = lv
      · rw [safeWriteBuf_skip oracle d value rest lv lrest i k mem hv]
        match t with
        | 0 =>
          right
          refine ⟨by simp [hv], ?_⟩
          rw [safeWriteBuf_mem_confine oracle d n rest (by omega) lrest (i + 1) k mem
            _ (by push_cast; omega)]
        | t2 + 1 =>
          have haddr : d + ((i + 1 : Nat) : Int) + (t2 : Int)
              = d + (i : Int) + ((t2 + 1 : Nat) : Int) := by push_cast; ring
          have h2 := ih rest (by omega) lrest (i + 1) k mem t2 (by omega)
          rw [haddr] at h2
          simpa only [List.getD_cons_succ] using h2
      · rw [safeWriteBuf_run_cons_pos oracle d value rest lv lrest i k mem hv (hor k)]
        simp only []
        by_cases hrun : t < 1 + (rest.takeWhile (fun b => b == value)).length
        · left
          rw [safeWriteBuf_mem_confine oracle d n _
            (by have := length_dropWhile_le_self (fun b => b == value) rest; omega)
            _ _ _ _ _ (by left; push_cast; omega)]
          simp only [memsetMem]
          rw [if_pos (by push_cast; omega), run_getD_lt value rest t hrun]
        · have haddr : d + ((i + (1 + (rest.takeWhile (fun b => b == value)).length) : Nat) : Int)
              + ((t - (1 + (rest.takeWhile (fun b => b == value)).length) : Nat) : Int)
              = d + (i : Int) + (t : Int) := by push_cast; omega
          have h2 := ih (rest.dropWhile (fun b => b == value))
            (by have := length_dropWhile_le_self (fun b => b == value) rest; omega)
            ((lv :: lrest).drop (1 + (rest.takeWhile (fun b => b == value)).length))
            (i + (1 + (rest.takeWhile (fun b => b == value)).length)) (k + 1)
            (memsetMem mem (d + (i : Int)) value
              (1 + (rest.takeWhile (fun b => b == value)).length))
            (t - (1 + (rest.takeWhile (fun b => b == value)).length)) (by omega)
          rw [haddr] at h2
          rcases h2 with h2 | ⟨h2a, h2b⟩
          · left
            rw [h2, run_getD_ge value rest t (by omega)]
          · right
            constructor
            · rw [run_getD_ge value rest t (by omega), h2a, getD_drop]
              congr 1
              omega
            · rw [h2b]
              simp only [memsetMem]
              rw [if_neg (by push_cast; omega)]
    | value :: rest, [] =>
      simp only [List.length_cons] at h ht
      have hsplit := takeWhile_dropWhile_length value rest
      rw [safeWriteBuf_run_nil_pos oracle d value rest i k mem (hor k)]
      simp only []
      by_cases hrun : t < 1 + (rest.takeWhile (fun b => b == value)).length
      · left
        rw [safeWriteBuf_mem_confine oracle d n _
          (by have := length_dropWhile_le_self (fun b => b == value) rest; omega)
          _ _ _ _ _ (by left; push_cast; omega)]
        simp only [memsetMem]
        rw [if_pos (by push_cast; omega), run_getD_lt value rest t hrun]
      · have haddr : d + ((i + (1 + (rest.takeWhile (fun b => b == value)).length) : Nat) : Int)
            + ((t - (1 + (rest.takeWhile (fun b => b == value)).length) : Nat) : Int)
            = d + (i : Int) + (t : Int) := by push_cast; omega
        have h2 := ih (rest.dropWhile (fun b => b == value))
          (by have := length_dropWhile_le_self (fun b => b == value) rest; omega)
          ([] : List Nat)
          (i + (1 + (rest.takeWhile (fun b => b == value)).length)) (k + 1)
          (memsetMem mem (d + (i : Int)) value
            (1 + (rest.takeWhile (fun b => b == value)).length))
          (t - (1 + (rest.takeWhile (fun b => b == value)).length)) (by omega)
        rw [haddr] at h2
        rcases h2 with h2 | ⟨h2a, h2b⟩
        · left
          rw [h2, run_getD_ge value rest t (by omega)]
        · right
          constructor
          · rw [run_getD_ge value rest t (by omega), h2a]
            simp
          · rw [h2b]
            simp only [memsetMem]
            rw [if_neg (by push_cast; omega)]


/-! ### The frame theorem for `writeMemory` -/

/-- Frame properties of the fuelled `writeMemory`, for any oracle: the region
list keeps its shape (addresses and snapshot lengths), remote bytes outside
the written window are untouched, and snapshot bytes whose address lies
outside the window are untouched. -/
theorem writeMemoryF_frame (oracle : Nat → Bool) :
    ∀ (fuel : Nat) (rs : List Region) (mem : Mem) (d : Int) (data : List Nat)
      (k : Nat), data.length ≤ fuel →
      ShapeEq rs (writeMemoryF oracle fuel rs mem d data k).2.2.1 ∧
      (∀ p : Int, (p < d ∨ d + (data.length : Int) ≤ p) →
        (writeMemoryF oracle fuel rs mem d data k).2.2.2.1 p = mem p) ∧
      (∀ (j t : Nat), ((rs.getD j defaultRegion).addr + (t : Int) < d ∨
          d + (data.length : Int) ≤ (rs.getD j defaultRegion).addr + (t : Int)) →
        (((writeMemoryF oracle fuel rs mem d data k).2.2.1.getD j
            defaultRegion)).snap.getD t 0
          = (rs.getD j defaultRegion).snap.getD t 0) := by
  intro fuel
  induction fuel with
  | zero =>
    intro rs mem d data k hf
    exact ⟨ShapeEq.refl rs, fun p _ => rfl, fun j t _ => rfl⟩
  | succ fuel ih =>
    intro rs mem d data k hf
    by_cases hlen0 : data.length = 0
    · have hd : data = [] := List.eq_nil_of_length_eq_zero hlen0
      subst hd
      rw [writeMemoryF_nil]
      exact ⟨ShapeEq.refl rs, fun p _ => rfl, fun j t _ => rfl⟩
    cases hfind : findOverlappingRegion rs d data.length with
    | none =>
      rw [writeMemoryF_plain oracle fuel rs mem d data k hlen0 hfind]
      simp only []
      refine ⟨ShapeEq.refl rs, ?_, ?_⟩
      · intro p hp
        exact plainWrite_mem_confine oracle d data.length data (Nat.le_refl _) 0 k mem p
          (by push_cast; push_cast at hp; omega)
      · first
        | trivial
        | exact fun j t _ => rfl
        | exact fun j t _ => trivial
    | some idx =>
      obtain ⟨hidx, hov⟩ := findOverlappingRegion_some_spec rs d data.length idx hfind
      have hlenpos : 0 < data.length := Nat.pos_of_ne_zero hlen0
      obtain ⟨hb1, hb2, hb3⟩ := getOverlapInfo_bounds d data.length
        (rs.getD idx defaultRegion) hlenpos hov
      rw [writeMemoryF_romem oracle fuel rs mem d data k idx hlen0 hfind]
      simp only []
      generalize hW : (getOverlapInfo d data.length (rs.getD idx defaultRegion)).writeOffset = wOff
      generalize hO : (getOverlapInfo d data.length (rs.getD idx defaultRegion)).overlapLen = oLen
      generalize hSn : (getOverlapInfo d data.length (rs.getD idx defaultRegion)).snapshot = snap0
      rw [hW, hO] at hb1
      rw [hW] at hb2
      rw [hW, hO] at hb3
      have hovlen : ((data.drop wOff).take oLen).length = oLen := by
        simp only [List.length_take, List.length_drop]
        omega
      have hBif : (if 0 < wOff then writeMemoryF oracle fuel rs mem d (data.take wOff) k
            else ([], 0, rs, mem, k))
          = writeMemoryF oracle fuel rs mem d (data.take wOff) k := by
        by_cases hw : 0 < wOff
        · rw [if_pos hw]
        · rw [if_neg hw]
          have hw0 : wOff = 0 := by omega
          subst hw0
          rw [List.take_zero, writeMemoryF_nil]
      have hAif : ∀ (rs2 : List Region) (m2 : Mem) (k2 : Nat),
          (if wOff + oLen < data.length then
            writeMemoryF oracle fuel rs2 m2 (d + ((wOff + oLen : Nat) : Int))
              (data.drop (wOff + oLen)) k2
          else ([], 0, rs2, m2, k2))
          = writeMemoryF oracle fuel rs2 m2 (d + ((wOff + oLen : Nat) : Int))
              (data.drop (wOff + oLen)) k2 := by
        intro rs2 m2 k2
        by_cases ha : wOff + oLen < data.length
        · rw [if_pos ha]
        · rw [if_neg ha]
          have hd2 : data.drop (wOff + oLen) = [] :=
            List.drop_eq_nil_of_le (by omega)
          rw [hd2, writeMemoryF_nil]
      rw [hBif, hAif]
      generalize hB : writeMemoryF oracle fuel rs mem d (data.take wOff) k = B
      generalize hS2 : safeWriteBuf oracle (d + (wOff : Int)) ((data.drop wOff).take oLen)
        snap0 0 B.2.2.2.2 B.2.2.2.1 = S
      generalize hR2 : B.2.2.1.set idx (updateSnapshot (B.2.2.1.getD idx defaultRegion)
        ((data.drop wOff).take oLen) (d + (wOff : Int))) = RS2
      have hBfacts := ih rs mem d (data.take wOff) k
        (by rw [List.length_take]; omega)
      rw [hB] at hBfacts
      obtain ⟨hBsh, hBmem, hBsnap⟩ := hBfacts
      have htake : (data.take wOff).length = wOff := by
        rw [List.length_take]
        omega
      rw [htake] at hBmem hBsnap
      have hSmem : ∀ p : Int, (p < d + (wOff : Int) ∨ d + (wOff : Int) + (oLen : Int) ≤ p) →
          S.2.2.2 p = B.2.2.2.1 p := by
        intro p hp
        rw [← hS2]
        refine safeWriteBuf_mem_confine oracle (d + (wOff : Int))
          ((data.drop wOff).take oLen).length ((data.drop wOff).take oLen)
          (Nat.le_refl _) snap0 0 B.2.2.2.2 B.2.2.2.1 p ?_
        rw [hovlen]
        push_cast
        push_cast at hp
        omega
      have hidxB : idx < B.2.2.1.length := by
        rw [hBsh.1]
        exact hidx
      have hR2sh : ShapeEq rs RS2 := by
        refine ShapeEq.trans hBsh ?_
        constructor
        · rw [← hR2, List.length_set]
        · intro j
          by_cases hj : idx = j
          · subst hj
            rw [← hR2, getD_set_self _ _ _ _ hidxB, updateSnapshot_addr,
              updateSnapshot_length]
            exact ⟨rfl, rfl⟩
          · rw [← hR2, getD_set_ne _ _ _ _ _ hj]
            exact ⟨rfl, rfl⟩
      obtain ⟨hAsh, hAmem, hAsnap⟩ := ih RS2 S.2.2.2
        (d + ((wOff + oLen : Nat) : Int)) (data.drop (wOff + oLen)) S.2.2.1
        (by rw [List.length_drop]; omega)
      refine ⟨ShapeEq.trans hR2sh hAsh, ?_, ?_⟩
      · intro p hp
        rw [hAmem p (by rw [List.length_drop]; push_cast; push_cast at hp; omega),
          hSmem p (by push_cast; push_cast at hp; omega),
          hBmem p (by push_cast; push_cast at hp; omega)]
      · intro j t hq
        have haj2 : (RS2.getD j defaultRegion).addr = (rs.getD j defaultRegion).addr :=
          (hR2sh.2 j).1
        rw [hAsnap j t (by rw [haj2, List.length_drop]; push_cast; push_cast at hq; omega)]
        by_cases hj : idx = j
        · subst hj
          rw [← hR2, getD_set_self _ _ _ _ hidxB]
          by_cases ht : t < (B.2.2.1.getD idx defaultRegion).snap.length
          · rw [updateSnapshot_getD _ _ _ _ ht, if_neg (by
              rw [(hBsh.2 idx).1, hovlen]
              push_cast
              push_cast at hq
              omega)]
            exact hBsnap idx t (by push_cast; push_cast at hq; omega)
          · rw [List.getD_eq_default _ _ (by rw [updateSnapshot_length]; omega),
              List.getD_eq_default _ _ (by
                have hlb : (B.2.2.1.getD idx defaultRegion).snap.length
                    = (rs.getD idx defaultRegion).snap.length := (hBsh.2 idx).2
                omega)]
        · rw [← hR2, getD_set_ne _ _ _ _ _ hj]
          exact hBsnap j t (by push_cast; push_cast at hq; omega)


/-- When every memset succeeds, the safe write loop reports completion. -/
theorem safeWriteBuf_none_of_true (oracle : Nat → Bool) (hor : ∀ n, oracle n = true)
    (d : Int) :
    ∀ (n : Nat) (source : List Nat), source.length ≤ n →
      ∀ (last : List Nat) (i k : Nat) (mem : Mem),
      (safeWriteBuf oracle d source last i k mem).2.1 = none := by
  intro n
  induction n with
  | zero =>
    intro source h last i k mem
    have hd : source = [] := List.eq_nil_of_length_eq_zero (Nat.le_zero.mp h)
    subst hd
    rw [safeWriteBuf_nil]
  | succ n ih =>
    intro source h last i k mem
    match source, last with
    | [], _ => rw [safeWriteBuf_nil]
    | value :: rest, lv :: lrest =>
      simp only [List.length_cons] at h
      by_cases hv : value = lv
      · rw [safeWriteBuf_skip oracle d value rest lv lrest i k mem hv]
        exact ih _ (by omega) _ _ _ _
      · rw [safeWriteBuf_run_cons_pos oracle d value rest lv lrest i k mem hv (hor k)]
        simp only []
        exact ih _ (by
          have := length_dropWhile_le_self (fun b => b == value) rest
          omega) _ _ _ _
    | value :: rest, [] =>
      simp only [List.length_cons] at h
      rw [safeWriteBuf_run_nil_pos oracle d value rest i k mem (hor k)]
      simp only []
      exact ih _ (by
        have := length_dropWhile_le_self (fun b => b == value) rest
        omega) _ _ _ _

/-- When every memset succeeds, `writeMemory` returns the full buffer
length. -/
theorem writeMemoryF_written_all (oracle : Nat → Bool) (hor : ∀ n, oracle n = true) :
    ∀ (fuel : Nat) (rs : List Region) (mem : Mem) (d : Int) (data : List Nat)
      (k : Nat), data.length ≤ fuel →
      (writeMemoryF oracle fuel rs mem d data k).2.1 = data.length := by
  intro fuel
  induction fuel with
  | zero =>
    intro rs mem d data k hf
    have : data.length = 0 := by omega
    simp [writeMemoryF, this]
  | succ fuel ih =>
    intro rs mem d data k hf
    by_cases hlen0 : data.length = 0
    · have hd : data = [] := List.eq_nil_of_length_eq_zero hlen0
      subst hd
      rw [writeMemoryF_nil]
      rfl
    cases hfind : findOverlappingRegion rs d data.length with
    | none =>
      rw [writeMemoryF_plain oracle fuel rs mem d data k hlen0 hfind]
      simp only []
      have hpw := plainWrite_eq_runsToCalls oracle d data.length data (Nat.le_refl _)
        0 k mem
      have hres : (plainWrite oracle d data 0 k mem).2.1 = none := by
        have := congrArg (fun t => t.2.1) hpw
        simp only [proj3] at this
        rw [this, runsToCalls_res_none_of_true oracle d _ k hor]
      rw [hres]
      rfl
    | some jdx =>
      obtain ⟨hidxJ, hov⟩ := findOverlappingRegion_some_spec rs d data.length jdx hfind
      have hlenpos : 0 < data.length := Nat.pos_of_ne_zero hlen0
      obtain ⟨hb1, hb2, hb3⟩ := getOverlapInfo_bounds d data.length
        (rs.getD jdx defaultRegion) hlenpos hov
      rw [writeMemoryF_romem oracle fuel rs mem d data k jdx hlen0 hfind]
      simp only []
      generalize hW : (getOverlapInfo d data.length (rs.getD jdx defaultRegion)).writeOffset = wOff
      generalize hO : (getOverlapInfo d data.length (rs.getD jdx defaultRegion)).overlapLen = oLen
      generalize hSn : (getOverlapInfo d data.length (rs.getD jdx defaultRegion)).snapshot = snap0
      rw [hW, hO] at hb1
      rw [hW] at hb2
      rw [hW, hO] at hb3
      have hovlen : ((data.drop wOff).take oLen).length = oLen := by
        simp only [List.length_take, List.length_drop]
        omega
      have hBif : (if 0 < wOff then writeMemoryF oracle fuel rs mem d (data.take wOff) k
            else ([], 0, rs, mem, k))
          = writeMemoryF oracle fuel rs mem d (data.take wOff) k := by
        by_cases hw : 0 < wOff
        · rw [if_pos hw]
        · rw [if_neg hw]
          have hw0 : wOff = 0 := by omega
          subst hw0
          rw [List.take_zero, writeMemoryF_nil]
      have hAif : ∀ (rs2 : List Region) (m2 : Mem) (k2 : Nat),
          (if wOff + oLen < data.length then
            writeMemoryF oracle fuel rs2 m2 (d + ((wOff + oLen : Nat) : Int))
              (data.drop (wOff + oLen)) k2
          else ([], 0, rs2, m2, k2))
          = writeMemoryF oracle fuel rs2 m2 (d + ((wOff + oLen : Nat) : Int))
              (data.drop (wOff + oLen)) k2 := by
        intro rs2 m2 k2
        by_cases ha : wOff + oLen < data.length
        · rw [if_pos ha]
        · rw [if_neg ha]
          have hd2 : data.drop (wOff + oLen) = [] :=
            List.drop_eq_nil_of_le (by omega)
          rw [hd2, writeMemoryF_nil]
      rw [hBif, hAif]
      generalize hB : writeMemoryF oracle fuel rs mem d (data.take wOff) k = B
      generalize hS2 : safeWriteBuf oracle (d + (wOff : Int)) ((data.drop wOff).take oLen)
        snap0 0 B.2.2.2.2 B.2.2.2.1 = S
      generalize hR2 : B.2.2.1.set jdx (updateSnapshot (B.2.2.1.getD jdx defaultRegion)
        ((data.drop wOff).take oLen) (d + (wOff : Int))) = RS2
      have hBw := ih rs mem d (data.take wOff) k (by rw [List.length_take]; omega)
      rw [hB] at hBw
      have hSw := safeWriteBuf_none_of_true oracle hor (d + (wOff : Int))
        ((data.drop wOff).take oLen).length ((data.drop wOff).take oLen)
        (Nat.le_refl _) snap0 0 B.2.2.2.2 B.2.2.2.1
      rw [hS2] at hSw
      have hAw := ih RS2 S.2.2.2 (d + ((wOff + oLen : Nat) : Int))
        (data.drop (wOff + oLen)) S.2.2.1 (by rw [List.length_drop]; omega)
      rw [hBw, hSw, hAw]
      simp only [Option.getD_none, List.length_take, List.length_drop]
      omega

/-- Snapshot postcondition of `writeMemory`, for any oracle and pairwise
disjoint regions: every snapshot byte whose address lies inside the written
window ends up equal to the corresponding source byte.  Note that no
assumption on the oracle is needed: snapshots are updated whether or not the
remote memsets succeed. -/
theorem writeMemoryF_snapshot (oracle : Nat → Bool) :
    ∀ (fuel : Nat) (rs : List Region) (mem : Mem) (d : Int) (data : List Nat)
      (k : Nat), data.length ≤ fuel → RegionsDisjoint rs →
      ∀ (idx t : Nat), idx < rs.length →
        t < (rs.getD idx defaultRegion).snap.length →
        d ≤ (rs.getD idx defaultRegion).addr + (t : Int) →
        (rs.getD idx defaultRegion).addr + (t : Int) < d + (data.length : Int) →
        ((writeMemoryF oracle fuel rs mem d data k).2.2.1.getD idx
            defaultRegion).snap.getD t 0
          = data.getD (((rs.getD idx defaultRegion).addr + (t : Int) - d).toNat) 0 := by
  intro fuel
  induction fuel with
  | zero =>
    intro rs mem d data k hf hdisj idx t hidx ht hlo hhi
    exact absurd hhi (by omega)
  | succ fuel ih =>
    intro rs mem d data k hf hdisj idx t hidx ht hlo hhi
    by_cases hlen0 : data.length = 0
    · exact absurd hhi (by omega)
    cases hfind : findOverlappingRegion rs d data.length with
    | none =>
      refine absurd (⟨by omega, by omega⟩ :
          OverlapsP d data.length (rs.getD idx defaultRegion))
        (findOverlappingRegion_none_spec rs d data.length hfind idx hidx)
    | some jdx =>
      obtain ⟨hidxJ, hov⟩ := findOverlappingRegion_some_spec rs d data.length jdx hfind
      have hlenpos : 0 < data.length := Nat.pos_of_ne_zero hlen0
      obtain ⟨hb1, hb2, hb3⟩ := getOverlapInfo_bounds d data.length
        (rs.getD jdx defaultRegion) hlenpos hov
      have hstart := getOverlapInfo_start d data.length (rs.getD jdx defaultRegion)
      have hend := getOverlapInfo_end d data.length (rs.getD jdx defaultRegion) hov
      rw [writeMemoryF_romem oracle fuel rs mem d data k jdx hlen0 hfind]
      simp only []
      generalize hW : (getOverlapInfo d data.length (rs.getD jdx defaultRegion)).writeOffset = wOff
      generalize hO : (getOverlapInfo d data.length (rs.getD jdx defaultRegion)).overlapLen = oLen
      generalize hSn : (getOverlapInfo d data.length (rs.getD jdx defaultRegion)).snapshot = snap0
      rw [hW, hO] at hb1
      rw [hW] at hb2
      rw [hW, hO] at hb3
      rw [hW] at hstart
      rw [hW, hO] at hend
      push_cast at hend
      have hovlen : ((data.drop wOff).take oLen).length = oLen := by
        simp only [List.length_take, List.length_drop]
        omega
      have hBif : (if 0 < wOff then writeMemoryF oracle fuel rs mem d (data.take wOff) k
            else ([], 0, rs, mem, k))
          = writeMemoryF oracle fuel rs mem d (data.take wOff) k := by
        by_cases hw : 0 < wOff
        · rw [if_pos hw]
        · rw [if_neg hw]
          have hw0 : wOff = 0 := by omega
          subst hw0
          rw [List.take_zero, writeMemoryF_nil]
      have hAif : ∀ (rs2 : List Region) (m2 : Mem) (k2 : Nat),
          (if wOff + oLen < data.length then
            writeMemoryF oracle fuel rs2 m2 (d + ((wOff + oLen : Nat) : Int))
              (data.drop (wOff + oLen)) k2
          else ([], 0, rs2, m2, k2))
          = writeMemoryF oracle fuel rs2 m2 (d + ((wOff + oLen : Nat) : Int))
              (data.drop (wOff + oLen)) k2 := by
        intro rs2 m2 k2
        by_cases ha : wOff + oLen < data.length
        · rw [if_pos ha]
        · rw [if_neg ha]
          have hd2 : data.drop (wOff + oLen) = [] :=
            List.drop_eq_nil_of_le (by omega)
          rw [hd2, writeMemoryF_nil]
      rw [hBif, hAif]
      generalize hB : writeMemoryF oracle fuel rs mem d (data.take wOff) k = B
      generalize hS2 : safeWriteBuf oracle (d + (wOff : Int)) ((data.drop wOff).take oLen)
        snap0 0 B.2.2.2.2 B.2.2.2.1 = S
      generalize hR2 : B.2.2.1.set jdx (updateSnapshot (B.2.2.1.getD jdx defaultRegion)
        ((data.drop wOff).take oLen) (d + (wOff : Int))) = RS2
      have hBfacts := writeMemoryF_frame oracle fuel rs mem d (data.take wOff) k
        (by rw [List.length_take]; omega)
      rw [hB] at hBfacts
      obtain ⟨hBsh, hBmem, hBsnap⟩ := hBfacts
      have htake : (data.take wOff).length = wOff := by rw [List.length_take]; omega
      rw [htake] at hBmem hBsnap
      have hidxJB : jdx < B.2.2.1.length := by rw [hBsh.1]; exact hidxJ
      have hR2sh : ShapeEq rs RS2 := by
        refine ShapeEq.trans hBsh ?_
        constructor
        · rw [← hR2, List.length_set]
        · intro j
          by_cases hj2 : jdx = j
          · subst hj2
            rw [← hR2, getD_set_self _ _ _ _ hidxJB, updateSnapshot_addr,
              updateSnapshot_length]
            exact ⟨rfl, rfl⟩
          · rw [← hR2, getD_set_ne _ _ _ _ _ hj2]
            exact ⟨rfl, rfl⟩
      obtain ⟨hAsh, hAmem, hAsnap⟩ := writeMemoryF_frame oracle fuel RS2 S.2.2.2
        (d + ((wOff + oLen : Nat) : Int)) (data.drop (wOff + oLen)) S.2.2.1
        (by rw [List.length_drop]; omega)
      by_cases hj : jdx = idx
      · subst hj
        have hq1 : d + (wOff : Int) ≤ (rs.getD jdx defaultRegion).addr + (t : Int) := by
          omega
        have hq2 : (rs.getD jdx defaultRegion).addr + (t : Int)
            < d + (wOff : Int) + (oLen : Int) := by
          omega
        rw [hAsnap jdx t (by rw [(hR2sh.2 jdx).1]; push_cast; omega)]
        rw [← hR2, getD_set_self _ _ _ _ hidxJB]
        have ht2 : t < (B.2.2.1.getD jdx defaultRegion).snap.length := by
          rw [(hBsh.2 jdx).2]
          exact ht
        rw [updateSnapshot_getD _ _ _ _ ht2, (hBsh.2 jdx).1, hovlen,
          if_pos ⟨hq1, by omega⟩, getD_take _ _ _ _ (by omega), getD_drop]
        congr 1
        omega
      · have hdis := hdisj idx hidx jdx hidxJ (fun hh => hj hh.symm)
        have hnotin : (rs.getD idx defaultRegion).addr + (t : Int) < d + (wOff : Int) ∨
            d + (wOff : Int) + (oLen : Int) ≤ (rs.getD idx defaultRegion).addr + (t : Int) := by
          rcases hdis with hdis | hdis <;> omega
        rcases hnotin with hbefore | hafter
        · rw [hAsnap idx t (by rw [(hR2sh.2 idx).1]; push_cast; omega)]
          rw [← hR2, getD_set_ne _ _ _ _ _ hj]
          have hBc := ih rs mem d (data.take wOff) k (by rw [List.length_take]; omega)
            hdisj idx t hidx ht hlo (by rw [htake]; omega)
          rw [hB] at hBc
          rw [hBc, getD_take _ _ _ _ (by omega)]
        · have hidxR : idx < RS2.length := by rw [hR2sh.1]; exact hidx
          have htR : t < (RS2.getD idx defaultRegion).snap.length := by
            rw [(hR2sh.2 idx).2]
            exact ht
          have hAc := ih RS2 S.2.2.2 (d + ((wOff + oLen : Nat) : Int))
            (data.drop (wOff + oLen)) S.2.2.1 (by rw [List.length_drop]; omega)
            (RegionsDisjoint.of_shape hR2sh hdisj) idx t hidxR htR
            (by rw [(hR2sh.2 idx).1]; push_cast; omega)
            (by rw [(hR2sh.2 idx).1, List.length_drop]; push_cast; omega)
          rw [hAc, (hR2sh.2 idx).1, getD_drop]
          congr 1
          push_cast
          omega

/-- Memory postcondition of `writeMemory` for a fully successful call over
pairwise disjoint regions: a remote byte inside the window that belongs to
some region's span and agreed with that region's snapshot beforehand ends up
equal to the corresponding source byte. -/
theorem writeMemoryF_mem (oracle : Nat → Bool) (hor : ∀ n, oracle n = true) :
    ∀ (fuel : Nat) (rs : List Region) (mem : Mem) (d : Int) (data : List Nat)
      (k : Nat), data.length ≤ fuel → RegionsDisjoint rs →
      ∀ (idx t : Nat), idx < rs.length →
        t < (rs.getD idx defaultRegion).snap.length →
        d ≤ (rs.getD idx defaultRegion).addr + (t : Int) →
        (rs.getD idx defaultRegion).addr + (t : Int) < d + (data.length : Int) →
        mem ((rs.getD idx defaultRegion).addr + (t : Int))
          = (rs.getD idx defaultRegion).snap.getD t 0 →
        (writeMemoryF oracle fuel rs mem d data k).2.2.2.1
            ((rs.getD idx defaultRegion).addr + (t : Int))
          = data.getD (((rs.getD idx defaultRegion).addr + (t : Int) - d).toNat) 0 := by
  intro fuel
  induction fuel with
  | zero =>
    intro rs mem d data k hf hdisj idx t hidx ht hlo hhi hpre
    exact absurd hhi (by omega)
  | succ fuel ih =>
    intro rs mem d data k hf hdisj idx t hidx ht hlo hhi hpre
    by_cases hlen0 : data.length = 0
    · exact absurd hhi (by omega)
    cases hfind : findOverlappingRegion rs d data.length with
    | none =>
      refine absurd (⟨by omega, by omega⟩ :
          OverlapsP d data.length (rs.getD idx defaultRegion))
        (findOverlappingRegion_none_spec rs d data.length hfind idx hidx)
    | some jdx =>
      obtain ⟨hidxJ, hov⟩ := findOverlappingRegion_some_spec rs d data.length jdx hfind
      have hlenpos : 0 < data.length := Nat.pos_of_ne_zero hlen0
      obtain ⟨hb1, hb2, hb3⟩ := getOverlapInfo_bounds d data.length
        (rs.getD jdx defaultRegion) hlenpos hov
      have hstart := getOverlapInfo_start d data.length (rs.getD jdx defaultRegion)
      have hend := getOverlapInfo_end d data.length (rs.getD jdx defaultRegion) hov
      rw [writeMemoryF_romem oracle fuel rs mem d data k jdx hlen0 hfind]
      simp only []
      generalize hW : (getOverlapInfo d data.length (rs.getD jdx defaultRegion)).writeOffset = wOff
      generalize hO : (getOverlapInfo d data.length (rs.getD jdx defaultRegion)).overlapLen = oLen
      generalize hSn : (getOverlapInfo d data.length (rs.getD jdx defaultRegion)).snapshot = snap0
      rw [hW, hO] at hb1
      rw [hW] at hb2
      rw [hW, hO] at hb3
      rw [hW] at hstart
      rw [hW, hO] at hend
      push_cast at hend
      have hovlen : ((data.drop wOff).take oLen).length = oLen := by
        simp only [List.length_take, List.length_drop]
        omega
      have hBif : (if 0 < wOff then writeMemoryF oracle fuel rs mem d (data.take wOff) k
            else ([], 0, rs, mem, k))
          = writeMemoryF oracle fuel rs mem d (data.take wOff) k := by
        by_cases hw : 0 < wOff
        · rw [if_pos hw]
        · rw [if_neg hw]
          have hw0 : wOff = 0 := by omega
          subst hw0
          rw [List.take_zero, writeMemoryF_nil]
      have hAif : ∀ (rs2 : List Region) (m2 : Mem) (k2 : Nat),
          (if wOff + oLen < data.length then
            writeMemoryF oracle fuel rs2 m2 (d + ((wOff + oLen : Nat) : Int))
              (data.drop (wOff + oLen)) k2
          else ([], 0, rs2, m2, k2))
          = writeMemoryF oracle fuel rs2 m2 (d + ((wOff + oLen : Nat) : Int))
              (data.drop (wOff + oLen)) k2 := by
        intro rs2 m2 k2
        by_cases ha : wOff + oLen < data.length
        · rw [if_pos ha]
        · rw [if_neg ha]
          have hd2 : data.drop (wOff + oLen) = [] :=
            List.drop_eq_nil_of_le (by omega)
          rw [hd2, writeMemoryF_nil]
      rw [hBif, hAif]
      generalize hB : writeMemoryF oracle fuel rs mem d (data.take wOff) k = B
      generalize hS2 : safeWriteBuf oracle (d + (wOff : Int)) ((data.drop wOff).take oLen)
        snap0 0 B.2.2.2.2 B.2.2.2.1 = S
      generalize hR2 : B.2.2.1.set jdx (updateSnapshot (B.2.2.1.getD jdx defaultRegion)
        ((data.drop wOff).take oLen) (d + (wOff : Int))) = RS2
      have hBfacts := writeMemoryF_frame oracle fuel rs mem d (data.take wOff) k
        (by rw [List.length_take]; omega)
      rw [hB] at hBfacts
      obtain ⟨hBsh, hBmem, hBsnap⟩ := hBfacts
      have htake : (data.take wOff).length = wOff := by rw [List.length_take]; omega
      rw [htake] at hBmem hBsnap
      have hidxJB : jdx < B.2.2.1.length := by rw [hBsh.1]; exact hidxJ
      have hR2sh : ShapeEq rs RS2 := by
        refine ShapeEq.trans hBsh ?_
        constructor
        · rw [← hR2, List.length_set]
        · intro j
          by_cases hj2 : jdx = j
          · subst hj2
            rw [← hR2, getD_set_self _ _ _ _ hidxJB, updateSnapshot_addr,
              updateSnapshot_length]
            exact ⟨rfl, rfl⟩
          · rw [← hR2, getD_set_ne _ _ _ _ _ hj2]
            exact ⟨rfl, rfl⟩
      have hSmem : ∀ p : Int, (p < d + (wOff : Int) ∨ d + (wOff : Int) + (oLen : Int) ≤ p) →
          S.2.2.2 p = B.2.2.2.1 p := by
        intro p hp
        rw [← hS2]
        refine safeWriteBuf_mem_confine oracle (d + (wOff : Int))
          ((data.drop wOff).take oLen).length ((data.drop wOff).take oLen)
          (Nat.le_refl _) snap0 0 B.2.2.2.2 B.2.2.2.1 p ?_
        rw [hovlen]
        push_cast
        omega
      obtain ⟨hAsh, hAmem, hAsnap⟩ := writeMemoryF_frame oracle fuel RS2 S.2.2.2
        (d + ((wOff + oLen : Nat) : Int)) (data.drop (wOff + oLen)) S.2.2.1
        (by rw [List.length_drop]; omega)
      by_cases hj : jdx = idx
      · subst hj
        have hq1 : d + (wOff : Int) ≤ (rs.getD jdx defaultRegion).addr + (t : Int) := by
          omega
        have hq2 : (rs.getD jdx defaultRegion).addr + (t : Int)
            < d + (wOff : Int) + (oLen : Int) := by
          omega
        rw [hAmem _ (by push_cast; omega)]
        have hu : (((rs.getD jdx defaultRegion).addr + (t : Int)
            - (d + (wOff : Int))).toNat) < ((data.drop wOff).take oLen).length := by
          rw [hovlen]
          omega
        have hsafe := safeWriteBuf_mem_all oracle hor (d + (wOff : Int))
          ((data.drop wOff).take oLen).length ((data.drop wOff).take oLen)
          (Nat.le_refl _) snap0 0 B.2.2.2.2 B.2.2.2.1
          (((rs.getD jdx defaultRegion).addr + (t : Int) - (d + (wOff : Int))).toNat) hu
        rw [hS2] at hsafe
        have haddr : d + (wOff : Int) + ((0 : Nat) : Int)
            + ((((rs.getD jdx defaultRegion).addr + (t : Int)
                - (d + (wOff : Int))).toNat : Nat) : Int)
            = (rs.getD jdx defaultRegion).addr + (t : Int) := by
          omega
        rw [haddr] at hsafe
        rcases hsafe with hsafe | ⟨heq, hunch⟩
        · rw [hsafe, getD_take _ _ _ _ (by omega), getD_drop]
          congr 1
          omega
        · rw [hunch, hBmem _ (by omega), hpre]
          have hsg := getOverlapInfo_snapshot_getD d data.length
            (rs.getD jdx defaultRegion)
            (((rs.getD jdx defaultRegion).addr + (t : Int) - (d + (wOff : Int))).toNat)
            (by rw [hO]; omega)
          rw [hW, hSn] at hsg
          have hidx2 : ((d + (wOff : Int)) - (rs.getD jdx defaultRegion).addr).toNat
              + (((rs.getD jdx defaultRegion).addr + (t : Int)
                - (d + (wOff : Int))).toNat) = t := by
            omega
          rw [hidx2] at hsg
          rw [← hsg, ← heq, getD_take _ _ _ _ (by omega), getD_drop]
          congr 1
          omega
      · have hdis := hdisj idx hidx jdx hidxJ (fun hh => hj hh.symm)
        have hnotin : (rs.getD idx defaultRegion).addr + (t : Int) < d + (wOff : Int) ∨
            d + (wOff : Int) + (oLen : Int) ≤ (rs.getD idx defaultRegion).addr + (t : Int) := by
          rcases hdis with hdis | hdis <;> omega
        rcases hnotin with hbefore | hafter
        · rw [hAmem _ (by push_cast; omega), hSmem _ (by omega)]
          have hBc := ih rs mem d (data.take wOff) k (by rw [List.length_take]; omega)
            hdisj idx t hidx ht hlo (by rw [htake]; omega) hpre
          rw [hB] at hBc
          rw [hBc, getD_take _ _ _ _ (by omega)]
        · have hidxR : idx < RS2.length := by rw [hR2sh.1]; exact hidx
          have htR : t < (RS2.getD idx defaultRegion).snap.length := by
            rw [(hR2sh.2 idx).2]
            exact ht
          have hpre2 : S.2.2.2 ((rs.getD idx defaultRegion).addr + (t : Int))
              = (RS2.getD idx defaultRegion).snap.getD t 0 := by
            rw [hSmem _ (by omega), hBmem _ (by omega), hpre, ← hR2,
              getD_set_ne _ _ _ _ _ hj, hBsnap idx t (by omega)]
          have hAc := ih RS2 S.2.2.2 (d + ((wOff + oLen : Nat) : Int))
            (data.drop (wOff + oLen)) S.2.2.1 (by rw [List.length_drop]; omega)
            (RegionsDisjoint.of_shape hR2sh hdisj) idx t hidxR htR
            (by rw [(hR2sh.2 idx).1]; push_cast; omega)
            (by rw [(hR2sh.2 idx).1, List.length_drop]; push_cast; omega)
            (by rw [(hR2sh.2 idx).1]; exact hpre2)
          rw [(hR2sh.2 idx).1] at hAc
          rw [hAc, getD_drop]
          congr 1
          push_cast
          omega


/-! ## Claim C1: read-only snapshot consistency -/

/-- **C1 counterexample**: the claim as stated fails when registered regions
overlap each other.  Two identical regions `⟨0, [0]⟩` are registered; the
write of `[1]` at 0 overlaps both, the remote memory agrees with both
snapshots beforehand, every memset succeeds and the call returns the full
length 1 — yet only the *first* region's snapshot is updated: region 1
still holds byte 0 while the source byte is 1. -/
theorem claim_C1_counterexample :
    OverlapsP 0 1 (([⟨0, [0]⟩, ⟨0, [0]⟩] : List Region).getD 1 defaultRegion) ∧
    (fun _ => (0 : Nat)) (0 : Int)
      = (([⟨0, [0]⟩, ⟨0, [0]⟩] : List Region).getD 1 defaultRegion).snap.getD 0 0 ∧
    (writeMemory (fun _ => true) [⟨0, [0]⟩, ⟨0, [0]⟩] (fun _ => 0) 0 [1] 0).2.1 = 1 ∧
    ((writeMemory (fun _ => true) [⟨0, [0]⟩, ⟨0, [0]⟩] (fun _ => 0) 0 [1] 0).2.2.1.getD 1
        defaultRegion).snap.getD 0 0 = 0 ∧
    (0 : Nat) ≠ ([1] : List Nat).getD 0 0 := by
  refine ⟨by decide, by decide, ?_, ?_, by decide⟩
  · exact writeMemoryF_written_all (fun _ => true) (fun _ => rfl) 1
      [⟨0, [0]⟩, ⟨0, [0]⟩] (fun _ => 0) 0 [1] 0 (Nat.le_refl _)
  · show ((writeMemoryF (fun _ => true) (0 + 1) [⟨0, [0]⟩, ⟨0, [0]⟩] (fun _ => 0) 0 [1]
        0).2.2.1.getD 1 defaultRegion).snap.getD 0 0 = 0
    rw [writeMemoryF_romem (fun _ => true) 0 [⟨0, [0]⟩, ⟨0, [0]⟩] (fun _ => 0) 0 [1] 0 0
      (by decide) (by decide)]
    decide

/-- **C1 (amended)**: snapshot consistency holds for *pairwise-disjoint*
registered regions.  After a `writeMemory` whose memsets all return non-null
(all-true oracle), for every region and every snapshot byte whose address
lies in the written window: the new snapshot byte equals the corresponding
source byte, and — provided the remote byte agreed with the snapshot before
the call (the precondition maintained by this very invariant) — the remote
byte equals the new snapshot byte.  The call returns the full buffer
length. -/
theorem claim_C1_snapshot_consistency (oracle : Nat → Bool) (hor : ∀ n, oracle n = true)
    (rs : List Region) (hdisj : RegionsDisjoint rs) (mem : Mem) (d : Int)
    (data : List Nat) (k : Nat) (idx t : Nat) (hidx : idx < rs.length)
    (ht : t < (rs.getD idx defaultRegion).snap.length)
    (hlo : d ≤ (rs.getD idx defaultRegion).addr + (t : Int))
    (hhi : (rs.getD idx defaultRegion).addr + (t : Int) < d + (data.length : Int))
    (hpre : mem ((rs.getD idx defaultRegion).addr + (t : Int))
      = (rs.getD idx defaultRegion).snap.getD t 0) :
    ((writeMemory oracle rs mem d data k).2.2.1.getD idx defaultRegion).snap.getD t 0
        = data.getD (((rs.getD idx defaultRegion).addr + (t : Int) - d).toNat) 0 ∧
    (writeMemory oracle rs mem d data k).2.2.2.1
        ((rs.getD idx defaultRegion).addr + (t : Int))
      = ((writeMemory oracle rs mem d data k).2.2.1.getD idx defaultRegion).snap.getD t 0 ∧
    (writeMemory oracle rs mem d data k).2.1 = data.length := by
  have h1 := writeMemoryF_snapshot oracle data.length rs mem d data k (Nat.le_refl _)
    hdisj idx t hidx ht hlo hhi
  have h2 := writeMemoryF_mem oracle hor data.length rs mem d data k (Nat.le_refl _)
    hdisj idx t hidx ht hlo hhi hpre
  have h3 := writeMemoryF_written_all oracle hor data.length rs mem d data k (Nat.le_refl _)
  exact ⟨h1, h2.trans h1.symm, h3⟩

/-- **C1 witness**: region `⟨100, [5, 5]⟩`, write `[7, 8]` at 100 with an
always-succeeding oracle and a remote memory agreeing with the snapshot:
at offset 0 the amended theorem yields snapshot byte = source byte 7,
remote byte = snapshot byte, and return value 2. -/
theorem claim_C1_witness :
    RegionsDisjoint [⟨100, [5, 5]⟩] ∧
    (0 : Nat) < (([⟨100, [5, 5]⟩] : List Region).getD 0 defaultRegion).snap.length ∧
    (((writeMemory (fun _ => true) [⟨100, [5, 5]⟩] (fun _ => 5) 100 [7, 8] 0).2.2.1.getD 0
        defaultRegion).snap.getD 0 0
      = ([7, 8] : List Nat).getD (((([⟨100, [5, 5]⟩] : List Region).getD 0
          defaultRegion).addr + ((0 : Nat) : Int) - 100).toNat) 0 ∧
     (writeMemory (fun _ => true) [⟨100, [5, 5]⟩] (fun _ => 5) 100 [7, 8] 0).2.2.2.1
        ((([⟨100, [5, 5]⟩] : List Region).getD 0 defaultRegion).addr + ((0 : Nat) : Int))
      = ((writeMemory (fun _ => true) [⟨100, [5, 5]⟩] (fun _ => 5) 100 [7, 8] 0).2.2.1.getD 0
          defaultRegion).snap.getD 0 0 ∧
     (writeMemory (fun _ => true) [⟨100, [5, 5]⟩] (fun _ => 5) 100 [7, 8] 0).2.1 = 2) := by
  refine ⟨by decide, by decide, ?_⟩
  exact claim_C1_snapshot_consistency (fun _ => true) (fun _ => rfl) [⟨100, [5, 5]⟩]
    (by decide) (fun _ => 5) 100 [7, 8] 0 0 0 (by decide) (by decide) (by decide)
    (by decide) (by decide)

/-! ## Claim C5: idempotent rewrite over a containing region -/

/-- **C5**: if a registered region (among pairwise-disjoint regions) wholly
contains the write range and `writeMemory(d, data)` runs with every memset
succeeding, then an immediately repeated `writeMemory` of the same buffer —
under *any* oracle — issues zero in-thread memsets, returns the full buffer
length, and changes neither the regions nor the remote memory. -/
theorem claim_C5_idempotent_rewrite (oracle oracle2 : Nat → Bool)
    (hor : ∀ n, oracle n = true) (rs : List Region) (hdisj : RegionsDisjoint rs)
    (mem : Mem) (d : Int) (data : List Nat) (k k2 : Nat) (idx : Nat)
    (hidx : idx < rs.length) (hlen : data ≠ [])
    (hlo : (rs.getD idx defaultRegion).addr ≤ d)
    (hhi : d + (data.length : Int)
      ≤ (rs.getD idx defaultRegion).addr + ((rs.getD idx defaultRegion).snap.length : Int)) :
    writeMemory oracle2 (writeMemory oracle rs mem d data k).2.2.1
        (writeMemory oracle rs mem d data k).2.2.2.1 d data k2
      = ([], data.length, (writeMemory oracle rs mem d data k).2.2.1,
          (writeMemory oracle rs mem d data k).2.2.2.1, k2) := by
  have hlen0 : data.length ≠ 0 := fun hh => hlen (List.eq_nil_of_length_eq_zero hh)
  have hlenpos : 0 < data.length := Nat.pos_of_ne_zero hlen0
  generalize hRS1 : (writeMemory oracle rs mem d data k).2.2.1 = rs1
  generalize hM1 : (writeMemory oracle rs mem d data k).2.2.2.1 = mem1
  have hsh : ShapeEq rs rs1 := by
    rw [← hRS1]
    exact (writeMemoryF_frame oracle data.length rs mem d data k (Nat.le_refl _)).1
  have haddr1 : (rs1.getD idx defaultRegion).addr = (rs.getD idx defaultRegion).addr :=
    (hsh.2 idx).1
  have hlen1 : (rs1.getD idx defaultRegion).snap.length
      = (rs.getD idx defaultRegion).snap.length := (hsh.2 idx).2
  have hidx1 : idx < rs1.length := by rw [hsh.1]; exact hidx
  have hdisj1 : RegionsDisjoint rs1 := RegionsDisjoint.of_shape hsh hdisj
  have hAgree : ∀ t : Nat, t < (rs.getD idx defaultRegion).snap.length →
      d ≤ (rs.getD idx defaultRegion).addr + (t : Int) →
      (rs.getD idx defaultRegion).addr + (t : Int) < d + (data.length : Int) →
      (rs1.getD idx defaultRegion).snap.getD t 0
        = data.getD (((rs.getD idx defaultRegion).addr + (t : Int) - d).toNat) 0 := by
    intro t ht2 hc1 hc2
    rw [← hRS1]
    exact writeMemoryF_snapshot oracle data.length rs mem d data k (Nat.le_refl _)
      hdisj idx t hidx ht2 hc1 hc2
  have hov2 : OverlapsP d data.length (rs1.getD idx defaultRegion) :=
    ⟨by rw [haddr1]; omega, by rw [haddr1, hlen1]; omega⟩
  have hmin2 : ∀ j, j < idx → ¬ OverlapsP d data.length (rs1.getD j defaultRegion) := by
    intro j hj hovj
    obtain ⟨ho1, ho2⟩ := hovj
    have hjlen : j < rs.length := by omega
    rw [(hsh.2 j).1] at ho1
    rw [(hsh.2 j).1, (hsh.2 j).2] at ho2
    have hdis := hdisj idx hidx j hjlen (by omega)
    rcases hdis with hdis | hdis <;> omega
  have hfind2 : findOverlappingRegion rs1 d data.length = some idx :=
    findOverlappingRegion_first rs1 d data.length idx hidx1 hov2 hmin2
  have hst2 := getOverlapInfo_start d data.length (rs1.getD idx defaultRegion)
  have hen2 := getOverlapInfo_end d data.length (rs1.getD idx defaultRegion) hov2
  rw [haddr1] at hst2
  rw [haddr1, hlen1] at hen2
  have hw0 : (getOverlapInfo d data.length (rs1.getD idx defaultRegion)).writeOffset
      = 0 := by omega
  have ho0 : (getOverlapInfo d data.length (rs1.getD idx defaultRegion)).overlapLen
      = data.length := by omega
  have hslen := getOverlapInfo_snapshot_length d data.length
    (rs1.getD idx defaultRegion) hov2
  have hslice : (getOverlapInfo d data.length (rs1.getD idx defaultRegion)).snapshot
      = data := by
    refine ext_getD _ _ 0 (by rw [hslen, ho0]) ?_
    intro u hu
    rw [hslen, ho0] at hu
    rw [getOverlapInfo_snapshot_getD d data.length (rs1.getD idx defaultRegion) u
      (by rw [ho0]; exact hu)]
    rw [hw0, haddr1]
    rw [hAgree ((d + ((0 : Nat) : Int) - (rs.getD idx defaultRegion).addr).toNat + u)
      (by omega) (by omega) (by omega)]
    congr 1
    omega
  have hupd : updateSnapshot (rs1.getD idx defaultRegion) data (d + ((0 : Nat) : Int))
      = rs1.getD idx defaultRegion := by
    have ha := updateSnapshot_addr (rs1.getD idx defaultRegion) data (d + ((0 : Nat) : Int))
    have hl := updateSnapshot_length (rs1.getD idx defaultRegion) data (d + ((0 : Nat) : Int))
    have hsnapeq : (updateSnapshot (rs1.getD idx defaultRegion) data
        (d + ((0 : Nat) : Int))).snap = (rs1.getD idx defaultRegion).snap := by
      refine ext_getD _ _ 0 (by rw [hl]) ?_
      intro i hi
      rw [hl] at hi
      rw [updateSnapshot_getD _ _ _ _ hi]
      by_cases hin : d + ((0 : Nat) : Int) ≤ (rs1.getD idx defaultRegion).addr + (i : Int) ∧
          (rs1.getD idx defaultRegion).addr + (i : Int)
            < d + ((0 : Nat) : Int) + (data.length : Int)
      · rw [if_pos hin,
          hAgree i (by omega) (by omega) (by omega)]
        congr 1
        omega
      · rw [if_neg hin]
    calc updateSnapshot (rs1.getD idx defaultRegion) data (d + ((0 : Nat) : Int))
        = (⟨(updateSnapshot (rs1.getD idx defaultRegion) data
              (d + ((0 : Nat) : Int))).addr,
            (updateSnapshot (rs1.getD idx defaultRegion) data
              (d + ((0 : Nat) : Int))).snap⟩ : Region) := rfl
      _ = (⟨(rs1.getD idx defaultRegion).addr,
            (rs1.getD idx defaultRegion).snap⟩ : Region) := by rw [ha, hsnapeq]
      _ = rs1.getD idx defaultRegion := rfl
  obtain ⟨m, hm⟩ : ∃ m2, data.length = m2 + 1 := ⟨data.length - 1, by omega⟩
  have hwm2 : writeMemory oracle2 rs1 mem1 d data k2
      = writeMemoryF oracle2 (m + 1) rs1 mem1 d data k2 := by
    rw [← hm]
    rfl
  rw [hwm2, writeMemoryF_romem oracle2 m rs1 mem1 d data k2 idx hlen0 hfind2]
  simp only []
  rw [hw0, ho0, hslice, List.drop_zero, List.take_length,
    if_neg (by omega), if_neg (by omega)]
  simp only []
  rw [safeWriteBuf_self]
  simp only []
  rw [hupd, set_getD_self rs1 idx defaultRegion hidx1]
  simp

/-- **C5 witness**: region `⟨100, [5, 5, 5]⟩` wholly contains the write of
`[7, 8]` at 100; after a first all-successful write, repeating the write
issues no memsets, returns 2 and leaves regions and memory unchanged. -/
theorem claim_C5_witness :
    RegionsDisjoint [⟨100, [5, 5, 5]⟩] ∧
    ([7, 8] : List Nat) ≠ [] ∧
    writeMemory (fun _ => true)
        (writeMemory (fun _ => true) [⟨100, [5, 5, 5]⟩] (fun _ => 5) 100 [7, 8] 0).2.2.1
        (writeMemory (fun _ => true) [⟨100, [5, 5, 5]⟩] (fun _ => 5) 100 [7, 8] 0).2.2.2.1
        100 [7, 8] 7
      = ([], 2,
        (writeMemory (fun _ => true) [⟨100, [5, 5, 5]⟩] (fun _ => 5) 100 [7, 8] 0).2.2.1,
        (writeMemory (fun _ => true) [⟨100, [5, 5, 5]⟩] (fun _ => 5) 100 [7, 8] 0).2.2.2.1,
        7) := by
  refine ⟨by decide, by decide, ?_⟩
  exact claim_C5_idempotent_rewrite (fun _ => true) (fun _ => true) (fun _ => rfl)
    [⟨100, [5, 5, 5]⟩] (by decide) (fun _ => 5) 100 [7, 8] 0 7 0 (by decide) (by decide)
    (by decide) (by decide)

/-! ## Claim C10: non-atomic snapshot update on a failed safe write -/

/-- **C10**: when the in-thread memsets of the snapshot-safe span fail (here:
the first one returns null, oracle all-false) during a write wholly inside a
registered region, the remaining runs are skipped — at most one memset is
issued and the remote memory is untouched — yet `updateSnapshot` still
records the *entire* source slice in the region's snapshot, so the snapshot
holds a byte that was never written and disagrees with the remote memory. -/
theorem claim_C10_snapshot_poisoning (oracle : Nat → Bool) (hor : ∀ n, oracle n = false)
    (rs : List Region) (hdisj : RegionsDisjoint rs) (mem : Mem) (d : Int)
    (data : List Nat) (k : Nat) (idx : Nat) (hidx : idx < rs.length)
    (hlen : data ≠ [])
    (hlo : (rs.getD idx defaultRegion).addr ≤ d)
    (hhi : d + (data.length : Int)
      ≤ (rs.getD idx defaultRegion).addr + ((rs.getD idx defaultRegion).snap.length : Int))
    (t0 : Nat) (ht0 : t0 < data.length)
    (hdiff : data.getD t0 0
      ≠ (rs.getD idx defaultRegion).snap.getD
          ((d + (t0 : Int) - (rs.getD idx defaultRegion).addr).toNat) 0)
    (hpre : mem (d + (t0 : Int))
      = (rs.getD idx defaultRegion).snap.getD
          ((d + (t0 : Int) - (rs.getD idx defaultRegion).addr).toNat) 0) :
    (∀ u : Nat, u < data.length →
      ((writeMemory oracle rs mem d data k).2.2.1.getD idx defaultRegion).snap.getD
          ((d + (u : Int) - (rs.getD idx defaultRegion).addr).toNat) 0
        = data.getD u 0) ∧
    (∀ p : Int, (writeMemory oracle rs mem d data k).2.2.2.1 p = mem p) ∧
    (writeMemory oracle rs mem d data k).1.length ≤ 1 ∧
    (writeMemory oracle rs mem d data k).2.2.2.1 (d + (t0 : Int))
      ≠ ((writeMemory oracle rs mem d data k).2.2.1.getD idx defaultRegion).snap.getD
          ((d + (t0 : Int) - (rs.getD idx defaultRegion).addr).toNat) 0 := by
  have hlen0 : data.length ≠ 0 := fun hh => hlen (List.eq_nil_of_length_eq_zero hh)
  have hlenpos : 0 < data.length := Nat.pos_of_ne_zero hlen0
  have ha : ∀ u : Nat, u < data.length →
      ((writeMemory oracle rs mem d data k).2.2.1.getD idx defaultRegion).snap.getD
          ((d + (u : Int) - (rs.getD idx defaultRegion).addr).toNat) 0
        = data.getD u 0 := by
    intro u hu
    have hs := writeMemoryF_snapshot oracle data.length rs mem d data k (Nat.le_refl _)
      hdisj idx ((d + (u : Int) - (rs.getD idx defaultRegion).addr).toNat)
      hidx (by omega) (by omega) (by omega)
    rw [show (((rs.getD idx defaultRegion).addr
        + (((d + (u : Int) - (rs.getD idx defaultRegion).addr).toNat : Nat) : Int))
          - d).toNat = u from by omega] at hs
    exact hs
  have hov1 : OverlapsP d data.length (rs.getD idx defaultRegion) :=
    ⟨by omega, by omega⟩
  have hmin1 : ∀ j, j < idx → ¬ OverlapsP d data.length (rs.getD j defaultRegion) := by
    intro j hj hovj
    obtain ⟨ho1, ho2⟩ := hovj
    have hjlen : j < rs.length := by omega
    have hdis := hdisj idx hidx j hjlen (by omega)
    rcases hdis with hdis | hdis <;> omega
  have hfind1 : findOverlappingRegion rs d data.length = some idx :=
    findOverlappingRegion_first rs d data.length idx hidx hov1 hmin1
  have hst := getOverlapInfo_start d data.length (rs.getD idx defaultRegion)
  have hen := getOverlapInfo_end d data.length (rs.getD idx defaultRegion) hov1
  have hw0 : (getOverlapInfo d data.length (rs.getD idx defaultRegion)).writeOffset
      = 0 := by omega
  have ho0 : (getOverlapInfo d data.length (rs.getD idx defaultRegion)).overlapLen
      = data.length := by omega
  obtain ⟨m, hm⟩ : ∃ m2, data.length = m2 + 1 := ⟨data.length - 1, by omega⟩
  have hwm : writeMemory oracle rs mem d data k
      = writeMemoryF oracle (m + 1) rs mem d data k := by
    rw [← hm]
    rfl
  have hsf := safeWriteBuf_allfalse oracle hor (d + ((0 : Nat) : Int)) data.length data
    (Nat.le_refl _) (getOverlapInfo d data.length (rs.getD idx defaultRegion)).snapshot
    0 k mem
  have hexp : writeMemoryF oracle (m + 1) rs mem d data k
      = ((safeWriteBuf oracle (d + ((0 : Nat) : Int)) data
            (getOverlapInfo d data.length (rs.getD idx defaultRegion)).snapshot 0 k mem).1,
         (safeWriteBuf oracle (d + ((0 : Nat) : Int)) data
            (getOverlapInfo d data.length (rs.getD idx defaultRegion)).snapshot 0 k
            mem).2.1.getD data.length,
         rs.set idx (updateSnapshot (rs.getD idx defaultRegion) data
            (d + ((0 : Nat) : Int))),
         (safeWriteBuf oracle (d + ((0 : Nat) : Int)) data
            (getOverlapInfo d data.length (rs.getD idx defaultRegion)).snapshot 0 k
            mem).2.2.2,
         (safeWriteBuf oracle (d + ((0 : Nat) : Int)) data
            (getOverlapInfo d data.length (rs.getD idx defaultRegion)).snapshot 0 k
            mem).2.2.1) := by
    rw [writeMemoryF_romem oracle m rs mem d data k idx hlen0 hfind1]
    simp only []
    rw [hw0, ho0, List.drop_zero, List.take_length,
      if_neg (by omega), if_neg (by omega)]
    simp
  have hb : ∀ p : Int, (writeMemory oracle rs mem d data k).2.2.2.1 p = mem p := by
    intro p
    rw [hwm, hexp, hsf.1]
  have hc : (writeMemory oracle rs mem d data k).1.length ≤ 1 := by
    rw [hwm, hexp]
    exact hsf.2
  refine ⟨ha, hb, hc, ?_⟩
  intro hcon
  rw [hb, hpre, ha t0 ht0] at hcon
  exact hdiff hcon.symm

/-- **C10 witness**: region `⟨100, [5, 5]⟩`, write `[7, 5]` at 100 with every
memset failing (all-false oracle), remote memory agreeing with the snapshot.
The byte at offset 0 differs (7 vs 5): afterwards the snapshot records the
full source, the memory is untouched, at most one memset was issued, and the
remote byte at 100 disagrees with the snapshot. -/
theorem claim_C10_witness :
    RegionsDisjoint [⟨100, [5, 5]⟩] ∧
    ([7, 5] : List Nat).getD 0 0
      ≠ (([⟨100, [5, 5]⟩] : List Region).getD 0 defaultRegion).snap.getD
          ((100 + ((0 : Nat) : Int)
            - (([⟨100, [5, 5]⟩] : List Region).getD 0 defaultRegion).addr).toNat) 0 ∧
    ((∀ u : Nat, u < ([7, 5] : List Nat).length →
      ((writeMemory (fun _ => false) [⟨100, [5, 5]⟩] (fun _ => 5) 100 [7, 5] 0).2.2.1.getD 0
          defaultRegion).snap.getD
          ((100 + (u : Int)
            - (([⟨100, [5, 5]⟩] : List Region).getD 0 defaultRegion).addr).toNat) 0
        = ([7, 5] : List Nat).getD u 0) ∧
    (∀ p : Int,
      (writeMemory (fun _ => false) [⟨100, [5, 5]⟩] (fun _ => 5) 100 [7, 5] 0).2.2.2.1 p
        = (fun _ => (5 : Nat)) p) ∧
    (writeMemory (fun _ => false) [⟨100, [5, 5]⟩] (fun _ => 5) 100 [7, 5] 0).1.length ≤ 1 ∧
    (writeMemory (fun _ => false) [⟨100, [5, 5]⟩] (fun _ => 5) 100 [7, 5] 0).2.2.2.1
        (100 + ((0 : Nat) : Int))
      ≠ ((writeMemory (fun _ => false) [⟨100, [5, 5]⟩] (fun _ => 5) 100 [7, 5] 0).2.2.1.getD 0
          defaultRegion).snap.getD
          ((100 + ((0 : Nat) : Int)
            - (([⟨100, [5, 5]⟩] : List Region).getD 0 defaultRegion).addr).toNat) 0) := by
  refine ⟨by decide, by decide, ?_⟩
  exact claim_C10_snapshot_poisoning (fun _ => false) (fun _ => rfl) [⟨100, [5, 5]⟩]
    (by decide) (fun _ => 5) 100 [7, 5] 0 0 (by decide) (by decide) (by decide)
    (by decide) 0 (by decide) (by decide) (by decide)


end NThreadSpec
